import Mathlib

/-!
Verification development for the `merkle_patricia_tree` repository.

The repository contains two generations of the data structure:

* the current arena-based `PatriciaMerkleTree<P, V, H>` (`src/lib.rs`,
  `src/nibble.rs`, `src/nodes/{leaf,branch}.rs`), whose nodes live in two
  slab arenas and reference each other through integer handles; and
* an older owned-pointer `PatriciaTree<V>` over fixed 32-byte keys
  (`src/node.rs`, `src/node/{leaf,branch,extension}.rs`), which is the only
  generation whose `remove` is present in the sources.

Both are embedded below (namespaces `MPT` and `PT`).  Machine integers
(`u8`, `usize`) are modelled as `Nat`; `x >> 4` on a `u8` is `x / 16`,
`x & 0x0F` is `x % 16`, `x & 0xF0` is `x / 16 % 16 * 16` (these agree with
the bitwise forms on every `Nat`).  Code that can panic (`expect`,
`unwrap`, `assert!`, out-of-bounds indexing/slicing) is modelled in the
`Option` monad, `none` meaning a panic.  Recursion through the arena uses
explicit fuel; every public entry point receives fuel larger than the
number of nodes, and the proofs show this fuel is sufficient on the
reachable states.
-/

/-- A list of bytes is valid when every element is in the `u8` range. -/
def ValidBytes (l : List Nat) : Prop := ∀ b ∈ l, b < 256

instance (l : List Nat) : Decidable (ValidBytes l) := by
  unfold ValidBytes; infer_instance

/-- Nibble `i` of a byte string: high half first (`src/nibble.rs`, iterator
`NibbleSlice::next`: even positions take `byte >> 4`, odd ones
`byte & 0x0F`). -/
def nibAt (data : List Nat) (i : Nat) : Nat :=
  if i % 2 = 0 then data.getD (i / 2) 0 / 16 else data.getD (i / 2) 0 % 16

/-- The whole nibble path of a byte string (2 nibbles per byte). -/
def nibblesOf (data : List Nat) : List Nat :=
  (List.range (2 * data.length)).map (nibAt data)

namespace MPT

/-- Sentinel for absent node/value references (`util::INVALID_REF`; the
module is absent from the sources, the spec fixes "an invalid sentinel
handle"; the concrete numeral is `usize::MAX`). -/
def INVALID_REF : Nat := 18446744073709551615

/-- Slab arena (the external `slab::Slab` dependency, modelled from the
spec's §4.2 contract: `insert`, `get`, `get_mut`, `try_remove`, stable
handles, slot reuse after removal).  The crate keeps vacant slots in a
LIFO free list threaded through the vacant entries; `free` is that list. -/
structure Slab (α : Type) where
  entries : List (Option α)
  free : List Nat
deriving DecidableEq, Repr

namespace Slab

/-- Empty slab (`Slab::new`). -/
def new {α} : Slab α := ⟨[], []⟩

/-- Occupied-slot lookup (`Slab::get`): `none` for vacant or out-of-range
handles. -/
def get {α} (s : Slab α) (i : Nat) : Option α :=
  (s.entries.getD i none)

/-- Insert into the most recently freed slot, else append
(`Slab::insert`). Returns the handle.  Appending fails (`none`) once the
entry count would reach `usize::MAX`: a Rust slab stores more than one
byte per entry, so allocation aborts long before handles could collide
with the invalid sentinel; the model makes that abort explicit. -/
def insert {α} (s : Slab α) (a : α) : Option (Nat × Slab α) :=
  match s.free with
  | n :: rest => some (n, ⟨s.entries.set n (some a), rest⟩)
  | [] =>
    if s.entries.length < INVALID_REF then
      some (s.entries.length, ⟨s.entries ++ [some a], []⟩)
    else none

/-- Remove and return the item at a handle (`Slab::try_remove`). -/
def tryRemove {α} (s : Slab α) (i : Nat) : Option (α × Slab α) :=
  (s.get i).map fun a => (a, ⟨s.entries.set i none, i :: s.free⟩)

/-- Overwrite an (occupied) slot in place (`Slab::get_mut` followed by an
assignment). -/
def setSlot {α} (s : Slab α) (i : Nat) (a : α) : Slab α :=
  ⟨s.entries.set i (some a), s.free⟩

/-- Number of occupied slots (`Slab::len`). -/
def len {α} (s : Slab α) : Nat :=
  (s.entries.filter Option.isSome).length

/-- Whether no slot is occupied (`Slab::is_empty`). -/
def isEmpty {α} (s : Slab α) : Bool :=
  s.len == 0

end Slab

/-- A borrowed, nibble-aligned view of a byte key
(`nibble.rs::NibbleSlice`). -/
structure NibbleSlice where
  data : List Nat
  offset : Nat
deriving DecidableEq, Repr

namespace NibbleSlice

/-- `NibbleSlice::new`. -/
def new (inner : List Nat) : NibbleSlice := ⟨inner, 0⟩

/-- `NibbleSlice::offset_add`. -/
def offset_add (s : NibbleSlice) (delta : Nat) : NibbleSlice :=
  ⟨s.data, s.offset + delta⟩

/-- `NibbleSlice::peek`: the nibble at the current offset, without
advancing. -/
def peek (s : NibbleSlice) : Option Nat :=
  (s.data.get? (s.offset / 2)).map fun byte =>
    if s.offset % 2 ≠ 0 then byte % 16 else byte / 16

/-- `Iterator::next` for `NibbleSlice`: the nibble at the current offset
together with the advanced slice. -/
def next (s : NibbleSlice) : Option (Nat × NibbleSlice) :=
  (s.data.get? (s.offset / 2)).map fun byte =>
    (if s.offset % 2 ≠ 0 then byte % 16 else byte / 16, ⟨s.data, s.offset + 1⟩)

/-- `NibbleSlice::cmp_rest`: compare the remaining data with `other` from
the same offset (first byte masked when the offset is odd).  `none` models
the out-of-bounds panic on `[0]` when a side is empty at an odd offset. -/
def cmp_rest (s : NibbleSlice) (other : List Nat) : Option Bool :=
  let othr := other.drop (s.offset / 2)
  let self_ := s.data.drop (s.offset / 2)
  if s.offset % 2 ≠ 0 then
    match othr, self_ with
    | o0 :: orest, s0 :: srest =>
      if o0 % 16 ≠ s0 % 16 then some false
      else some (srest == orest)
    | _, _ => none
  else
    some (self_ == othr)

end NibbleSlice

/-- An owned sub-path with half-byte boundary flags
(`nibble.rs::NibbleVec`). -/
structure NibbleVec where
  data : List Nat
  first_is_half : Bool
  last_is_half : Bool
deriving DecidableEq, Repr

namespace NibbleVec

/-- `NibbleVec::new`. -/
def new : NibbleVec := ⟨[], false, false⟩

/-- `NibbleVec::is_empty`. -/
def is_empty (v : NibbleVec) : Bool := v.data.isEmpty

/-- `NibbleVec::normalize`: an empty vector, or a single byte with both
half flags set, becomes the canonical empty state. -/
def normalize (v : NibbleVec) : NibbleVec :=
  if v.data.isEmpty ∨ (v.data.length = 1 ∧ v.first_is_half ∧ v.last_is_half) then
    ⟨[], false, false⟩
  else v

/-- Numeric value of a `Bool` flag (Rust's `flag as usize`). -/
def bn (b : Bool) : Nat := if b then 1 else 0

/-- Number of nibbles held by the vector (two per byte, minus the unused
halves). -/
def nibbleCount (v : NibbleVec) : Nat :=
  2 * v.data.length - bn v.first_is_half - bn v.last_is_half

/-- The nibbles yielded by `NibbleVecIter`: positions from
`first_is_half` up to the end, the last half-position excluded when
`last_is_half`. -/
def toNibbles (v : NibbleVec) : List Nat :=
  (List.range v.nibbleCount).map fun i =>
    nibAt v.data (i + bn v.first_is_half)

/-- `NibbleVec::split_extract_at`: the first `index` nibbles, the nibble
at `index`, and the rest, both sides renormalized.  `none` models the
`out of bounds` assertion. -/
def split_extract_at (v : NibbleVec) (index : Nat) :
    Option (NibbleVec × Nat × NibbleVec) :=
  let fih := bn v.first_is_half
  let lih := bn v.last_is_half
  if (index + fih + lih) / 2 < v.data.length then
    let left_vec := normalize
      ⟨v.data.take ((index + 1 + fih) / 2), v.first_is_half,
        decide ((index + fih) % 2 ≠ 0)⟩
    let off := index + fih
    let value :=
      if off % 2 ≠ 0 then v.data.getD (off / 2) 0 % 16
      else v.data.getD (off / 2) 0 / 16
    let off3 := (index + 1 + fih) / 2
    let right_vec := normalize
      ⟨if off3 ≥ v.data.length then [] else v.data.drop off3,
        decide ((index + fih) % 2 = 0), v.last_is_half⟩
    some (left_vec, value, right_vec)
  else
    none

end NibbleVec

/-- `NibbleSlice::split_to_vec`: copy the bytes spanning nibbles
`offset..offset+count` into a `NibbleVec` with the matching half flags. -/
def NibbleSlice.split_to_vec (s : NibbleSlice) (count : Nat) : NibbleVec :=
  { data := (s.data.take ((s.offset + count + 1) / 2)).drop (s.offset / 2)
    first_is_half := decide (s.offset % 2 ≠ 0)
    last_is_half := decide ((s.offset + count) % 2 ≠ 0) }

/-- `NibbleSlice::skip_prefix` (here `skipPref`): when `pref` is a
nibble-aligned prefix of the remaining data, advance past it and return
`true`.  `none` models the alignment assertion and the slicing panic. -/
def NibbleSlice.skipPref (s : NibbleSlice) (pref : NibbleVec) :
    Option (Bool × NibbleSlice) :=
  if (decide (s.offset % 2 ≠ 0)) ≠ pref.first_is_half then
    none
  else if s.data.length < pref.data.length then
    some (false, s)
  else if s.offset / 2 + pref.data.length > s.data.length then
    none
  else
    let prfx0 := pref.data
    let self0 := (s.data.drop (s.offset / 2)).take pref.data.length
    if prfx0.isEmpty ∨ (prfx0.length = 1 ∧ pref.first_is_half ∧ pref.last_is_half) then
      some (true, s)
    else if pref.first_is_half ∧ prfx0.getD 0 0 % 16 ≠ self0.getD 0 0 % 16 then
      some (false, s)
    else
      let prfx1 := if pref.first_is_half then prfx0.drop 1 else prfx0
      let self1 := if pref.first_is_half then self0.drop 1 else self0
      let i := self1.length - 1
      if pref.last_is_half ∧ prfx1.getD i 0 / 16 % 16 ≠ self1.getD i 0 / 16 % 16 then
        some (false, s)
      else
        let prfx2 := if pref.last_is_half then prfx1.take i else prfx1
        let self2 := if pref.last_is_half then self1.take i else self1
        if prfx2 ≠ self2 then some (false, s)
        else
          some (true, ⟨s.data,
            s.offset + 2 * pref.data.length
              - NibbleVec.bn pref.first_is_half
              - NibbleVec.bn pref.last_is_half⟩)

end MPT

/-! ## Keccak-256 (the pluggable 256-bit digest; pre-NIST padding `0x01`) -/

/-- Rotate a 64-bit lane left by `n`. -/
def rotl64 (x n : Nat) : Nat :=
  ((x <<< n) % 18446744073709551616) ||| (x >>> (64 - n))

/-- Keccak round constants. -/
def keccakRC : List Nat :=
  [0x1, 0x8082, 0x800000000000808A, 0x8000000080008000,
   0x808B, 0x80000001, 0x8000000080008081, 0x8000000000008009,
   0x8A, 0x88, 0x80008009, 0x8000000A,
   0x8000808B, 0x800000000000008B, 0x8000000000008089, 0x8000000000008003,
   0x8000000000008002, 0x8000000000000080, 0x800A, 0x800000008000000A,
   0x8000000080008081, 0x8000000000008080, 0x80000001, 0x8000000080008008]

/-- Rho rotation offsets, indexed by lane `x + 5 * y`. -/
def keccakRot : List Nat :=
  [0, 1, 62, 28, 27] ++ [36, 44, 6, 55, 20] ++ [3, 10, 43, 25, 39] ++
    [41, 45, 15, 21, 8] ++ [18, 2, 61, 56, 14]

/-- Pi destination lane for each source lane. -/
def keccakDest : List Nat :=
  [0, 10, 20, 5, 15] ++ [16, 1, 11, 21, 6] ++ [7, 17, 2, 12, 22] ++
    [23, 8, 18, 3, 13] ++ [14, 24, 9, 19, 4]

/-- Theta step. -/
def keccakTheta (A : List Nat) : List Nat :=
  let C := (List.range 5).map fun x =>
    A.getD x 0 ^^^ A.getD (x + 5) 0 ^^^ A.getD (x + 10) 0 ^^^
      A.getD (x + 15) 0 ^^^ A.getD (x + 20) 0
  let D := (List.range 5).map fun x =>
    C.getD ((x + 4) % 5) 0 ^^^ rotl64 (C.getD ((x + 1) % 5) 0) 1
  (List.range 25).map fun i => A.getD i 0 ^^^ D.getD (i % 5) 0

/-- Rho and pi steps. -/
def keccakRhoPi (A : List Nat) : List Nat :=
  (List.range 25).foldl
    (fun B i => B.set (keccakDest.getD i 0) (rotl64 (A.getD i 0) (keccakRot.getD i 0)))
    (List.replicate 25 0)

/-- Chi step. -/
def keccakChi (B : List Nat) : List Nat :=
  (List.range 25).map fun i =>
    let x := i % 5
    let base := i - x
    B.getD i 0 ^^^
      ((18446744073709551615 ^^^ B.getD (base + (x + 1) % 5) 0) &&&
        B.getD (base + (x + 2) % 5) 0)

/-- One Keccak-f round. -/
def keccakRound (A : List Nat) (rc : Nat) : List Nat :=
  let B := keccakChi (keccakRhoPi (keccakTheta A))
  B.set 0 (B.getD 0 0 ^^^ rc)

/-- The Keccak-f[1600] permutation. -/
def keccakF (A : List Nat) : List Nat :=
  keccakRC.foldl keccakRound A

/-- Little-endian lane from up to 8 bytes. -/
def laneOfBytes (bs : List Nat) : Nat :=
  bs.foldr (fun b acc => acc * 256 + b) 0

/-- Absorb one 136-byte block into the sponge state. -/
def keccakAbsorbBlock (A : List Nat) (block : List Nat) : List Nat :=
  let lanes := (List.range 17).map fun j =>
    laneOfBytes ((block.drop (8 * j)).take 8)
  keccakF ((List.range 25).map fun i =>
    if i < 17 then A.getD i 0 ^^^ lanes.getD i 0 else A.getD i 0)

/-- Split a padded message into 136-byte blocks (`n` blocks). -/
def keccakBlocks : Nat → List Nat → List (List Nat)
  | 0, _ => []
  | n + 1, bytes => bytes.take 136 :: keccakBlocks n (bytes.drop 136)

/-- Absorb a padded message. -/
def keccakAbsorb (A : List Nat) (bytes : List Nat) : List Nat :=
  (keccakBlocks (bytes.length / 136) bytes).foldl keccakAbsorbBlock A

/-- Original Keccak padding: `0x01 … 0x80`. -/
def keccakPad (len : Nat) : List Nat :=
  let q := 136 - len % 136
  if q = 1 then [0x81] else 0x01 :: (List.replicate (q - 2) 0 ++ [0x80])

/-- Keccak-256 of a byte string, as 32 bytes. -/
def keccak256 (m : List Nat) : List Nat :=
  let A := keccakAbsorb (List.replicate 25 0) (m ++ keccakPad m.length)
  (List.range 32).map fun i => (A.getD (i / 8) 0 >>> (8 * (i % 8))) % 256

namespace MPT

/-! ## Hash-encoding primitives.

Modelled from the spec: the repository's `util.rs` helpers
(`encode_path`, `write_slice`, `write_list`, `DigestBuf`) and the
`hashing.rs` module (`NodeHash`, `NodeHashRef`, `NodeHasher`) are absent
from `src/`; §4.4 of the spec fixes the byte-string and list framings and
the compact path encoding, and §6/§8 demand byte-exact Ethereum-MPT wire
compatibility, which additionally fixes the standard single-byte rule
(one byte below `0x80` stands for itself); the expected bytes in the
in-repo test `nodes/branch.rs::compute_hash_two_choices` confirm that
rule. -/

/-- Minimal big-endian byte encoding of a number (`fuel` bounds the byte
count; 16 covers every length that can occur). -/
def beBytesAux : Nat → Nat → List Nat
  | 0, _ => []
  | fuel + 1, n => if n = 0 then [] else beBytesAux fuel (n / 256) ++ [n % 256]

/-- Minimal big-endian byte encoding of a payload length. -/
def beBytes (n : Nat) : List Nat := beBytesAux 16 n

/-- Modelled from the spec: `util::write_slice`, the byte-string framing.
A single byte below `0x80` stands for itself; payloads of at most 55
bytes get the `0x80 + n` prefix; longer ones get `0xB7 + len(be(n))`,
then `be(n)`. -/
def write_slice (x : List Nat) : List Nat :=
  if x.length = 1 ∧ x.getD 0 0 < 0x80 then x
  else if x.length ≤ 55 then (0x80 + x.length) :: x
  else (0xB7 + (beBytes x.length).length) :: (beBytes x.length ++ x)

/-- Modelled from the spec: the list header written by
`NodeHasher::write_list_header` for a payload of `n` bytes. -/
def write_list_header (n : Nat) : List Nat :=
  if n ≤ 55 then [0xC0 + n] else (0xF7 + (beBytes n).length) :: beBytes n

/-- Modelled from the spec: `util::write_list`, the list framing. -/
def write_list (p : List Nat) : List Nat :=
  write_list_header p.length ++ p

/-- Modelled from the spec: `NodeHasher::bytes_len`, the framed length of
a byte-string of `len` bytes whose first byte is `first`. -/
def bytes_len (len first : Nat) : Nat :=
  if len = 1 ∧ first < 0x80 then 1
  else if len ≤ 55 then 1 + len
  else 1 + (beBytes len).length + len

/-- Pack nibbles two per byte, high half first. -/
def packPairs : List Nat → List Nat
  | a :: b :: rest => (a * 16 + b) :: packPairs rest
  | _ => []

/-- Modelled from the spec: `util::encode_path`, the compact path
encoding of a nibble sequence with the leaf flag `0x20` and the
odd-length flag `0x10`. -/
def encode_path (isLeaf : Bool) (n : List Nat) : List Nat :=
  let flag := (if isLeaf then 0x20 else 0x00) + (if n.length % 2 = 1 then 0x10 else 0x00)
  if n.length % 2 = 1 then (flag ||| n.getD 0 0) :: packPairs (n.drop 1)
  else flag :: packPairs n

/-- Modelled from the spec: `DigestBuf::extract_or_finalize` — writes
under 32 bytes are returned raw (inline), 32 bytes or more trigger the
digest. -/
def extract_or_finalize (H : List Nat → List Nat) (written : List Nat) : List Nat :=
  if written.length < 32 then written else H written

/-! ## Node taxonomy and operations (`nodes/leaf.rs`, `nodes/branch.rs`). -/

/-- A key/value slot of the value arena: the full key bytes and the value
bytes (`ValuesStorage<P, V> = Slab<(P, V)>`). -/
abbrev KV := List Nat × List Nat

/-- The node sum type (`node.rs` of the arena generation, absent from
`src/`; the three variants and their fields are those of
`nodes/{leaf,branch}.rs` and the spec's §3.2).  Each node carries its
lazy hash cache `(length, buffer)`, `length = 0` meaning dirty. -/
inductive Node where
  | leaf (value_ref : Nat) (hash : Nat × List Nat)
  | ext (pref : NibbleVec) (child_ref : Nat) (hash : Nat × List Nat)
  | branch (choices : List Nat) (value_ref : Nat) (hash : Nat × List Nat)
deriving DecidableEq, Repr

/-- Modelled from the spec: `node::InsertAction` (§4.3). -/
inductive InsertAction where
  | insert (node_ref : Nat)
  | replace (value_ref : Nat)
  | insertSelf
deriving DecidableEq, Repr

/-- Modelled from the spec: `InsertAction::quantize_self` resolves
`InsertSelf` into `Insert(ref)` once the node's reinsertion handle is
known. -/
def InsertAction.quantize_self : InsertAction → Nat → InsertAction
  | .insertSelf, r => .insert r
  | a, _ => a

/-- Count of equal leading elements of two lists (the
`zip … take_while(eq) … count` iterator chain in `LeafNode::insert`). -/
def countEq : List Nat → List Nat → Nat
  | a :: as_, b :: bs => if a = b then countEq as_ bs + 1 else 0
  | _, _ => 0

/-- The nibbles of a byte string from nibble position `off` on (a
`NibbleSlice` iterator collected after `skip(off)`). -/
def nibblesFrom (data : List Nat) (off : Nat) : List Nat :=
  (List.range (2 * data.length - off)).map fun i => nibAt data (off + i)

/-- `Iterator::nth` on a fresh `NibbleSlice` over `data` (used by
`LeafNode::insert`); `none` models the `unwrap` panic past the end. -/
def sliceNth (data : List Nat) (n : Nat) : Option Nat :=
  if n < 2 * data.length then some (nibAt data n) else none

end MPT

namespace MPT

/-- `Node::get` (the arena-generation dispatcher `node.rs` is absent from
`src/`; the per-variant bodies are `LeafNode::get` and `BranchNode::get`
from `nodes/{leaf,branch}.rs`, and — modelled from the spec §4.1/§4.3 —
the extension case follows its prefix when the path starts with it.
The result is `some (some v)` when found, `some none` when absent, and
`none` for a panic or exhausted fuel. -/
def nodeGet (H : Unit) : Nat → Slab Node → Slab KV → Node → NibbleSlice →
    Option (Option (List Nat))
  | 0, _, _, _, _ => none
  | fuel + 1, nodes, values, n, path =>
    match n with
    | .leaf vref _ => do
      let (value_path, value) ← values.get vref
      let c ← path.cmp_rest value_path
      pure (if c then some value else none)
    | .ext pref cref _ => do
      let (ok, path') ← path.skipPref pref
      if ok then do
        let child ← nodes.get cref
        nodeGet H fuel nodes values child path'
      else
        pure none
    | .branch choices vref _ =>
      match path.next with
      | some (choice, path') => do
        let inner ←
          if choice < 16 then
            let cref := choices.getD choice INVALID_REF
            if cref ≠ INVALID_REF then do
              let child ← nodes.get cref
              nodeGet H fuel nodes values child path'
            else pure (none : Option (List Nat))
          else none
        match inner with
        | some v => pure (some v)
        | none =>
          if vref ≠ INVALID_REF then do
            let (_, v) ← values.get vref
            pure (some v)
          else pure none
      | none =>
        if vref ≠ INVALID_REF then do
          let (_, v) ← values.get vref
          pure (some v)
        else pure none

/-- `Node::insert` (dispatcher absent from `src/`; bodies:
`LeafNode::insert` and `BranchNode::insert` from `nodes/{leaf,branch}.rs`;
the extension case is modelled from the spec §4.3: follow the prefix and
recurse when the path starts with it, otherwise split the prefix at the
first mismatch `k` into `(left, mid, right)`, build a branch holding the
original child (under `Extension(right, child)` when `right` is
non-empty) at `mid` and a fresh empty leaf at the path's next nibble (or
reserve the branch's value slot when the path is exhausted there), and
wrap the result in `Extension(left, …)` when `left` is non-empty,
resolving `InsertSelf` through the branch's handle.  Returns the new
nodes arena, the replacement node (not yet reinserted) and the
`InsertAction`. -/
def nodeInsert : Nat → Slab Node → Slab KV → Node → NibbleSlice →
    Option (Slab Node × Node × InsertAction)
  | 0, _, _, _, _ => none
  | fuel + 1, nodes, values, n, path =>
    match n with
    | .leaf vref hsh0 =>
      let hsh := (0, hsh0.2)
      do
      let (value_path, _) ← values.get vref
      let c ← path.cmp_rest value_path
      if c then
        pure (nodes, .leaf vref hsh, .replace vref)
      else
        let offset := countEq (nibblesFrom value_path path.offset)
          (nibblesFrom path.data path.offset)
        let path_branch := path.offset_add offset
        let absolute_offset := path_branch.offset
        let step : Option (Slab Node × (List Nat × Nat) × InsertAction) :=
          if offset = 2 * path.data.length then do
            let choiceNib ← sliceNth value_path absolute_offset
            if choiceNib < 16 then
              let (selfRef, nodes) ← nodes.insert (.leaf vref hsh)
              let choices := (List.replicate 16 INVALID_REF).set choiceNib selfRef
              pure (nodes, (choices, INVALID_REF), InsertAction.insertSelf)
            else none
          else if offset = 2 * value_path.length then do
            let (child_ref, nodes) ← nodes.insert (.leaf INVALID_REF (0, []))
            let (nib, _) ← path_branch.next
            if nib < 16 then
              let choices := (List.replicate 16 INVALID_REF).set nib child_ref
              pure (nodes, (choices, vref), InsertAction.insert child_ref)
            else none
          else do
            let (child_ref, nodes) ← nodes.insert (.leaf INVALID_REF (0, []))
            let oldNib ← sliceNth value_path absolute_offset
            let (selfRef, nodes) ← nodes.insert (.leaf vref hsh)
            let (newNib, _) ← path_branch.next
            if oldNib < 16 ∧ newNib < 16 then
              let choices := ((List.replicate 16 INVALID_REF).set oldNib selfRef).set
                newNib child_ref
              pure (nodes, (choices, INVALID_REF), InsertAction.insert child_ref)
            else none
        do
        let (nodes, bfields, insert_action) ← step
        if offset ≠ 0 then
          let (branch_ref, nodes) ←
            nodes.insert (.branch bfields.1 bfields.2 (0, []))
          pure (nodes, .ext (path.split_to_vec offset) branch_ref (0, []),
            insert_action.quantize_self branch_ref)
        else
          pure (nodes, .branch bfields.1 bfields.2 (0, []), insert_action)
    | .branch choices vref hsh0 =>
      let hsh := (0, hsh0.2)
      match path.next with
      | some (choice, path') =>
        if choice < 16 then
          let cref := choices.getD choice INVALID_REF
          if cref = INVALID_REF then do
            let (child_ref, nodes) ← nodes.insert (.leaf INVALID_REF (0, []))
            pure (nodes, Node.branch (choices.set choice child_ref) vref hsh,
              InsertAction.insert child_ref)
          else do
            let (child, nodes) ← nodes.tryRemove cref
            let (nodes, child', act) ← nodeInsert fuel nodes values child path'
            let (newRef, nodes) ← nodes.insert child'
            pure (nodes, .branch (choices.set choice newRef) vref hsh,
              act.quantize_self newRef)
        else none
      | none =>
        if vref ≠ INVALID_REF then
          some (nodes, .branch choices vref hsh, .replace vref)
        else
          some (nodes, .branch choices vref hsh, .insertSelf)
    | .ext pref cref hsh0 =>
      let hsh := (0, hsh0.2)
      do
      let (ok, path') ← path.skipPref pref
      if ok then do
        let (child, nodes) ← nodes.tryRemove cref
        let (nodes, child', act) ← nodeInsert fuel nodes values child path'
        let (newRef, nodes) ← nodes.insert child'
        pure (nodes, .ext pref newRef hsh, act.quantize_self newRef)
      else
        let k := countEq pref.toNibbles (nibblesFrom path.data path.offset)
        let (left, mid, right) ← pref.split_extract_at k
        let step : Option (Nat × Slab Node) :=
          if right.is_empty then some (cref, nodes)
          else nodes.insert (.ext right cref (0, []))
        let (midRef, nodes) ← step
        if mid < 16 then
          let pathk := path.offset_add k
          match pathk.next with
          | some (newNib, _) =>
            if newNib < 16 then do
              let (child_ref, nodes) ← nodes.insert (.leaf INVALID_REF (0, []))
              let choices := ((List.replicate 16 INVALID_REF).set mid midRef).set
                newNib child_ref
              if left.is_empty then
                pure (nodes, .branch choices INVALID_REF (0, []),
                  .insert child_ref)
              else do
                let (bref, nodes) ← nodes.insert (.branch choices INVALID_REF (0, []))
                pure (nodes, .ext left bref (0, []),
                  (InsertAction.insert child_ref).quantize_self bref)
            else none
          | none =>
            let choices := (List.replicate 16 INVALID_REF).set mid midRef
            if left.is_empty then
              pure (nodes, .branch choices INVALID_REF (0, []),
                InsertAction.insertSelf)
            else do
              let (bref, nodes) ← nodes.insert (.branch choices INVALID_REF (0, []))
              pure (nodes, .ext left bref (0, []),
                InsertAction.insertSelf.quantize_self bref)
        else none

/-- `Node::compute_hash`, as a pure function of the state (the in-node
caches all start dirty, so the computing path of
`nodes/branch.rs::compute_hash` is followed; cache writes are not
observable in the returned bytes).  The result is the node's
hash-reference: its encoding when shorter than 32 bytes, its 32-byte
digest otherwise.  The leaf body is `nodes/leaf.rs::compute_hash`; the
branch body is `nodes/branch.rs::compute_hash` (first the `children_len`
pre-pass with `bytes_len`, then the header, the 16 child items, and the
value item); the extension body is modelled from the spec §4.4. -/
def nodeHashF (H : List Nat → List Nat) : Nat → Slab Node → Slab KV → Node → Nat →
    Option (List Nat)
  | 0, _, _, _, _ => none
  | fuel + 1, nodes, values, n, key_offset =>
    match n with
    | .leaf vref _ => do
      let (key, value) ← values.get vref
      let key_buf := encode_path true (nibblesFrom key key_offset)
      let payload := write_slice key_buf ++ write_slice value
      pure (extract_or_finalize H (write_list payload))
    | .ext pref cref _ => do
      let child ← nodes.get cref
      let childHash ← nodeHashF H fuel nodes values child
        (key_offset + pref.nibbleCount)
      let childItem :=
        if childHash.length < 32 then childHash else write_slice childHash
      let payload := write_slice (encode_path false pref.toNibbles) ++ childItem
      pure (extract_or_finalize H (write_list payload))
    | .branch choices vref _ => do
      let childLens ← (List.range 16).mapM fun i => do
        let cref := choices.getD i INVALID_REF
        if cref ≠ INVALID_REF then do
          let child ← nodes.get cref
          let ch ← nodeHashF H fuel nodes values child (key_offset + 1)
          pure (if ch.length < 32 then ch.length
            else bytes_len ch.length (ch.getD 0 0))
        else pure 1
      let valueLen ←
        if vref ≠ INVALID_REF then do
          let (_, value) ← values.get vref
          pure (bytes_len value.length (value.headD 0))
        else pure 1
      let children_len := childLens.sum + valueLen
      let items ← (List.range 16).mapM fun i => do
        let cref := choices.getD i INVALID_REF
        if cref ≠ INVALID_REF then do
          let child ← nodes.get cref
          let ch ← nodeHashF H fuel nodes values child (key_offset + 1)
          pure (if ch.length < 32 then ch else write_slice ch)
        else pure (write_slice [])
      let valueItem ←
        if vref ≠ INVALID_REF then do
          let (_, value) ← values.get vref
          pure (write_slice value)
        else pure (write_slice [])
      pure (extract_or_finalize H
        (write_list_header children_len ++ items.flatten ++ valueItem))

end MPT

namespace MPT

/-! ## The root facade (`lib.rs::PatriciaMerkleTree`). -/

/-- The tree: root handle plus the two arenas (`lib.rs`). -/
structure PatriciaMerkleTree where
  root_ref : Nat
  nodes : Slab Node
  values : Slab KV
deriving DecidableEq, Repr

namespace PatriciaMerkleTree

/-- `PatriciaMerkleTree::new`. -/
def new : PatriciaMerkleTree := ⟨INVALID_REF, Slab.new, Slab.new⟩

/-- `PatriciaMerkleTree::is_empty` — a node-arena population check. -/
def is_empty (t : PatriciaMerkleTree) : Bool := t.nodes.isEmpty

/-- `PatriciaMerkleTree::len` — a value-arena population check. -/
def len (t : PatriciaMerkleTree) : Nat := t.values.len

/-- `PatriciaMerkleTree::get`: dispatch to the root when the root handle
is occupied; `some none` when the tree is empty or the key absent. -/
def get (t : PatriciaMerkleTree) (path : List Nat) : Option (Option (List Nat)) :=
  match t.nodes.get t.root_ref with
  | none => some none
  | some root =>
    nodeGet () (t.nodes.entries.length + 1) t.nodes t.values root
      (NibbleSlice.new path)

/-- `PatriciaMerkleTree::insert`: remove the root, run the node-level
insertion, reinsert the returned node as the new root, then act on the
quantized `InsertAction` (attach the freshly stored value, or replace an
existing one and return it). -/
def insert (t : PatriciaMerkleTree) (path value : List Nat) :
    Option (PatriciaMerkleTree × Option (List Nat)) :=
  match t.nodes.tryRemove t.root_ref with
  | some (root, nodes0) => do
    let (nodes1, root', act) ←
      nodeInsert (t.nodes.entries.length + 1) nodes0 t.values root
        (NibbleSlice.new path)
    let (rref, nodes2) ← nodes1.insert root'
    match act.quantize_self rref with
    | .insert nref => do
      let (vref, values') ← t.values.insert (path, value)
      let nd ← nodes2.get nref
      match nd with
      | .leaf _ h => pure (⟨rref, nodes2.setSlot nref (.leaf vref h), values'⟩, none)
      | .branch cs _ h =>
        pure (⟨rref, nodes2.setSlot nref (.branch cs vref h), values'⟩, none)
      | .ext _ _ _ => none
    | .replace vref => do
      let (p, old) ← t.values.get vref
      pure (⟨rref, nodes2, t.values.setSlot vref (p, value)⟩, some old)
    | .insertSelf => none
  | none => do
    let (vref, values') ← t.values.insert (path, value)
    let (rref, nodes') ← t.nodes.insert (.leaf vref (0, []))
    pure (⟨rref, nodes', values'⟩, none)

/-- `PatriciaMerkleTree::compute_hash`: `none` result stands for an empty
tree; on a non-empty tree the root's hash-reference is written to a fresh
`DigestBuf` and finalized, so the output is always a 32-byte digest. -/
def compute_hash (H : List Nat → List Nat) (t : PatriciaMerkleTree) :
    Option (Option (List Nat)) :=
  match t.nodes.tryRemove t.root_ref with
  | none => some none
  | some (root, nodes0) => do
    let h ← nodeHashF H (t.nodes.entries.length + 1) nodes0 t.values root 0
    pure (some (H h))

end PatriciaMerkleTree

/-- Run a sequence of insertions from the empty tree; `none` when some
insertion panics. -/
def runInserts (s : List (List Nat × List Nat)) : Option PatriciaMerkleTree :=
  s.foldlM (fun t kv => (t.insert kv.1 kv.2).map Prod.fst) PatriciaMerkleTree.new

end MPT

namespace PT

/-! ## The older owned-pointer generation (`src/node.rs`,
`src/node/{leaf,branch,extension}.rs`), over fixed `[u8; 32]` keys.
`remove` exists only in this generation.  The source types an extension's
child as `BranchNode<V>`; the embedding uses a general child node and the
theorems prove that every operation keeps extension children branches. -/

/-- The node sum type (`node.rs::Node`, with `node/branch.rs::BranchNode`
(16 optional boxed children), `node/extension.rs::ExtensionNode` (nibble
prefix plus child) and `node/leaf.rs::LeafNode` (full key plus value)
inlined as constructors). -/
inductive PTNode (V : Type) where
  | leaf (key : List Nat) (value : V)
  | ext (pref : List Nat) (child : PTNode V)
  | branch (choices : List (Option (PTNode V)))

/-- `util.rs::KeySegmentIterator::nth`: nibble `n` of a 32-byte key;
`none` models the out-of-range panic at `n ≥ 64`. -/
def keyNib (k : List Nat) (n : Nat) : Option Nat :=
  if n < 64 then some (nibAt k n) else none

/-- The nibbles of a 32-byte key from position `off` on
(`KeySegmentIterator::new(key).skip(off)` collected). -/
def keyNibsFrom (k : List Nat) (off : Nat) : List Nat :=
  (List.range (64 - off)).map fun i => nibAt k (off + i)

/-- `Node::get` (`node.rs`): branches index by the key nibble, extensions
compare the prefix with the zipped key nibbles, leaves compare the whole
key. -/
def get {V} : Nat → PTNode V → List Nat → Nat → Option (Option V)
  | 0, _, _, _ => none
  | fuel + 1, n, key, off =>
    match n with
    | .leaf k v => pure (if key = k then some v else none)
    | .ext pf child =>
      if ((keyNibsFrom key off).zip pf).all (fun ab => ab.1 == ab.2) then
        get fuel child key (off + pf.length)
      else
        pure none
    | .branch choices => do
      let c ← keyNib key off
      if c < 16 then
        match choices.getD c none with
        | some child => get fuel child key (off + 1)
        | none => pure none
      else none

/-- Result of the `single_child` scan in `BranchNode::remove`. -/
inductive ScanRes (V : Type) where
  | zero
  | one (idx : Nat) (node : PTNode V)
  | many

/-- The `single_child` loop of `BranchNode::remove`: no occupied choice,
exactly one (with its index), or more than one. -/
def scanSingle {V} (l : List (Option (PTNode V))) : ScanRes V :=
  (l.enum).foldl
    (fun st ic =>
      match st, ic.2 with
      | .many, _ => .many
      | st, none => st
      | .zero, some x => .one ic.1 x
      | .one _ _, some _ => .many)
    .zero

mutual

/-- `Node::remove` (`node.rs`): dispatch; the branch arm drops the
collapse-index signal. -/
def remove {V} : Nat → PTNode V → List Nat → Nat →
    Option (Option (PTNode V) × Option V)
  | 0, _, _, _ => none
  | fuel + 1, n, key, off =>
    match n with
    | .leaf k v =>
      pure (if key = k then (none, some v) else (some (.leaf k v), none))
    | .ext pf child => extRemove fuel pf child key off
    | .branch choices => do
      let (r, y) ← branchRemove fuel choices key off
      pure (match r with
        | some (_, x) => (some x, y)
        | none => (none, y))

/-- `BranchNode::remove` (`node/branch.rs`): recurse into the chosen
child, then keep the branch, collapse to the single remaining child
(signalling its nibble), or vanish. -/
def branchRemove {V} : Nat → List (Option (PTNode V)) → List Nat → Nat →
    Option (Option (Option Nat × PTNode V) × Option V)
  | 0, _, _, _ => none
  | fuel + 1, choices, key, off => do
    let index ← keyNib key off
    if index < 16 then
      match choices.getD index none with
      | some child_node => do
        let (new_child, old_value) ← remove fuel child_node key (off + 1)
        let choices' :=
          match new_child with
          | some nc => choices.set index (some nc)
          | none => choices.set index none
        match scanSingle choices' with
        | .many => pure (some (none, .branch choices'), old_value)
        | .one i x => pure (some (some i, x), old_value)
        | .zero => pure (none, old_value)
      | none => pure (some (none, .branch choices), none)
    else none

/-- `ExtensionNode::remove` (`node/extension.rs`): recurse into the child
branch; reattach a branch, merge a returned extension (prepending the
signalled nibble), unwrap a returned leaf, or vanish.  The `unreachable!`
on a missing collapse nibble is a panic (`none`). -/
def extRemove {V} : Nat → List Nat → PTNode V → List Nat → Nat →
    Option (Option (PTNode V) × Option V)
  | 0, _, _, _, _ => none
  | fuel + 1, pf, child, key, off =>
    match child with
    | .branch choices => do
      let (new_child, old_value) ← branchRemove fuel choices key (off + pf.length)
      let res ←
        match new_child with
        | some (_, .branch bc) => some (some (.ext pf (.branch bc)))
        | some (idx, .ext p2 c2) =>
          match idx with
          | some x => some (some (.ext ((pf ++ [x]) ++ p2) c2))
          | none => none
        | some (_, .leaf k v) => some (some (.leaf k v))
        | none => some none
      pure (res, old_value)
    | _ => none

end

/-- Shape well-formedness: extension prefixes are non-empty nibble lists,
extension children are branches, branches hold 16 choices of which at
least two are occupied. -/
inductive ShapeWF {V} : PTNode V → Prop
  | leaf (k : List Nat) (v : V) : ShapeWF (.leaf k v)
  | ext (pf : List Nat) (child : PTNode V) :
    pf ≠ [] → (∃ bc, child = .branch bc) → ShapeWF child →
    ShapeWF (.ext pf child)
  | branch (choices : List (Option (PTNode V))) :
    choices.length = 16 →
    2 ≤ (choices.filter Option.isSome).length →
    (∀ c ∈ choices, ∀ n, c = some n → ShapeWF n) →
    ShapeWF (.branch choices)

/-- Key/value membership in a tree. -/
inductive KeyValIn {V} : List Nat → V → PTNode V → Prop
  | leaf (k : List Nat) (v : V) : KeyValIn k v (.leaf k v)
  | ext (k : List Nat) (v : V) (pf : List Nat) (child : PTNode V) :
    KeyValIn k v child → KeyValIn k v (.ext pf child)
  | branch (k : List Nat) (v : V) (choices : List (Option (PTNode V)))
      (i : Nat) (n : PTNode V) :
    choices.getD i none = some n → KeyValIn k v n →
    KeyValIn k v (.branch choices)

/-- Key membership in a tree. -/
def KeyIn {V} (k : List Nat) (n : PTNode V) : Prop := ∃ v, KeyValIn k v n

/-- Positional well-formedness at nibble offset `off`: keys are 32 valid
bytes, the structure sits within the 64-nibble key space, and every key
stored below a branch choice or an extension agrees with the route that
leads to it. -/
inductive PosWF {V} : PTNode V → Nat → Prop
  | leaf (k : List Nat) (v : V) (off : Nat) :
    k.length = 32 → ValidBytes k → off ≤ 64 → PosWF (.leaf k v) off
  | ext (pf : List Nat) (child : PTNode V) (off : Nat) :
    pf ≠ [] → off + pf.length ≤ 64 →
    (∀ k v, KeyValIn k v child → ∀ j, j < pf.length →
      nibAt k (off + j) = pf.getD j 0) →
    PosWF child (off + pf.length) →
    PosWF (.ext pf child) off
  | branch (choices : List (Option (PTNode V))) (off : Nat) :
    off < 64 →
    (∀ i n, choices.getD i none = some n →
      ∀ k v, KeyValIn k v n → nibAt k off = i) →
    (∀ i n, choices.getD i none = some n → PosWF n (off + 1)) →
    PosWF (.branch choices) off

end PT

namespace MPT

/-! ## Slab well-formedness and frame lemmas. -/

/-- Soundness of a slab's free list: free slots are in range, vacant and
unrepeated, and the arena has not reached the sentinel size. -/
structure SlabWF {α : Type} (s : Slab α) : Prop where
  free_lt : ∀ n ∈ s.free, n < s.entries.length
  free_vacant : ∀ n ∈ s.free, s.entries.getD n none = none
  free_nodup : s.free.Nodup
  len_le : s.entries.length ≤ INVALID_REF

theorem slabWF_new {α : Type} : SlabWF (Slab.new : Slab α) := by
  constructor <;> simp [Slab.new]

theorem slab_get_new {α : Type} (i : Nat) : (Slab.new : Slab α).get i = none := by
  simp [Slab.new, Slab.get]

/-- Specification of a successful `Slab.insert`: the returned slot was
vacant, now holds the item, every other slot is unchanged, well-formedness
is preserved, and the handle is below the sentinel. -/
theorem slab_insert_spec {α : Type} {s : Slab α} {a : α} {r : Nat} {s' : Slab α}
    (hwf : SlabWF s) (h : s.insert a = some (r, s')) :
    s.get r = none ∧ s'.get r = some a ∧ (∀ m, m ≠ r → s'.get m = s.get m) ∧
      SlabWF s' ∧ r < INVALID_REF := by
  unfold Slab.insert at h
  match hfree : s.free with
  | n :: rest =>
    rw [hfree] at h
    injection h with h; injection h with h1 h2; subst h1; subst h2
    have hn := hwf.free_lt n (by rw [hfree]; exact List.mem_cons_self ..)
    have hv := hwf.free_vacant n (by rw [hfree]; exact List.mem_cons_self ..)
    refine ⟨hv, ?_, ?_, ?_, lt_of_lt_of_le hn hwf.len_le⟩
    · simp [Slab.get, List.getD_eq_getElem?_getD, List.getElem?_set_self hn]
    · intro m hm
      simp [Slab.get, List.getD_eq_getElem?_getD, List.getElem?_set_ne (Ne.symm hm)]
    · constructor
      · intro m hm
        simp only [List.length_set]
        exact hwf.free_lt m (by rw [hfree]; exact List.mem_cons_of_mem _ hm)
      · intro m hm
        have hmr : m ≠ n := by
          intro hc; subst hc
          have := hwf.free_nodup
          rw [hfree] at this
          exact (List.nodup_cons.mp this).1 hm
        have := hwf.free_vacant m (by rw [hfree]; exact List.mem_cons_of_mem _ hm)
        simpa [List.getD_eq_getElem?_getD, List.getElem?_set_ne (Ne.symm hmr)] using this
      · have := hwf.free_nodup
        rw [hfree] at this
        exact (List.nodup_cons.mp this).2
      · simpa using hwf.len_le
  | [] =>
    rw [hfree] at h
    by_cases hlen : s.entries.length < INVALID_REF
    · rw [if_pos hlen] at h
      injection h with h; injection h with h1 h2; subst h1; subst h2
      refine ⟨?_, ?_, ?_, ?_, hlen⟩
      · simp [Slab.get, List.getD_eq_getElem?_getD, List.getElem?_eq_none (le_refl _)]
      · simp [Slab.get, List.getD_eq_getElem?_getD]
      · intro m hm
        rcases Nat.lt_or_ge m s.entries.length with hlt | hge
        · simp [Slab.get, List.getD_eq_getElem?_getD, List.getElem?_append_left hlt]
        · have hgt : s.entries.length < m := lt_of_le_of_ne hge (Ne.symm hm)
          simp only [Slab.get, List.getD_eq_getElem?_getD]
          rw [List.getElem?_eq_none (show (s.entries ++ [some a]).length ≤ m by
              simp only [List.length_append, List.length_cons, List.length_nil]
              omega),
            List.getElem?_eq_none (Nat.le_of_lt hgt)]
      · refine ⟨by simp, by simp, by simp, ?_⟩
        simp only [List.length_append, List.length_singleton]
        omega
    · rw [if_neg hlen] at h; exact absurd h (by simp)

/-- Specification of a successful `Slab.tryRemove`. -/
theorem slab_tryRemove_spec {α : Type} {s : Slab α} {i : Nat} {a : α} {s' : Slab α}
    (hwf : SlabWF s) (h : s.tryRemove i = some (a, s')) :
    s.get i = some a ∧ s'.get i = none ∧ (∀ m, m ≠ i → s'.get m = s.get m) ∧
      SlabWF s' := by
  unfold Slab.tryRemove at h
  match hg : s.get i with
  | none => rw [hg] at h; exact absurd h (by simp)
  | some b =>
    rw [hg] at h
    injection h with h; injection h with h1 h2; subst h1; subst h2
    have hi : i < s.entries.length := by
      by_contra hc
      have : s.get i = none := by
        simp [Slab.get, List.getD_eq_getElem?_getD, List.getElem?_eq_none (Nat.le_of_not_lt hc)]
      rw [this] at hg; exact absurd hg (by simp)
    refine ⟨rfl, ?_, ?_, ?_⟩
    · simp [Slab.get, List.getD_eq_getElem?_getD, List.getElem?_set_self hi]
    · intro m hm
      simp [Slab.get, List.getD_eq_getElem?_getD, List.getElem?_set_ne (Ne.symm hm)]
    · constructor
      · intro m hm
        simp only [List.length_set]
        rcases List.mem_cons.mp hm with h1 | h1
        · omega
        · exact hwf.free_lt m h1
      · intro m hm
        rcases List.mem_cons.mp hm with h1 | h1
        · subst h1
          simp [List.getD_eq_getElem?_getD, List.getElem?_set_self hi]
        · have hmi : m ≠ i := by
            intro hc; subst hc
            have := hwf.free_vacant m h1
            rw [show (s.entries.getD m none) = s.get m from rfl] at this
            rw [hg] at this; exact absurd this (by simp)
          have := hwf.free_vacant m h1
          simpa [List.getD_eq_getElem?_getD, List.getElem?_set_ne (Ne.symm hmi)] using this
      · refine List.nodup_cons.mpr ⟨?_, hwf.free_nodup⟩
        intro hc
        have := hwf.free_vacant i hc
        rw [show (s.entries.getD i none) = s.get i from rfl] at this
        rw [hg] at this; exact absurd this (by simp)
      · simpa using hwf.len_le

/-- Specification of `Slab.setSlot` on an occupied slot. -/
theorem slab_setSlot_spec {α : Type} {s : Slab α} {i : Nat} {a b : α}
    (hwf : SlabWF s) (hg : s.get i = some b) :
    (s.setSlot i a).get i = some a ∧
      (∀ m, m ≠ i → (s.setSlot i a).get m = s.get m) ∧ SlabWF (s.setSlot i a) := by
  have hi : i < s.entries.length := by
    by_contra hc
    have : s.get i = none := by
      simp [Slab.get, List.getD_eq_getElem?_getD, List.getElem?_eq_none (Nat.le_of_not_lt hc)]
    rw [this] at hg; exact absurd hg (by simp)
  refine ⟨?_, ?_, ?_⟩
  · simp [Slab.setSlot, Slab.get, List.getD_eq_getElem?_getD, List.getElem?_set_self hi]
  · intro m hm
    simp [Slab.setSlot, Slab.get, List.getD_eq_getElem?_getD,
      List.getElem?_set_ne (Ne.symm hm)]
  · constructor
    · intro m hm
      simp only [Slab.setSlot, List.length_set]
      exact hwf.free_lt m hm
    · intro m hm
      have hmi : m ≠ i := by
        intro hc; subst hc
        have := hwf.free_vacant m hm
        rw [show (s.entries.getD m none) = s.get m from rfl] at this
        rw [hg] at this; exact absurd this (by simp)
      have := hwf.free_vacant m hm
      simpa [Slab.setSlot, List.getD_eq_getElem?_getD,
        List.getElem?_set_ne (Ne.symm hmi)] using this
    · exact hwf.free_nodup
    · simpa [Slab.setSlot] using hwf.len_le

end MPT

namespace MPT

/-! ## A structural representation invariant for the arena generation.

`SRV nodes h n fp pend pendSelf` says the node `n` (held by value) roots a
well-shaped subtree of height below `h` inside the `nodes` arena:
extension prefixes are non-empty and extension children are branches
(spec §3.3 invariants 1–3), branches have 16 choices and at least two
exits counting a pending value slot (invariant 4), the subtree's slots
`fp` are distinct and do not include the value-holding hole, and at most
one node of the subtree is incomplete — the hole created by an insertion
before the facade attaches the value: a leaf with an invalid value
reference, or the designated branch (`pendSelf`) whose value slot is
reserved; `pend` names the incomplete descendant's slot. -/

/-- Whether a node is a branch. -/
def Node.isBranch : Node → Bool
  | .branch _ _ _ => true
  | _ => false

/-- The choice array entry at a given nibble (with the invalid sentinel
as default).  A named accessor keeps the invariant definitions stable
under simplification. -/
def choiceAt (choices : List Nat) (i : Nat) : Nat :=
  choices.getD i INVALID_REF

theorem choiceAt_def (choices : List Nat) (i : Nat) :
    choiceAt choices i = choices.getD i INVALID_REF := rfl

/-- Number of occupied choices of a branch. -/
def countValid (choices : List Nat) : Nat :=
  (choices.filter (fun c => c != INVALID_REF)).length

def SRV (nodes : Slab Node) : Nat → Node → Finset Nat → Option Nat → Bool → Prop
  | 0, _, _, _, _ => False
  | h + 1, n, fp, pend, pendSelf =>
    match n with
    | .leaf vref _ => fp = ∅ ∧ pend = none ∧ pendSelf = decide (vref = INVALID_REF)
    | .ext pf cref _ =>
      pendSelf = false ∧ pf.is_empty = false ∧
      ∃ cn fpc,
        nodes.get cref = some cn ∧ cn.isBranch = true ∧
        fp = insert cref fpc ∧ cref ∉ fpc ∧
        ((pend = some cref ∧ SRV nodes h cn fpc none true) ∨
         (pend ≠ some cref ∧ SRV nodes h cn fpc pend false))
    | .branch choices vref _ =>
      choices.length = 16 ∧
      2 ≤ countValid choices + (if vref ≠ INVALID_REF ∨ pendSelf = true then 1 else 0) ∧
      (pendSelf = true → vref = INVALID_REF ∧ pend = none) ∧
      ∃ (tfp : Fin 16 → Finset Nat) (pdf : Fin 16 → Option Nat),
        fp = Finset.univ.biUnion tfp ∧
        (∀ i j : Fin 16, i ≠ j → Disjoint (tfp i) (tfp j)) ∧
        (∃ jj : Fin 16, pdf jj = (if pendSelf then none else pend) ∧
          ∀ i : Fin 16, i ≠ jj → pdf i = none) ∧
        (∀ i : Fin 16,
          if choiceAt choices i.1 = INVALID_REF then tfp i = ∅ ∧ pdf i = none
          else ∃ cn fpc,
            nodes.get (choiceAt choices i.1) = some cn ∧
            tfp i = insert (choiceAt choices i.1) fpc ∧
            (choiceAt choices i.1) ∉ fpc ∧
            ((pdf i = some (choiceAt choices i.1) ∧ SRV nodes h cn fpc none true) ∨
             (pdf i ≠ some (choiceAt choices i.1) ∧ SRV nodes h cn fpc (pdf i) false)))

/-- The by-reference form: the subtree rooted at the occupied slot `ref`,
whose footprint includes `ref` itself. -/
def SRR (nodes : Slab Node) (h : Nat) (ref : Nat) (fp : Finset Nat)
    (pend : Option Nat) : Prop :=
  ∃ n fpc,
    nodes.get ref = some n ∧ fp = insert ref fpc ∧ ref ∉ fpc ∧
    ((pend = some ref ∧ SRV nodes h n fpc none true) ∨
     (pend ≠ some ref ∧ SRV nodes h n fpc pend false))

/-- Height monotonicity of `SRV`. -/
theorem srv_mono {nodes : Slab Node} :
    ∀ {h h' : Nat} {n fp pend ps}, h ≤ h' → SRV nodes h n fp pend ps →
      SRV nodes h' n fp pend ps := by
  intro h
  induction h with
  | zero => intro h' n fp pend ps _ hs; exact absurd hs (by simp [SRV])
  | succ h ih =>
    intro h' n fp pend ps hle hs
    match h' with
    | 0 => omega
    | h' + 1 =>
      have hle' : h ≤ h' := by omega
      match n with
      | .leaf vref hs0 => exact hs
      | .ext pf cref hs0 =>
        obtain ⟨hps, hpf, cn, fpc, hget, hbr, hfp, hnotin, harm⟩ := hs
        refine ⟨hps, hpf, cn, fpc, hget, hbr, hfp, hnotin, ?_⟩
        rcases harm with ⟨h1, h2⟩ | ⟨h1, h2⟩
        · exact Or.inl ⟨h1, ih hle' h2⟩
        · exact Or.inr ⟨h1, ih hle' h2⟩
      | .branch choices vref hs0 =>
        obtain ⟨hlen, hex, hpsv, tfp, pdf, hfp, hdisj, hpdf, hch⟩ := hs
        refine ⟨hlen, hex, hpsv, tfp, pdf, hfp, hdisj, hpdf, ?_⟩
        intro i
        have := hch i
        by_cases hc : choiceAt choices i.1 = INVALID_REF
        · rw [if_pos hc] at this ⊢; exact this
        · simp only [if_neg hc] at this ⊢
          obtain ⟨cn, fpc, hget, htfp, hnotin, harm⟩ := this
          refine ⟨cn, fpc, hget, htfp, hnotin, ?_⟩
          rcases harm with ⟨h1, h2⟩ | ⟨h1, h2⟩
          · exact Or.inl ⟨h1, ih hle' h2⟩
          · exact Or.inr ⟨h1, ih hle' h2⟩

/-- Every slot of an `SRV` footprint is occupied. -/
theorem srv_fp_occupied {nodes : Slab Node} :
    ∀ {h : Nat} {n fp pend ps}, SRV nodes h n fp pend ps →
      ∀ r ∈ fp, ∃ x, nodes.get r = some x := by
  intro h
  induction h with
  | zero => intro n fp pend ps hs; exact absurd hs (by simp [SRV])
  | succ h ih =>
    intro n fp pend ps hs r hr
    match n with
    | .leaf vref hs0 =>
      obtain ⟨hfp, -, -⟩ := hs
      subst hfp; exact absurd hr (by simp)
    | .ext pf cref hs0 =>
      obtain ⟨-, -, cn, fpc, hget, -, hfp, -, harm⟩ := hs
      subst hfp
      rcases Finset.mem_insert.mp hr with h1 | h1
      · subst h1; exact ⟨cn, hget⟩
      · rcases harm with ⟨-, h2⟩ | ⟨-, h2⟩ <;> exact ih h2 r h1
    | .branch choices vref hs0 =>
      obtain ⟨-, -, -, tfp, pdf, hfp, -, -, hch⟩ := hs
      subst hfp
      obtain ⟨i, -, hi⟩ := Finset.mem_biUnion.mp hr
      have := hch i
      by_cases hc : choiceAt choices i.1 = INVALID_REF
      · rw [if_pos hc] at this
        rw [this.1] at hi; exact absurd hi (by simp)
      · rw [if_neg hc] at this
        obtain ⟨cn, fpc, hget, htfp, -, harm⟩ := this
        rw [htfp] at hi
        rcases Finset.mem_insert.mp hi with h1 | h1
        · subst h1; exact ⟨cn, hget⟩
        · rcases harm with ⟨-, h2⟩ | ⟨-, h2⟩ <;> exact ih h2 r h1

/-- `SRV` only depends on the slots of its footprint. -/
theorem srv_frame {nodes nodes' : Slab Node} :
    ∀ {h : Nat} {n fp pend ps}, SRV nodes h n fp pend ps →
      (∀ r ∈ fp, nodes'.get r = nodes.get r) →
      SRV nodes' h n fp pend ps := by
  intro h
  induction h with
  | zero => intro n fp pend ps hs; exact absurd hs (by simp [SRV])
  | succ h ih =>
    intro n fp pend ps hs hframe
    match n with
    | .leaf vref hs0 => exact hs
    | .ext pf cref hs0 =>
      obtain ⟨hps, hpf, cn, fpc, hget, hbr, hfp, hnotin, harm⟩ := hs
      have hcref : cref ∈ fp := by rw [hfp]; exact Finset.mem_insert_self ..
      have hsub : ∀ r ∈ fpc, nodes'.get r = nodes.get r := by
        intro r hr; exact hframe r (by rw [hfp]; exact Finset.mem_insert_of_mem hr)
      refine ⟨hps, hpf, cn, fpc, (hframe cref hcref).trans hget, hbr, hfp, hnotin, ?_⟩
      rcases harm with ⟨h1, h2⟩ | ⟨h1, h2⟩
      · exact Or.inl ⟨h1, ih h2 hsub⟩
      · exact Or.inr ⟨h1, ih h2 hsub⟩
    | .branch choices vref hs0 =>
      obtain ⟨hlen, hex, hpsv, tfp, pdf, hfp, hdisj, hpdf, hch⟩ := hs
      refine ⟨hlen, hex, hpsv, tfp, pdf, hfp, hdisj, hpdf, ?_⟩
      intro i
      have := hch i
      by_cases hc : choiceAt choices i.1 = INVALID_REF
      · rw [if_pos hc] at this ⊢; exact this
      · simp only [if_neg hc] at this ⊢
        obtain ⟨cn, fpc, hget, htfp, hnotin, harm⟩ := this
        have hmem : choiceAt choices i.1 ∈ fp := by
          rw [hfp]; exact Finset.mem_biUnion.mpr ⟨i, Finset.mem_univ _,
            by rw [htfp]; exact Finset.mem_insert_self ..⟩
        have hsub : ∀ r ∈ fpc, nodes'.get r = nodes.get r := by
          intro r hr
          refine hframe r ?_
          rw [hfp]; exact Finset.mem_biUnion.mpr ⟨i, Finset.mem_univ _,
            by rw [htfp]; exact Finset.mem_insert_of_mem hr⟩
        refine ⟨cn, fpc, (hframe _ hmem).trans hget, htfp, hnotin, ?_⟩
        rcases harm with ⟨h1, h2⟩ | ⟨h1, h2⟩
        · exact Or.inl ⟨h1, ih h2 hsub⟩
        · exact Or.inr ⟨h1, ih h2 hsub⟩

/-- A pending slot belongs to the footprint. -/
theorem srv_pend_mem {nodes : Slab Node} :
    ∀ {h : Nat} {n fp p ps}, SRV nodes h n fp (some p) ps → p ∈ fp := by
  intro h
  induction h with
  | zero => intro n fp p ps hs; exact absurd hs (by simp [SRV])
  | succ h ih =>
    intro n fp p ps hs
    match n with
    | .leaf vref hs0 => exact absurd hs.2.1 (by simp)
    | .ext pf cref hs0 =>
      obtain ⟨-, -, cn, fpc, -, -, hfp, -, harm⟩ := hs
      subst hfp
      rcases harm with ⟨h1, -⟩ | ⟨-, h2⟩
      · rw [show p = cref by injection h1]; exact Finset.mem_insert_self ..
      · exact Finset.mem_insert_of_mem (ih h2)
    | .branch choices vref hs0 =>
      obtain ⟨-, -, hpsv, tfp, pdf, hfp, -, ⟨jj, hjj, -⟩, hch⟩ := hs
      subst hfp
      by_cases hps : ps = true
      · obtain ⟨-, hpn⟩ := hpsv hps
        exact absurd hpn (by simp)
      · rw [if_neg (by simpa using hps)] at hjj
        have := hch jj
        by_cases hc : choiceAt choices jj.1 = INVALID_REF
        · rw [if_pos hc] at this
          rw [this.2] at hjj; exact absurd hjj.symm (by simp)
        · rw [if_neg hc] at this
          obtain ⟨cn, fpc, -, htfp, -, harm⟩ := this
          refine Finset.mem_biUnion.mpr ⟨jj, Finset.mem_univ _, ?_⟩
          rw [htfp]
          rcases harm with ⟨h1, -⟩ | ⟨h1, h2⟩
          · rw [hjj] at h1
            rw [show p = choiceAt choices jj.1 by injection h1]
            exact Finset.mem_insert_self ..
          · rw [hjj] at h2
            exact Finset.mem_insert_of_mem (ih h2)

end MPT

namespace MPT

/-- `SRV` under `pendSelf` carries no descendant hole. -/
theorem srv_ps_pend_none {nodes : Slab Node} {h n fp pend} :
    SRV nodes h n fp pend true → pend = none := by
  match h with
  | 0 => intro hs; exact absurd hs (by simp [SRV])
  | h + 1 =>
    intro hs
    match n with
    | .leaf vref hs0 => exact hs.2.1
    | .ext pf cref hs0 => exact absurd hs.1 (by simp)
    | .branch choices vref hs0 => exact (hs.2.2.1 rfl).2

/-- Reinserting a node that satisfies `SRV` into a fresh slot yields the
by-reference form at that slot. -/
theorem srr_of_srv_insert {nodes nodes' : Slab Node} {n : Node} {h : Nat}
    {fp : Finset Nat} {pend : Option Nat} {ps : Bool} {r : Nat}
    (hwf : SlabWF nodes) (hins : nodes.insert n = some (r, nodes'))
    (hsrv : SRV nodes h n fp pend ps) :
    SlabWF nodes' ∧ (∀ m, m ≠ r → nodes'.get m = nodes.get m) ∧
      nodes.get r = none ∧
      SRR nodes' h r (insert r fp) (if ps then some r else pend) := by
  obtain ⟨hfresh, hget, hother, hwf', hr⟩ := slab_insert_spec hwf hins
  have hrfp : r ∉ fp := by
    intro hc
    obtain ⟨x, hx⟩ := srv_fp_occupied hsrv r hc
    rw [hx] at hfresh; exact absurd hfresh (by simp)
  have hframe : SRV nodes' h n fp pend ps :=
    srv_frame hsrv (by
      intro q hq
      exact hother q (by intro hc; subst hc; exact hrfp hq))
  refine ⟨hwf', hother, hfresh, n, fp, hget, rfl, hrfp, ?_⟩
  by_cases hps : ps = true
  · subst hps
    have := srv_ps_pend_none hframe
    subst this
    exact Or.inl ⟨by simp, hframe⟩
  · have hps' : ps = false := by simpa using hps
    subst hps'
    refine Or.inr ⟨?_, hframe⟩
    intro hc
    subst hc
    exact hrfp (srv_pend_mem hframe)

/-- Removing the root of a complete by-reference subtree exposes the
by-value form on the remaining slots. -/
theorem srv_of_srr_tryRemove {nodes nodes₀ : Slab Node} {h : Nat} {ref : Nat}
    {fp : Finset Nat} {n : Node}
    (hwf : SlabWF nodes) (hrm : nodes.tryRemove ref = some (n, nodes₀))
    (hsrr : SRR nodes h ref fp none) :
    SlabWF nodes₀ ∧ (∀ m, m ≠ ref → nodes₀.get m = nodes.get m) ∧
      SRV nodes₀ h n (fp.erase ref) none false := by
  obtain ⟨hget, hnone, hother, hwf₀⟩ := slab_tryRemove_spec hwf hrm
  obtain ⟨n2, fpc, hget2, hfp, hnotin, harm⟩ := hsrr
  have hn2 : n2 = n := by rw [hget2] at hget; injection hget
  subst hn2
  rcases harm with ⟨hc, -⟩ | ⟨-, hsrv⟩
  · exact absurd hc (by simp)
  refine ⟨hwf₀, hother, ?_⟩
  have herase : fp.erase ref = fpc := by
    rw [hfp, Finset.erase_insert hnotin]
  rw [herase]
  exact srv_frame hsrv (by
    intro q hq
    exact hother q (by intro hc; subst hc; exact hnotin hq))

/-- `countValid` over a cons. -/
theorem countValid_cons (c : Nat) (l : List Nat) :
    countValid (c :: l) = (if c = INVALID_REF then 0 else 1) + countValid l := by
  by_cases hc : c = INVALID_REF
  · simp [countValid, List.filter_cons, hc]
  · have hb : (c != INVALID_REF) = true := by simpa using hc
    simp only [countValid, List.filter_cons, hb, if_true, List.length_cons, if_neg hc]
    omega

/-- `countValid` of the all-invalid choice row. -/
theorem countValid_replicate : countValid (List.replicate 16 INVALID_REF) = 0 := by
  simp [countValid, List.filter_eq_nil_iff]

/-- Effect of `List.set` on `countValid`. -/
theorem countValid_set (l : List Nat) (i : Nat) (a : Nat) (hi : i < l.length) :
    countValid (l.set i a) + (if choiceAt l i = INVALID_REF then 0 else 1) =
      countValid l + (if a = INVALID_REF then 0 else 1) := by
  rw [choiceAt_def]
  induction l generalizing i with
  | nil => simp at hi
  | cons x xs ih =>
    match i with
    | 0 =>
      simp only [List.set_cons_zero, List.getD_cons_zero, countValid_cons]
      omega
    | i + 1 =>
      have hi' : i < xs.length := by simpa using hi
      simp only [List.set_cons_succ, List.getD_cons_succ, countValid_cons]
      have := ih i hi'
      omega

/-- The choice row after setting a slot of the all-invalid row. -/
theorem getD_replicate_set (i k a : Nat) (hi : i < 16) :
    choiceAt ((List.replicate 16 INVALID_REF).set i a) k =
      if k = i then a else INVALID_REF := by
  rw [choiceAt_def]
  by_cases hk : k = i
  · subst hk
    have hlen : k < (List.replicate 16 INVALID_REF).length := by
      rw [List.length_replicate]; exact hi
    rw [List.getD_eq_getElem?_getD, List.getElem?_set_self hlen]
    simp
  · rw [List.getD_eq_getElem?_getD, List.getElem?_set_ne (Ne.symm hk), if_neg hk,
      List.getElem?_replicate]
    rcases Nat.lt_or_ge k 16 with hlt | hge
    · rw [if_pos hlt]; rfl
    · rw [if_neg (by omega)]; rfl

/-- The choice row after setting a slot of an arbitrary row. -/
theorem getD_set (l : List Nat) (i k a : Nat) (hi : i < l.length) :
    choiceAt (l.set i a) k = if k = i then a else choiceAt l k := by
  rw [choiceAt_def, choiceAt_def]
  by_cases hk : k = i
  · subst hk
    rw [List.getD_eq_getElem?_getD, List.getElem?_set_self hi]
    simp
  · rw [List.getD_eq_getElem?_getD, List.getElem?_set_ne (Ne.symm hk), if_neg hk,
      List.getD_eq_getElem?_getD]

end MPT

namespace MPT

/-- Introduction form for a branch's `SRV`, phrased through `SRR` for the
children. -/
theorem srv_branch_intro {nodes : Slab Node} {h : Nat} {choices : List Nat}
    {vref : Nat} {hs0 : Nat × List Nat} {fp : Finset Nat} {pend : Option Nat}
    {ps : Bool}
    (hlen : choices.length = 16)
    (hex : 2 ≤ countValid choices + (if vref ≠ INVALID_REF ∨ ps = true then 1 else 0))
    (hpsv : ps = true → vref = INVALID_REF ∧ pend = none)
    (tfp : Fin 16 → Finset Nat) (pdf : Fin 16 → Option Nat)
    (hfp : fp = Finset.univ.biUnion tfp)
    (hdisj : ∀ i j : Fin 16, i ≠ j → Disjoint (tfp i) (tfp j))
    (hpdf : ∃ jj : Fin 16, pdf jj = (if ps then none else pend) ∧
      ∀ i : Fin 16, i ≠ jj → pdf i = none)
    (hch : ∀ i : Fin 16,
      if choiceAt choices i.1 = INVALID_REF then tfp i = ∅ ∧ pdf i = none
      else SRR nodes h (choiceAt choices i.1) (tfp i) (pdf i)) :
    SRV nodes (h + 1) (.branch choices vref hs0) fp pend ps := by
  refine ⟨hlen, hex, hpsv, tfp, pdf, hfp, hdisj, hpdf, ?_⟩
  intro i
  have := hch i
  by_cases hc : choiceAt choices i.1 = INVALID_REF
  · rw [if_pos hc] at this ⊢; exact this
  · rw [if_neg hc] at this ⊢; exact this

/-- Elimination form for a branch's `SRV`. -/
theorem srv_branch_elim {nodes : Slab Node} {h : Nat} {choices : List Nat}
    {vref : Nat} {hs0 : Nat × List Nat} {fp : Finset Nat} {pend : Option Nat}
    {ps : Bool} (hs : SRV nodes (h + 1) (.branch choices vref hs0) fp pend ps) :
    choices.length = 16 ∧
    2 ≤ countValid choices + (if vref ≠ INVALID_REF ∨ ps = true then 1 else 0) ∧
    (ps = true → vref = INVALID_REF ∧ pend = none) ∧
    ∃ (tfp : Fin 16 → Finset Nat) (pdf : Fin 16 → Option Nat),
      fp = Finset.univ.biUnion tfp ∧
      (∀ i j : Fin 16, i ≠ j → Disjoint (tfp i) (tfp j)) ∧
      (∃ jj : Fin 16, pdf jj = (if ps then none else pend) ∧
        ∀ i : Fin 16, i ≠ jj → pdf i = none) ∧
      (∀ i : Fin 16,
        if choiceAt choices i.1 = INVALID_REF then tfp i = ∅ ∧ pdf i = none
        else SRR nodes h (choiceAt choices i.1) (tfp i) (pdf i)) := by
  obtain ⟨hlen, hex, hpsv, tfp, pdf, hfp, hdisj, hpdf, hch⟩ := hs
  refine ⟨hlen, hex, hpsv, tfp, pdf, hfp, hdisj, hpdf, ?_⟩
  intro i
  have := hch i
  by_cases hc : choiceAt choices i.1 = INVALID_REF
  · rw [if_pos hc] at this ⊢; exact this
  · rw [if_neg hc] at this ⊢; exact this

/-- A fresh branch with a single occupied choice. -/
theorem srv_branch_one {nodes : Slab Node} {h : Nat} {i a vref : Nat}
    {hs0 : Nat × List Nat} {fpa : Finset Nat} {pa pend : Option Nat} {ps : Bool}
    (hi : i < 16) (ha : a ≠ INVALID_REF)
    (hA : SRR nodes h a fpa pa)
    (hexits : vref ≠ INVALID_REF ∨ ps = true)
    (hpsv : ps = true → vref = INVALID_REF ∧ pend = none ∧ pa = none)
    (hpsf : ps = false → pa = pend) :
    SRV nodes (h + 1)
      (.branch ((List.replicate 16 INVALID_REF).set i a) vref hs0) fpa pend ps := by
  have hgetD : ∀ k : Nat, choiceAt ((List.replicate 16 INVALID_REF).set i a) k =
      if k = i then a else INVALID_REF := fun k => getD_replicate_set i k a hi
  have hcv : countValid ((List.replicate 16 INVALID_REF).set i a) = 1 := by
    have hset := countValid_set (List.replicate 16 INVALID_REF) i a (by simp [hi])
    rw [countValid_replicate] at hset
    have hrep : choiceAt (List.replicate 16 INVALID_REF) i = INVALID_REF := by
      rw [choiceAt_def, List.getD_eq_getElem?_getD, List.getElem?_replicate, if_pos hi]
      rfl
    rw [hrep] at hset
    simpa [ha] using hset
  refine srv_branch_intro (by simp) ?_ (fun hps => ⟨(hpsv hps).1, (hpsv hps).2.1⟩)
    (Function.update (fun _ => ∅) (⟨i, hi⟩ : Fin 16) fpa)
    (Function.update (fun _ => none) (⟨i, hi⟩ : Fin 16) pa)
    ?_ ?_ ?_ ?_
  · rw [hcv]
    rcases hexits with h1 | h1 <;> simp [h1]
  · ext r
    simp only [Finset.mem_biUnion, Finset.mem_univ, true_and]
    constructor
    · intro hr
      exact ⟨⟨i, hi⟩, by rw [Function.update_same]; exact hr⟩
    · rintro ⟨x, hx⟩
      by_cases hxi : x = (⟨i, hi⟩ : Fin 16)
      · subst hxi; rw [Function.update_same] at hx; exact hx
      · rw [Function.update_noteq hxi] at hx; exact absurd hx (by simp)
  · intro x y hxy
    by_cases hx : x = (⟨i, hi⟩ : Fin 16)
    · have hy : y ≠ (⟨i, hi⟩ : Fin 16) := by
        intro hc; exact hxy (by rw [hx, hc])
      rw [Function.update_noteq hy]
      exact Finset.disjoint_empty_right _
    · rw [Function.update_noteq hx]
      exact Finset.disjoint_empty_left _
  · refine ⟨⟨i, hi⟩, ?_, ?_⟩
    · rw [Function.update_same]
      cases hps : ps with
      | true => rw [if_pos rfl]; exact (hpsv hps).2.2
      | false => rw [if_neg (by simp)]; exact hpsf hps
    · intro k hk
      rw [Function.update_noteq hk]
  · intro k
    rw [hgetD k.1]
    by_cases hk : k.1 = i
    · have hkk : k = (⟨i, hi⟩ : Fin 16) := Fin.ext hk
      subst hkk
      rw [if_pos rfl, if_neg ha, Function.update_same, Function.update_same]
      exact hA
    · have hkk : k ≠ (⟨i, hi⟩ : Fin 16) := by
        intro hc; exact hk (by rw [hc])
      rw [if_neg hk, if_pos rfl, Function.update_noteq hkk, Function.update_noteq hkk]
      exact ⟨rfl, rfl⟩

/-- A fresh branch with exactly two occupied choices. -/
theorem srv_branch_two {nodes : Slab Node} {h : Nat} {i j a b v : Nat}
    {u : Nat × List Nat} {fpa fpb : Finset Nat} {pa pb pend : Option Nat}
    (hij : i ≠ j) (hi : i < 16) (hj : j < 16)
    (ha : a ≠ INVALID_REF) (hb : b ≠ INVALID_REF)
    (hA : SRR nodes h a fpa pa) (hB : SRR nodes h b fpb pb)
    (hdisjab : Disjoint fpa fpb)
    (hpend : (pa = pend ∧ pb = none) ∨ (pa = none ∧ pb = pend)) :
    SRV nodes (h + 1)
      (.branch (((List.replicate 16 INVALID_REF).set i a).set j b) v u)
      (fpa ∪ fpb) pend false := by
  have hgetD : ∀ k : Nat,
      choiceAt (((List.replicate 16 INVALID_REF).set i a).set j b) k =
        if k = j then b else if k = i then a else INVALID_REF := by
    intro k
    rw [getD_set _ j k b (by simp [hj]), getD_replicate_set i k a hi]
  have hcv : countValid (((List.replicate 16 INVALID_REF).set i a).set j b) = 2 := by
    have hs1 : countValid ((List.replicate 16 INVALID_REF).set i a) = 1 := by
      have hset := countValid_set (List.replicate 16 INVALID_REF) i a (by simp [hi])
      rw [countValid_replicate] at hset
      have hrep : choiceAt (List.replicate 16 INVALID_REF) i = INVALID_REF := by
        rw [choiceAt_def, List.getD_eq_getElem?_getD, List.getElem?_replicate, if_pos hi]
        rfl
      rw [hrep] at hset
      simpa [ha] using hset
    have hji : choiceAt ((List.replicate 16 INVALID_REF).set i a) j = INVALID_REF := by
      rw [getD_replicate_set i j a hi]
      exact if_neg (fun hc => hij hc.symm)
    have hset := countValid_set ((List.replicate 16 INVALID_REF).set i a) j b
      (by simp [hj])
    rw [hs1, hji, if_pos rfl, if_neg hb] at hset
    omega
  have hiijj : (⟨i, hi⟩ : Fin 16) ≠ (⟨j, hj⟩ : Fin 16) := by
    intro hc; exact hij (by injection hc)
  refine srv_branch_intro (by simp) (by rw [hcv]; omega) (by simp)
    (Function.update (Function.update (fun _ => ∅) (⟨i, hi⟩ : Fin 16) fpa)
      (⟨j, hj⟩ : Fin 16) fpb)
    (Function.update (Function.update (fun _ => none) (⟨i, hi⟩ : Fin 16) pa)
      (⟨j, hj⟩ : Fin 16) pb)
    ?_ ?_ ?_ ?_
  · ext r
    simp only [Finset.mem_biUnion, Finset.mem_univ, true_and, Finset.mem_union]
    constructor
    · rintro (hr | hr)
      · refine ⟨⟨i, hi⟩, ?_⟩
        rw [Function.update_noteq hiijj, Function.update_same]
        exact hr
      · exact ⟨⟨j, hj⟩, by rw [Function.update_same]; exact hr⟩
    · rintro ⟨x, hx⟩
      by_cases hxj : x = (⟨j, hj⟩ : Fin 16)
      · subst hxj; rw [Function.update_same] at hx; exact Or.inr hx
      · rw [Function.update_noteq hxj] at hx
        by_cases hxi : x = (⟨i, hi⟩ : Fin 16)
        · subst hxi; rw [Function.update_same] at hx; exact Or.inl hx
        · rw [Function.update_noteq hxi] at hx; exact absurd hx (by simp)
  · intro x y hxy
    by_cases hxj : x = (⟨j, hj⟩ : Fin 16) <;>
      by_cases hyj : y = (⟨j, hj⟩ : Fin 16)
    · exact absurd (hxj.trans hyj.symm) hxy
    · subst hxj
      rw [Function.update_same, Function.update_noteq hyj]
      by_cases hyi : y = (⟨i, hi⟩ : Fin 16)
      · subst hyi; rw [Function.update_same]; exact hdisjab.symm
      · rw [Function.update_noteq hyi]; exact Finset.disjoint_empty_right _
    · subst hyj
      rw [Function.update_same, Function.update_noteq hxj]
      by_cases hxi : x = (⟨i, hi⟩ : Fin 16)
      · subst hxi; rw [Function.update_same]; exact hdisjab
      · rw [Function.update_noteq hxi]; exact Finset.disjoint_empty_left _
    · rw [Function.update_noteq hxj, Function.update_noteq hyj]
      by_cases hxi : x = (⟨i, hi⟩ : Fin 16)
      · subst hxi
        have hyi : y ≠ (⟨i, hi⟩ : Fin 16) := fun hc => hxy (by rw [hc])
        rw [Function.update_noteq hyi]
        exact Finset.disjoint_empty_right _
      · rw [Function.update_noteq hxi]
        exact Finset.disjoint_empty_left _
  · rcases hpend with ⟨hpa, hpb⟩ | ⟨hpa, hpb⟩
    · refine ⟨⟨i, hi⟩, ?_, ?_⟩
      · rw [Function.update_noteq hiijj, Function.update_same, if_neg (by simp)]
        exact hpa
      · intro k hk
        by_cases hkj : k = (⟨j, hj⟩ : Fin 16)
        · subst hkj; rw [Function.update_same]; exact hpb
        · rw [Function.update_noteq hkj, Function.update_noteq hk]
    · refine ⟨⟨j, hj⟩, ?_, ?_⟩
      · rw [Function.update_same, if_neg (by simp)]
        exact hpb
      · intro k hk
        rw [Function.update_noteq hk]
        by_cases hki : k = (⟨i, hi⟩ : Fin 16)
        · subst hki; rw [Function.update_same]; exact hpa
        · rw [Function.update_noteq hki]
  · intro k
    rw [hgetD k.1]
    by_cases hkj : k.1 = j
    · have hkk : k = (⟨j, hj⟩ : Fin 16) := Fin.ext hkj
      subst hkk
      rw [if_pos rfl, if_neg hb, Function.update_same, Function.update_same]
      exact hB
    · have hkkj : k ≠ (⟨j, hj⟩ : Fin 16) := fun hc => hkj (by rw [hc])
      rw [if_neg hkj, Function.update_noteq hkkj, Function.update_noteq hkkj]
      by_cases hki : k.1 = i
      · have hkk : k = (⟨i, hi⟩ : Fin 16) := Fin.ext hki
        subst hkk
        rw [if_pos rfl, if_neg ha, Function.update_same, Function.update_same]
        exact hA
      · have hkki : k ≠ (⟨i, hi⟩ : Fin 16) := fun hc => hki (by rw [hc])
        rw [if_neg hki, if_pos rfl, Function.update_noteq hkki,
          Function.update_noteq hkki]
        exact ⟨rfl, rfl⟩

end MPT
namespace MPT

/-- An occupied slot's handle is below the sentinel. -/
theorem occupied_ne_invalid {α : Type} {s : Slab α} {r : Nat} {x : α}
    (hwf : SlabWF s) (hg : s.get r = some x) : r ≠ INVALID_REF := by
  intro hc
  have hr : r < s.entries.length := by
    by_contra hge
    have hnone : s.get r = none := by
      simp [Slab.get, List.getD_eq_getElem?_getD,
        List.getElem?_eq_none (Nat.le_of_not_lt hge)]
    rw [hnone] at hg; exact absurd hg (by simp)
  have := hwf.len_le
  omega

/-- Element lookup in a mapped range. -/
theorem get_range_map {β : Type} (f : Nat → β) (n i : Nat) :
    ((List.range n).map f).get? i = if i < n then some (f i) else none := by
  by_cases hi : i < n
  · rw [if_pos hi, List.get?_eq_getElem?, List.getElem?_map, List.getElem?_range hi]
    rfl
  · rw [if_neg hi, List.get?_eq_getElem?,
      List.getElem?_eq_none (by simpa using Nat.le_of_not_lt hi)]

/-- The two elements at the index where `countEq` stopped differ. -/
theorem countEq_ne : ∀ (xs ys : List Nat) {a b : Nat},
    xs.get? (countEq xs ys) = some a → ys.get? (countEq xs ys) = some b → a ≠ b := by
  intro xs
  induction xs with
  | nil =>
    intro ys a b ha hb
    rw [show countEq [] ys = 0 from rfl] at ha
    exact absurd ha (by simp)
  | cons x xt ih =>
    intro ys a b ha hb
    match ys with
    | [] =>
      rw [show countEq (x :: xt) [] = 0 from rfl] at hb
      exact absurd hb (by simp)
    | y :: yt =>
      by_cases hxy : x = y
      · rw [show countEq (x :: xt) (y :: yt) = countEq xt yt + 1 from by
          simp [countEq, hxy]] at ha hb
        exact ih yt (by simpa using ha) (by simpa using hb)
      · rw [show countEq (x :: xt) (y :: yt) = 0 from by simp [countEq, hxy]] at ha hb
        simp only [List.get?_eq_getElem?, List.getElem?_cons_zero,
          Option.some.injEq] at ha hb
        rw [← ha, ← hb]; exact hxy

/-- Characterization of a successful `sliceNth`. -/
theorem sliceNth_eq_some {data : List Nat} {n v : Nat}
    (h : sliceNth data n = some v) : v = nibAt data n ∧ n < 2 * data.length := by
  unfold sliceNth at h
  by_cases hn : n < 2 * data.length
  · rw [if_pos hn] at h
    exact ⟨(Option.some.injEq _ _ ▸ h).symm, hn⟩
  · rw [if_neg hn] at h
    exact absurd h (by simp)

/-- Element lookup in `nibblesFrom`. -/
theorem nibblesFrom_get (data : List Nat) (off i : Nat) :
    (nibblesFrom data off).get? i =
      if i < 2 * data.length - off then some (nibAt data (off + i)) else none := by
  unfold nibblesFrom
  exact get_range_map _ _ _

/-- Characterization of a successful `NibbleSlice.next`. -/
theorem NibbleSlice.next_eq_some {s : NibbleSlice} {v : Nat} {s' : NibbleSlice}
    (h : s.next = some (v, s')) :
    v = nibAt s.data s.offset ∧ s.offset < 2 * s.data.length ∧
      s' = ⟨s.data, s.offset + 1⟩ := by
  unfold NibbleSlice.next at h
  match hg : s.data.get? (s.offset / 2) with
  | none => rw [hg] at h; exact absurd h (by simp)
  | some byte =>
    rw [hg] at h
    simp only [Option.map_some', Option.some.injEq, Prod.mk.injEq] at h
    obtain ⟨hv, hs'⟩ := h
    have hlen : s.offset / 2 < s.data.length := by
      by_contra hge
      rw [List.get?_eq_getElem?, List.getElem?_eq_none (Nat.le_of_not_lt hge)] at hg
      exact absurd hg (by simp)
    have hbyte : s.data.getD (s.offset / 2) 0 = byte := by
      rw [List.getD_eq_getElem?_getD, ← List.get?_eq_getElem?, hg]; rfl
    refine ⟨?_, by omega, hs'.symm⟩
    rw [← hv]; unfold nibAt; rw [hbyte]
    by_cases hpar : s.offset % 2 = 0 <;> simp [hpar]

/-- A nibble-vector copy of a non-empty nibble range is non-empty. -/
theorem split_to_vec_ne_empty {s : NibbleSlice} {count : Nat}
    (hc : count ≠ 0) (ho : s.offset < 2 * s.data.length) :
    (s.split_to_vec count).is_empty = false := by
  unfold NibbleSlice.split_to_vec NibbleVec.is_empty
  have hlen : 0 < ((s.data.take ((s.offset + count + 1) / 2)).drop (s.offset / 2)).length := by
    rw [List.length_drop, List.length_take]
    omega
  cases hd : (s.data.take ((s.offset + count + 1) / 2)).drop (s.offset / 2) with
  | nil => rw [hd] at hlen; exact absurd hlen (by simp)
  | cons a l => simp [hd]

/-- A pending-distribution with a `none` designated slot is all-`none`. -/
theorem pdf_all_none {pdf : Fin 16 → Option Nat}
    (h : ∃ jj : Fin 16, pdf jj = none ∧ ∀ i : Fin 16, i ≠ jj → pdf i = none) :
    ∀ i, pdf i = none := by
  obtain ⟨jj, hjj, ho⟩ := h
  intro i
  by_cases hi : i = jj
  · subst hi; exact hjj
  · exact ho i hi

/-- Writing back the element already stored at an index is the identity. -/
theorem set_self_of_getD {α : Type} : ∀ (l : List (Option α)) (i : Nat) (a : α),
    l.getD i none = some a → l.set i (some a) = l := by
  intro l
  induction l with
  | nil => intro i a h; exact absurd h (by simp)
  | cons x xt ih =>
    intro i a h
    match i with
    | 0 =>
      rw [List.getD_cons_zero] at h
      rw [List.set_cons_zero, h]
    | i + 1 =>
      rw [List.getD_cons_succ] at h
      rw [List.set_cons_succ, ih i a h]

end MPT
namespace MPT

/-- `Slab.len` as a list measure. -/
theorem slab_len_def {α : Type} (s : Slab α) :
    s.len = (s.entries.filter Option.isSome).length := rfl

/-- Occupancy count over a cons. -/
theorem occCount_cons {α : Type} (x : Option α) (l : List (Option α)) :
    ((x :: l).filter Option.isSome).length =
      (if x.isSome then 1 else 0) + (l.filter Option.isSome).length := by
  by_cases hx : x.isSome
  · simp [List.filter_cons, hx, Nat.add_comm]
  · simp [List.filter_cons, Bool.eq_false_iff.mpr hx, hx]

/-- Filling a vacant slot raises the occupancy count by one. -/
theorem occCount_set_none {α : Type} :
    ∀ (l : List (Option α)) (i : Nat) (a : α), i < l.length →
      l.getD i none = none →
      ((l.set i (some a)).filter Option.isSome).length =
        (l.filter Option.isSome).length + 1 := by
  intro l
  induction l with
  | nil => intro i a hi; simp at hi
  | cons x xt ih =>
    intro i a hi hv
    match i with
    | 0 =>
      rw [List.getD_cons_zero] at hv
      subst hv
      rw [List.set_cons_zero, occCount_cons, occCount_cons]
      simp [Nat.add_comm]
    | i + 1 =>
      rw [List.getD_cons_succ] at hv
      rw [List.set_cons_succ, occCount_cons, occCount_cons,
        ih i a (by simpa using hi) hv]
      omega

/-- Overwriting an occupied slot keeps the occupancy count. -/
theorem occCount_set_some {α : Type} :
    ∀ (l : List (Option α)) (i : Nat) (a b : α), l.getD i none = some b →
      ((l.set i (some a)).filter Option.isSome).length =
        (l.filter Option.isSome).length := by
  intro l
  induction l with
  | nil => intro i a b hv; exact absurd hv (by simp)
  | cons x xt ih =>
    intro i a b hv
    match i with
    | 0 =>
      rw [List.getD_cons_zero] at hv
      subst hv
      rw [List.set_cons_zero, occCount_cons, occCount_cons]
      simp
    | i + 1 =>
      rw [List.getD_cons_succ] at hv
      rw [List.set_cons_succ, occCount_cons, occCount_cons, ih i a b hv]

/-- Vacating an occupied slot lowers the occupancy count by one. -/
theorem occCount_set_vacate {α : Type} :
    ∀ (l : List (Option α)) (i : Nat) (b : α), l.getD i none = some b →
      ((l.set i none).filter Option.isSome).length + 1 =
        (l.filter Option.isSome).length := by
  intro l
  induction l with
  | nil => intro i b hv; exact absurd hv (by simp)
  | cons x xt ih =>
    intro i b hv
    match i with
    | 0 =>
      rw [List.getD_cons_zero] at hv
      subst hv
      rw [List.set_cons_zero, occCount_cons, occCount_cons]
      simp [Nat.add_comm]
    | i + 1 =>
      rw [List.getD_cons_succ] at hv
      rw [List.set_cons_succ, occCount_cons, occCount_cons]
      have := ih i b hv
      omega

/-- A successful `Slab.insert` raises `len` by one. -/
theorem slab_insert_len {α : Type} {s : Slab α} {a : α} {r : Nat} {s' : Slab α}
    (hwf : SlabWF s) (h : s.insert a = some (r, s')) : s'.len = s.len + 1 := by
  unfold Slab.insert at h
  match hfree : s.free with
  | n :: rest =>
    rw [hfree] at h
    injection h with h; injection h with h1 h2; subst h1; subst h2
    have hn := hwf.free_lt n (by rw [hfree]; exact List.mem_cons_self ..)
    have hv := hwf.free_vacant n (by rw [hfree]; exact List.mem_cons_self ..)
    exact occCount_set_none s.entries n a hn hv
  | [] =>
    rw [hfree] at h
    by_cases hlen : s.entries.length < INVALID_REF
    · rw [if_pos hlen] at h
      injection h with h; injection h with h1 h2; subst h1; subst h2
      simp [Slab.len, List.filter_append]
    · rw [if_neg hlen] at h; exact absurd h (by simp)

/-- A successful `Slab.tryRemove` lowers `len` by one. -/
theorem slab_tryRemove_len {α : Type} {s : Slab α} {i : Nat} {a : α} {s' : Slab α}
    (h : s.tryRemove i = some (a, s')) : s'.len + 1 = s.len := by
  unfold Slab.tryRemove at h
  match hg : s.get i with
  | none => rw [hg] at h; exact absurd h (by simp)
  | some b =>
    rw [hg] at h
    injection h with h; injection h with h1 h2; subst h1; subst h2
    exact occCount_set_vacate s.entries i b hg

/-- `Slab.setSlot` on an occupied slot keeps `len`. -/
theorem slab_setSlot_len {α : Type} {s : Slab α} {i : Nat} {b : α} (a : α)
    (hg : s.get i = some b) : (s.setSlot i a).len = s.len := by
  exact occCount_set_some s.entries i a b hg

/-- `Slab.setSlot` keeps the arena's physical size. -/
theorem slab_setSlot_entries_length {α : Type} (s : Slab α) (i : Nat) (a : α) :
    (s.setSlot i a).entries.length = s.entries.length := by
  simp [Slab.setSlot]

/-- An occupied slot makes `len` positive. -/
theorem slab_len_pos {α : Type} {s : Slab α} {r : Nat} {x : α}
    (hg : s.get r = some x) : 1 ≤ s.len := by
  have hmem : some x ∈ s.entries := by
    have hr : r < s.entries.length := by
      by_contra hge
      rw [show s.get r = s.entries.getD r none from rfl,
        List.getD_eq_getElem?_getD,
        List.getElem?_eq_none (Nat.le_of_not_lt hge)] at hg
      exact absurd hg (by simp)
    have hthis : s.entries.getD r none = some x := hg
    rw [List.getD_eq_getElem?_getD, List.getElem?_eq_getElem hr] at hthis
    rw [show (some (s.entries[r])).getD none = s.entries[r] from rfl] at hthis
    rw [← hthis]
    exact List.getElem_mem ..
  have : some x ∈ s.entries.filter Option.isSome :=
    List.mem_filter.mpr ⟨hmem, by simp⟩
  rw [slab_len_def]
  exact List.length_pos.mpr (List.ne_nil_of_mem this)

end MPT
namespace PT

/-- The fold body of `scanSingle`. -/
def scanStep {V : Type} (st : ScanRes V) (ic : Nat × Option (PTNode V)) : ScanRes V :=
  match st, ic.2 with
  | .many, _ => .many
  | st, none => st
  | .zero, some x => .one ic.1 x
  | .one _ _, some _ => .many

theorem scanSingle_def {V : Type} (l : List (Option (PTNode V))) :
    scanSingle l = (l.enum).foldl scanStep .zero := rfl

/-- `.many` is absorbing. -/
theorem scanStep_many {V : Type} :
    ∀ (l : List (Option (PTNode V))) (j : Nat),
      (l.enumFrom j).foldl scanStep .many = .many := by
  intro l
  induction l with
  | nil => intro j; rfl
  | cons x xt ih =>
    intro j
    rw [List.enumFrom_cons, List.foldl_cons]
    rw [show scanStep ScanRes.many (j, x) = ScanRes.many from by cases x <;> rfl]
    exact ih (j + 1)

/-- A fully vacant suffix keeps the state. -/
theorem scanStep_vacant {V : Type} :
    ∀ (l : List (Option (PTNode V))), (l.filter Option.isSome).length = 0 →
      ∀ (j : Nat) (st : ScanRes V), (l.enumFrom j).foldl scanStep st = st := by
  intro l
  induction l with
  | nil => intro _ j st; rfl
  | cons x xt ih =>
    intro h j st
    rw [MPT.occCount_cons] at h
    match x with
    | some a => simp at h
    | none =>
      rw [List.enumFrom_cons, List.foldl_cons]
      rw [show scanStep st (j, none) = st from by cases st <;> rfl]
      exact ih (by simpa using h) (j + 1) st

/-- From a `.one` state, any further occupied entry forces `.many`. -/
theorem scanStep_from_one {V : Type} :
    ∀ (l : List (Option (PTNode V))), 1 ≤ (l.filter Option.isSome).length →
      ∀ (j i : Nat) (y : PTNode V),
        (l.enumFrom j).foldl scanStep (.one i y) = .many := by
  intro l
  induction l with
  | nil => intro h; simp at h
  | cons x xt ih =>
    intro h j i y
    rw [List.enumFrom_cons, List.foldl_cons]
    match x with
    | some a =>
      rw [show scanStep (ScanRes.one i y) (j, some a) = ScanRes.many from rfl]
      exact scanStep_many xt (j + 1)
    | none =>
      rw [MPT.occCount_cons] at h
      rw [show scanStep (ScanRes.one i y) (j, none) = ScanRes.one i y from rfl]
      exact ih (by simpa using h) (j + 1) i y

/-- Two or more occupied entries scan to `.many`. -/
theorem scanStep_two {V : Type} :
    ∀ (l : List (Option (PTNode V))), 2 ≤ (l.filter Option.isSome).length →
      ∀ (j : Nat), (l.enumFrom j).foldl scanStep .zero = .many := by
  intro l
  induction l with
  | nil => intro h; simp at h
  | cons x xt ih =>
    intro h j
    rw [MPT.occCount_cons] at h
    rw [List.enumFrom_cons, List.foldl_cons]
    match x with
    | some a =>
      rw [show scanStep ScanRes.zero (j, some a) = ScanRes.one j a from rfl]
      exact scanStep_from_one xt (by simp at h; omega) (j + 1) j a
    | none =>
      rw [show scanStep ScanRes.zero (j, none) = ScanRes.zero from rfl]
      exact ih (by simpa using h) (j + 1)

/-- `scanSingle` of a branch with two or more occupied choices is `.many`. -/
theorem scanSingle_many {V : Type} (l : List (Option (PTNode V)))
    (h : 2 ≤ (l.filter Option.isSome).length) : scanSingle l = .many := by
  rw [scanSingle_def, show l.enum = l.enumFrom 0 from rfl]
  exact scanStep_two l h 0

/-- A single occupied entry scans to `.one` at its index. -/
theorem scanStep_single {V : Type} :
    ∀ (l : List (Option (PTNode V))), (l.filter Option.isSome).length = 1 →
      ∃ (idx : Nat) (x : PTNode V), l.getD idx none = some x ∧
        ∀ j : Nat, (l.enumFrom j).foldl scanStep .zero = .one (j + idx) x := by
  intro l
  induction l with
  | nil => intro h; simp at h
  | cons c xt ih =>
    intro h
    rw [MPT.occCount_cons] at h
    match c with
    | some a =>
      refine ⟨0, a, by simp, ?_⟩
      intro j
      rw [List.enumFrom_cons, List.foldl_cons]
      rw [show scanStep ScanRes.zero (j, some a) = ScanRes.one j a from rfl]
      rw [scanStep_vacant xt (by simpa using h) (j + 1) _]
      rw [Nat.add_zero]
    | none =>
      obtain ⟨idx, x, hget, hfold⟩ := ih (by simpa using h)
      refine ⟨idx + 1, x, by simpa using hget, ?_⟩
      intro j
      rw [List.enumFrom_cons, List.foldl_cons]
      rw [show scanStep ScanRes.zero (j, none) = ScanRes.zero from rfl]
      rw [hfold (j + 1)]
      congr 1
      omega

/-- The `.one` result of `scanSingle` names an occupied choice. -/
theorem scanSingle_one {V : Type} {l : List (Option (PTNode V))} {i : Nat}
    {x : PTNode V} (h : scanSingle l = .one i x) : l.getD i none = some x := by
  rcases Nat.lt_or_ge ((l.filter Option.isSome).length) 2 with hlt | hge
  · match hc : (l.filter Option.isSome).length with
    | 0 =>
      rw [scanSingle_def, show l.enum = l.enumFrom 0 from rfl,
        scanStep_vacant l hc 0 _] at h
      exact absurd h (by simp)
    | 1 =>
      obtain ⟨idx, y, hget, hfold⟩ := scanStep_single l hc
      rw [scanSingle_def, show l.enum = l.enumFrom 0 from rfl, hfold 0] at h
      injection h with h1 h2
      rw [← h1, ← h2]
      simpa using hget
    | n + 2 => omega
  · rw [scanSingle_many l hge] at h
    exact absurd h (by simp)

/-- A `.many` result of `scanSingle` certifies two or more occupied
choices. -/
theorem scanSingle_many_inv {V : Type} {l : List (Option (PTNode V))}
    (h : scanSingle l = .many) : 2 ≤ (l.filter Option.isSome).length := by
  by_contra hlt
  match hc : (l.filter Option.isSome).length with
  | 0 =>
    rw [scanSingle_def, show l.enum = l.enumFrom 0 from rfl,
      scanStep_vacant l hc 0 _] at h
    exact absurd h (by simp)
  | 1 =>
    obtain ⟨idx, y, hget, hfold⟩ := scanStep_single l hc
    rw [scanSingle_def, show l.enum = l.enumFrom 0 from rfl, hfold 0] at h
    exact absurd h (by simp)
  | n + 2 => rw [hc] at hlt; omega

end PT
namespace MPT

/-- The pending (value-less) slot an `InsertAction` designates. -/
def actPend : InsertAction → Option Nat
  | .insert nref => some nref
  | _ => none

/-- Whether the `InsertAction` designates the returned node itself. -/
def actSelf : InsertAction → Bool
  | .insertSelf => true
  | _ => false

/-- Arena evolution contract between two footprints: the arena stays
well-formed, occupied slots outside the input footprint are untouched, the
new footprint is made of old or freshly allocated slots, and every
occupied slot is in the new footprint or was an untouched outsider. -/
def StepOK (nodes₀ : Slab Node) (fp₀ : Finset Nat) (nodes₁ : Slab Node)
    (fp₁ : Finset Nat) : Prop :=
  SlabWF nodes₁ ∧
  (∀ r, r ∉ fp₀ → nodes₀.get r ≠ none → nodes₁.get r = nodes₀.get r) ∧
  (∀ r ∈ fp₁, r ∈ fp₀ ∨ nodes₀.get r = none) ∧
  (∀ r, nodes₁.get r ≠ none → r ∈ fp₁ ∨ (r ∉ fp₀ ∧ nodes₀.get r ≠ none))

/-- Contract of a successful node-level insertion: the arena evolves
within the footprint, a branch stays a branch, and the returned node is
well-shaped over the new footprint, with the hole designated by the
returned action. -/
def InsResOK (nodes : Slab Node) (n : Node) (fp : Finset Nat)
    (res : Slab Node × Node × InsertAction) : Prop :=
  (n.isBranch = true → res.2.1.isBranch = true) ∧
  ∃ h' fp',
    StepOK nodes fp res.1 fp' ∧
    SRV res.1 h' res.2.1 fp' (actPend res.2.2) (actSelf res.2.2)

/-- Replacing one child of a well-shaped complete branch. -/
theorem srv_branch_update {nodes' : Slab Node} {h : Nat} {choices : List Nat}
    {q : Nat} {u : Nat × List Nat} {i : Fin 16} {w : Nat}
    (tfp : Fin 16 → Finset Nat) {fpN : Finset Nat} {pendN : Option Nat}
    (hlen : choices.length = 16)
    (hnew : w ≠ INVALID_REF)
    (hex : 2 ≤ countValid (choices.set i.1 w) +
      (if q ≠ INVALID_REF then 1 else 0))
    (hch : ∀ j : Fin 16, j ≠ i →
      if choiceAt choices j.1 = INVALID_REF then tfp j = ∅
      else SRR nodes' h (choiceAt choices j.1) (tfp j) none)
    (hdisjold : ∀ a b : Fin 16, a ≠ b → Disjoint (tfp a) (tfp b))
    (hNsrr : SRR nodes' h w fpN pendN)
    (hdisjN : ∀ j : Fin 16, j ≠ i → Disjoint fpN (tfp j)) :
    SRV nodes' (h + 1) (.branch (choices.set i.1 w) q u)
      (Finset.univ.biUnion (Function.update tfp i fpN)) pendN false := by
  refine srv_branch_intro (by simp [hlen]) (by simpa using hex) (by simp)
    (Function.update tfp i fpN)
    (Function.update (fun _ => none) i pendN)
    rfl ?_ ?_ ?_
  · intro a b hab
    by_cases hai : a = i
    · have hbi : b ≠ i := fun hc => hab (hai.trans hc.symm)
      rw [hai, Function.update_same, Function.update_noteq hbi]
      exact hdisjN b hbi
    · rw [Function.update_noteq hai]
      by_cases hbi : b = i
      · rw [hbi, Function.update_same]
        exact (hdisjN a hai).symm
      · rw [Function.update_noteq hbi]
        exact hdisjold a b hab
  · refine ⟨i, ?_, ?_⟩
    · rw [Function.update_same, if_neg (by simp)]
    · intro k hk
      rw [Function.update_noteq hk]
  · intro j
    have hset : choiceAt (choices.set i.1 w) j.1 =
        if j.1 = i.1 then w else choiceAt choices j.1 :=
      getD_set choices i.1 j.1 w (by rw [hlen]; exact i.isLt)
    by_cases hji : j = i
    · subst hji
      rw [hset, if_pos rfl, if_neg hnew, Function.update_same, Function.update_same]
      exact hNsrr
    · have hji' : j.1 ≠ i.1 := fun hc => hji (Fin.ext hc)
      rw [hset, if_neg hji', Function.update_noteq hji, Function.update_noteq hji]
      have := hch j hji
      by_cases hc : choiceAt choices j.1 = INVALID_REF
      · rw [if_pos hc] at this ⊢
        exact ⟨this, rfl⟩
      · rw [if_neg hc] at this ⊢
        exact this

/-- Membership in the updated branch footprint. -/
theorem mem_biUnion_update {tfp : Fin 16 → Finset Nat} {i : Fin 16}
    {fpN : Finset Nat} {r : Nat} :
    r ∈ Finset.univ.biUnion (Function.update tfp i fpN) ↔
      r ∈ fpN ∨ ∃ j : Fin 16, j ≠ i ∧ r ∈ tfp j := by
  simp only [Finset.mem_biUnion, Finset.mem_univ, true_and]
  constructor
  · rintro ⟨j, hj⟩
    by_cases hji : j = i
    · subst hji; rw [Function.update_same] at hj; exact Or.inl hj
    · rw [Function.update_noteq hji] at hj; exact Or.inr ⟨j, hji, hj⟩
  · rintro (hr | ⟨j, hji, hj⟩)
    · exact ⟨i, by rw [Function.update_same]; exact hr⟩
    · exact ⟨j, by rw [Function.update_noteq hji]; exact hj⟩

end MPT
namespace MPT

/-- `StepOK` is reflexive. -/
theorem stepOK_refl (nodes : Slab Node) (fp : Finset Nat) (hwf : SlabWF nodes) :
    StepOK nodes fp nodes fp := by
  refine ⟨hwf, fun r _ _ => rfl, fun r hr => Or.inl hr, ?_⟩
  intro r hr
  by_cases hrf : r ∈ fp
  · exact Or.inl hrf
  · exact Or.inr ⟨hrf, hr⟩

/-- `StepOK` composes. -/
theorem stepOK_trans {nodes₀ nodes₁ nodes₂ : Slab Node}
    {fp₀ fp₁ fp₂ : Finset Nat}
    (h01 : StepOK nodes₀ fp₀ nodes₁ fp₁) (h12 : StepOK nodes₁ fp₁ nodes₂ fp₂) :
    StepOK nodes₀ fp₀ nodes₂ fp₂ := by
  obtain ⟨hwf1, hfr1, hsub1, hocc1⟩ := h01
  obtain ⟨hwf2, hfr2, hsub2, hocc2⟩ := h12
  refine ⟨hwf2, ?_, ?_, ?_⟩
  · intro r hr hocc
    have h1 := hfr1 r hr hocc
    have hnotfp1 : r ∉ fp₁ := by
      intro hc
      rcases hsub1 r hc with h | h
      · exact hr h
      · rw [h] at hocc; exact hocc rfl
    rw [hfr2 r hnotfp1 (by rw [h1]; exact hocc), h1]
  · intro r hr
    rcases hsub2 r hr with h | h
    · rcases hsub1 r h with h' | h'
      · exact Or.inl h'
      · exact Or.inr h'
    · by_cases hocc : nodes₀.get r = none
      · exact Or.inr hocc
      · by_cases hrf : r ∈ fp₀
        · exact Or.inl hrf
        · rw [hfr1 r hrf hocc] at h
          exact absurd h hocc
  · intro r hr
    rcases hocc2 r hr with h | ⟨hnf, hocc⟩
    · exact Or.inl h
    · rcases hocc1 r hocc with h' | ⟨h1, h2⟩
      · exact absurd h' hnf
      · exact Or.inr ⟨h1, h2⟩

/-- A fresh slab insertion as a `StepOK` step. -/
theorem stepOK_insert {nodes nodes' : Slab Node} {n : Node} {r : Nat}
    {fp : Finset Nat} (hwf : SlabWF nodes) (hins : nodes.insert n = some (r, nodes')) :
    StepOK nodes fp nodes' (insert r fp) := by
  obtain ⟨hfresh, hget, hother, hwf', hr⟩ := slab_insert_spec hwf hins
  refine ⟨hwf', ?_, ?_, ?_⟩
  · intro m hm hocc
    refine hother m ?_
    intro hc; subst hc; rw [hfresh] at hocc; exact hocc rfl
  · intro m hm
    rcases Finset.mem_insert.mp hm with h | h
    · subst h; exact Or.inr hfresh
    · exact Or.inl h
  · intro m hm
    by_cases hmr : m = r
    · subst hmr; exact Or.inl (Finset.mem_insert_self ..)
    · rw [hother m hmr] at hm
      by_cases hmf : m ∈ fp
      · exact Or.inl (Finset.mem_insert_of_mem hmf)
      · exact Or.inr ⟨hmf, hm⟩

/-- A slab removal of a footprint slot as a `StepOK` step. -/
theorem stepOK_tryRemove {nodes nodes₀ : Slab Node} {i : Nat} {a : Node}
    {fp : Finset Nat} (hwf : SlabWF nodes)
    (hrm : nodes.tryRemove i = some (a, nodes₀)) (hi : i ∈ fp) :
    StepOK nodes fp nodes₀ (fp.erase i) := by
  obtain ⟨hget, hnone, hother, hwf₀⟩ := slab_tryRemove_spec hwf hrm
  refine ⟨hwf₀, ?_, ?_, ?_⟩
  · intro m hm hocc
    refine hother m ?_
    intro hc; subst hc; exact hm hi
  · intro m hm
    exact Or.inl (Finset.mem_of_mem_erase hm)
  · intro m hm
    by_cases hmi : m = i
    · subst hmi; rw [hnone] at hm; exact absurd rfl hm
    · rw [hother m hmi] at hm
      by_cases hmf : m ∈ fp
      · exact Or.inl (Finset.mem_erase.mpr ⟨hmi, hmf⟩)
      · exact Or.inr ⟨hmf, hm⟩

/-- Height monotonicity of `SRR`. -/
theorem srr_mono {nodes : Slab Node} {h h' : Nat} {ref : Nat} {fp : Finset Nat}
    {pend : Option Nat} (hle : h ≤ h') (hsrr : SRR nodes h ref fp pend) :
    SRR nodes h' ref fp pend := by
  obtain ⟨n, fpc, hget, hfp, hnotin, harm⟩ := hsrr
  refine ⟨n, fpc, hget, hfp, hnotin, ?_⟩
  rcases harm with ⟨h1, h2⟩ | ⟨h1, h2⟩
  · exact Or.inl ⟨h1, srv_mono hle h2⟩
  · exact Or.inr ⟨h1, srv_mono hle h2⟩

/-- `SRR` only depends on its footprint slots. -/
theorem srr_frame {nodes nodes' : Slab Node} {h : Nat} {ref : Nat}
    {fp : Finset Nat} {pend : Option Nat} (hsrr : SRR nodes h ref fp pend)
    (hframe : ∀ r ∈ fp, nodes'.get r = nodes.get r) :
    SRR nodes' h ref fp pend := by
  obtain ⟨n, fpc, hget, hfp, hnotin, harm⟩ := hsrr
  have hsub : ∀ r ∈ fpc, nodes'.get r = nodes.get r := by
    intro r hr
    exact hframe r (by rw [hfp]; exact Finset.mem_insert_of_mem hr)
  refine ⟨n, fpc, ?_, hfp, hnotin, ?_⟩
  · rw [hframe ref (by rw [hfp]; exact Finset.mem_insert_self ..), hget]
  · rcases harm with ⟨h1, h2⟩ | ⟨h1, h2⟩
    · exact Or.inl ⟨h1, srv_frame h2 hsub⟩
    · exact Or.inr ⟨h1, srv_frame h2 hsub⟩

/-- Every `SRR` footprint slot is occupied. -/
theorem srr_fp_occupied {nodes : Slab Node} {h : Nat} {ref : Nat}
    {fp : Finset Nat} {pend : Option Nat} (hsrr : SRR nodes h ref fp pend) :
    ∀ r ∈ fp, ∃ x, nodes.get r = some x := by
  obtain ⟨n, fpc, hget, hfp, hnotin, harm⟩ := hsrr
  intro r hr
  rw [hfp] at hr
  rcases Finset.mem_insert.mp hr with h1 | h1
  · subst h1; exact ⟨n, hget⟩
  · rcases harm with ⟨-, h2⟩ | ⟨-, h2⟩ <;> exact srv_fp_occupied h2 r h1

/-- `countEq` is positive only on two non-empty lists. -/
theorem countEq_pos {xs ys : List Nat} (h : countEq xs ys ≠ 0) :
    xs ≠ [] ∧ ys ≠ [] := by
  match xs, ys with
  | [], ys => exact absurd rfl h
  | x :: xt, [] => exact absurd rfl h
  | x :: xt, y :: yt => exact ⟨by simp, by simp⟩

/-- `quantize_self` never returns the self marker. -/
theorem actSelf_quantize (act : InsertAction) (r : Nat) :
    actSelf (act.quantize_self r) = false := by
  cases act <;> rfl

/-- The pending slot after quantization. -/
theorem actPend_quantize (act : InsertAction) (r : Nat) :
    actPend (act.quantize_self r) =
      if actSelf act then some r else actPend act := by
  cases act <;> rfl

end MPT
namespace MPT

/-- Wrapping a freshly built branch into an extension node after
reinserting it into the arena. -/
theorem ext_wrap_ok {nodes₁ nodes₂ : Slab Node} {hb : Nat} {cs : List Nat}
    {vb branch_ref : Nat} {a : InsertAction} {fpB : Finset Nat} {pf : NibbleVec}
    (hwf₁ : SlabWF nodes₁)
    (hsrvB : SRV nodes₁ hb (.branch cs vb (0, [])) fpB (actPend a) (actSelf a))
    (hins : nodes₁.insert (.branch cs vb (0, [])) = some (branch_ref, nodes₂))
    (hpf : pf.is_empty = false) :
    StepOK nodes₁ fpB nodes₂ (insert branch_ref fpB) ∧
      SRV nodes₂ (hb + 1) (.ext pf branch_ref (0, []))
        (insert branch_ref fpB)
        (actPend (a.quantize_self branch_ref))
        (actSelf (a.quantize_self branch_ref)) := by
  obtain ⟨hwf₂, hother, hfresh, hsrr⟩ := srr_of_srv_insert hwf₁ hins hsrvB
  refine ⟨stepOK_insert hwf₁ hins, ?_⟩
  obtain ⟨hget₂, -, -, -, -⟩ := slab_insert_spec hwf₁ hins
  obtain ⟨nb, fpc, hget, hfpeq, hnotin, harm⟩ := hsrr
  obtain ⟨-, hget₂', -, -, -⟩ := slab_insert_spec hwf₁ hins
  have hnb : nb = .branch cs vb (0, []) := by
    rw [hget₂'] at hget; injection hget with hh; exact hh.symm
  rw [actSelf_quantize, actPend_quantize]
  refine ⟨rfl, hpf, nb, fpc, hget, by rw [hnb]; rfl, hfpeq, hnotin, ?_⟩
  exact harm

end MPT
namespace MPT

/-- A leaf holding a valid value reference is complete. -/
theorem srv_leaf_valid {nodes : Slab Node} {h vref : Nat} {hs : Nat × List Nat}
    (hv : vref ≠ INVALID_REF) : SRV nodes (h + 1) (.leaf vref hs) ∅ none false :=
  ⟨rfl, rfl, by simp [hv]⟩

/-- A leaf with the invalid value reference is the designated hole. -/
theorem srv_leaf_hole {nodes : Slab Node} {h : Nat} {hs : Nat × List Nat} :
    SRV nodes (h + 1) (.leaf INVALID_REF hs) ∅ none true :=
  ⟨rfl, rfl, by simp⟩

/-- A non-empty tail of nibbles means the offset is in range. -/
theorem nibblesFrom_ne_nil {data : List Nat} {off : Nat}
    (h : nibblesFrom data off ≠ []) : off < 2 * data.length := by
  unfold nibblesFrom at h
  by_contra hge
  rw [show 2 * data.length - off = 0 by omega] at h
  exact h rfl

/-- The common tail of `LeafNode::insert`: wrap the built branch into an
extension when some nibbles matched. -/
theorem leaf_tail {nodes nodes₁ : Slab Node} {cs : List Nat} {vb : Nat}
    {act₁ : InsertAction} {fpB : Finset Nat} {hb : Nat} {path : NibbleSlice}
    {off : Nat} {res : Slab Node × Node × InsertAction}
    (hwf₁ : SlabWF nodes₁)
    (hstep : StepOK nodes ∅ nodes₁ fpB)
    (hsrvB : SRV nodes₁ hb (.branch cs vb (0, [])) fpB (actPend act₁) (actSelf act₁))
    (hoffrange : off ≠ 0 → path.offset < 2 * path.data.length)
    (hres : (if off ≠ 0 then
        (nodes₁.insert (Node.branch cs vb (0, []))).bind fun a =>
          some (a.2, Node.ext (path.split_to_vec off) a.1 (0, []),
            act₁.quantize_self a.1)
      else some (nodes₁, Node.branch cs vb (0, []), act₁)) = some res) :
    ∃ h' fp', StepOK nodes ∅ res.1 fp' ∧
      SRV res.1 h' res.2.1 fp' (actPend res.2.2) (actSelf res.2.2) := by
  by_cases hoz : off ≠ 0
  · rw [if_pos hoz, Option.bind_eq_some] at hres
    obtain ⟨⟨branch_ref, nodes₂⟩, hins2, hres⟩ := hres
    injection hres with hres
    subst hres
    obtain ⟨hstep2, hsrv2⟩ := ext_wrap_ok hwf₁ hsrvB hins2
      (split_to_vec_ne_empty hoz (hoffrange hoz))
    exact ⟨hb + 1, insert branch_ref fpB, stepOK_trans hstep hstep2, hsrv2⟩
  · rw [if_neg hoz] at hres
    injection hres with hres
    subst hres
    exact ⟨hb, fpB, hstep, hsrvB⟩

set_option maxHeartbeats 1000000 in
/-- `LeafNode::insert` preserves the representation invariant. -/
theorem nodeInsert_sr_leaf {fuel : Nat} {nodes : Slab Node} {values : Slab KV}
    {vref : Nat} {hs0 : Nat × List Nat} {path : NibbleSlice}
    {res : Slab Node × Node × InsertAction} {h : Nat} {fp : Finset Nat}
    (hres : nodeInsert (fuel + 1) nodes values (.leaf vref hs0) path = some res)
    (hwf : SlabWF nodes) (hsrv : SRV nodes h (.leaf vref hs0) fp none false) :
    InsResOK nodes (.leaf vref hs0) fp res := by
  match h with
  | 0 => exact absurd hsrv (by simp [SRV])
  | h + 1 =>
  obtain ⟨hfp, -, hps⟩ := hsrv
  have hvref : vref ≠ INVALID_REF := by
    intro hc
    rw [hc] at hps
    simp at hps
  subst hfp
  simp only [nodeInsert, Option.pure_def] at hres
  cases hvp : values.get vref with
  | none =>
    simp only [hvp, Option.bind_eq_bind, Option.none_bind] at hres
    exact absurd hres (by simp)
  | some vp =>
  obtain ⟨value_path, vpv⟩ := vp
  simp only [hvp, Option.bind_eq_bind, Option.some_bind] at hres
  cases hcr : path.cmp_rest value_path with
  | none =>
    simp only [hcr, Option.bind_eq_bind, Option.none_bind] at hres
    exact absurd hres (by simp)
  | some c =>
  simp only [hcr, Option.bind_eq_bind, Option.some_bind] at hres
  cases c with
  | true =>
    simp only [if_pos rfl] at hres
    injection hres with hres
    subst hres
    refine ⟨by simp [Node.isBranch], h + 1, ∅, stepOK_refl nodes ∅ hwf, ?_⟩
    exact srv_leaf_valid hvref
  | false =>
    rw [if_neg (by simp : ¬(false = true))] at hres
    rw [Option.bind_eq_some] at hres
    obtain ⟨step, hstep, hres⟩ := hres
    obtain ⟨nodes₁, ⟨cs, vb⟩, act₁⟩ := step
    dsimp only at hres hstep
    refine ⟨by simp [Node.isBranch], ?_⟩
    by_cases h1 : countEq (nibblesFrom value_path path.offset)
        (nibblesFrom path.data path.offset) = 2 * path.data.length
    · -- the matched count swallowed the whole inserted path: InsertSelf
      rw [if_pos h1, Option.bind_eq_some] at hstep
      obtain ⟨choiceNib, hsn, hstep⟩ := hstep
      by_cases hlt : choiceNib < 16
      · rw [if_pos hlt, Option.bind_eq_some] at hstep
        obtain ⟨⟨selfRef, nodes₁'⟩, hins, hstep⟩ := hstep
        dsimp only at hstep
        injection hstep with hstep
        injection hstep with e1 hstep
        injection hstep with e2 e3
        injection e2 with e2a e2b
        subst e1; subst e2a; subst e2b; subst e3
        obtain ⟨hwf₁, hother, hfresh, hsrr⟩ :=
          srr_of_srv_insert (h := 1) hwf hins (srv_leaf_valid hvref)
        obtain ⟨-, -, -, -, hlt'⟩ := slab_insert_spec hwf hins
        have hselfne : selfRef ≠ INVALID_REF := Nat.ne_of_lt hlt'
        have hsrvB : SRV nodes₁' 2
            (.branch ((List.replicate 16 INVALID_REF).set choiceNib selfRef)
              INVALID_REF (0, []))
            (insert selfRef ∅) none true :=
          srv_branch_one hlt hselfne hsrr (Or.inr rfl)
            (fun _ => ⟨rfl, rfl, rfl⟩) (fun hc => absurd hc (by simp))
        exact leaf_tail hwf₁ (stepOK_insert hwf hins) hsrvB
          (fun hoz => nibblesFrom_ne_nil (countEq_pos hoz).2) hres
      · rw [if_neg hlt] at hstep
        exact absurd hstep (by simp)
    · rw [if_neg h1] at hstep
      by_cases h2 : countEq (nibblesFrom value_path path.offset)
          (nibblesFrom path.data path.offset) = 2 * value_path.length
      · -- the stored key ran out: branch keeps the old value, fresh leaf child
        rw [if_pos h2, Option.bind_eq_some] at hstep
        obtain ⟨⟨child_ref, nodes₁'⟩, hins, hstep⟩ := hstep
        dsimp only at hstep
        rw [Option.bind_eq_some] at hstep
        obtain ⟨⟨nib, pb'⟩, hnx, hstep⟩ := hstep
        dsimp only at hstep
        by_cases hlt : nib < 16
        · rw [if_pos hlt] at hstep
          injection hstep with hstep
          injection hstep with e1 hstep
          injection hstep with e2 e3
          injection e2 with e2a e2b
          subst e1; subst e2a; subst e2b; subst e3
          obtain ⟨hwf₁, hother, hfresh, hsrr⟩ :=
            srr_of_srv_insert (h := 1) hwf hins srv_leaf_hole
          obtain ⟨-, -, -, -, hlt'⟩ := slab_insert_spec hwf hins
          have hchildne : child_ref ≠ INVALID_REF := Nat.ne_of_lt hlt'
          have hsrvB : SRV nodes₁' 2
              (.branch ((List.replicate 16 INVALID_REF).set nib child_ref)
                vref (0, []))
              (insert child_ref ∅) (some child_ref) false :=
            srv_branch_one hlt hchildne hsrr (Or.inl hvref)
              (fun hc => absurd hc (by simp)) (fun _ => rfl)
          exact leaf_tail hwf₁ (stepOK_insert hwf hins) hsrvB
            (fun hoz => nibblesFrom_ne_nil (countEq_pos hoz).2) hres
        · rw [if_neg hlt] at hstep
          exact absurd hstep (by simp)
      · -- both keys continue: two-leaf branch
        rw [if_neg h2, Option.bind_eq_some] at hstep
        obtain ⟨⟨child_ref, nodes₁'⟩, hins, hstep⟩ := hstep
        dsimp only at hstep
        rw [Option.bind_eq_some] at hstep
        obtain ⟨oldNib, hsn, hstep⟩ := hstep
        rw [Option.bind_eq_some] at hstep
        obtain ⟨⟨selfRef, nodes₂'⟩, hins2, hstep⟩ := hstep
        dsimp only at hstep
        rw [Option.bind_eq_some] at hstep
        obtain ⟨⟨newNib, pb'⟩, hnx, hstep⟩ := hstep
        dsimp only at hstep
        by_cases hlt : oldNib < 16 ∧ newNib < 16
        · rw [if_pos hlt] at hstep
          injection hstep with hstep
          injection hstep with e1 hstep
          injection hstep with e2 e3
          injection e2 with e2a e2b
          subst e1; subst e2a; subst e2b; subst e3
          -- the two nibbles differ: `countEq` stopped at a mismatch
          obtain ⟨hsn1, hsn2⟩ := sliceNth_eq_some hsn
          obtain ⟨hnx1, hnx2, -⟩ := NibbleSlice.next_eq_some hnx
          rw [show (path.offset_add (countEq (nibblesFrom value_path path.offset)
              (nibblesFrom path.data path.offset))).offset =
              path.offset + countEq (nibblesFrom value_path path.offset)
                (nibblesFrom path.data path.offset) from rfl] at hsn1 hsn2 hnx1 hnx2
          rw [show (path.offset_add (countEq (nibblesFrom value_path path.offset)
              (nibblesFrom path.data path.offset))).data = path.data from rfl]
            at hnx1 hnx2
          have hne : oldNib ≠ newNib := by
            refine countEq_ne (nibblesFrom value_path path.offset)
              (nibblesFrom path.data path.offset) ?_ ?_
            · rw [nibblesFrom_get, if_pos (by omega)]
              rw [hsn1]
            · rw [nibblesFrom_get, if_pos (by omega)]
              rw [hnx1]
          -- child leaf hole, then the old leaf reinserted on top
          obtain ⟨hwf₁, hother, hfresh, hsrrC⟩ :=
            srr_of_srv_insert (h := 1) hwf hins srv_leaf_hole
          obtain ⟨-, -, -, -, hltC⟩ := slab_insert_spec hwf hins
          have hchildne : child_ref ≠ INVALID_REF := Nat.ne_of_lt hltC
          obtain ⟨hwf₂, hother2, hfresh2, hsrrS⟩ :=
            srr_of_srv_insert (h := 1) hwf₁ hins2 (srv_leaf_valid hvref)
          obtain ⟨-, -, -, -, hltS⟩ := slab_insert_spec hwf₁ hins2
          have hselfne : selfRef ≠ INVALID_REF := Nat.ne_of_lt hltS
          have hCS : child_ref ≠ selfRef := by
            intro hc
            obtain ⟨x, hx⟩ := srr_fp_occupied hsrrC child_ref
              (Finset.mem_insert_self ..)
            rw [hc, hfresh2] at hx
            exact absurd hx (by simp)
          have hsrrC₂ : SRR nodes₂' 1 child_ref (insert child_ref ∅)
              (some child_ref) := by
            refine srr_frame hsrrC ?_
            intro r hr
            rcases Finset.mem_insert.mp hr with h' | h'
            · subst h'; exact hother2 r hCS
            · exact absurd h' (by simp)
          have hdisj : Disjoint (insert selfRef (∅ : Finset Nat))
              (insert child_ref (∅ : Finset Nat)) := by
            simp [Finset.disjoint_left]
            exact fun hc => hCS hc.symm
          have hsrvB : SRV nodes₂' 2
              (.branch (((List.replicate 16 INVALID_REF).set oldNib selfRef).set
                newNib child_ref) INVALID_REF (0, []))
              ((insert selfRef ∅) ∪ (insert child_ref ∅)) (some child_ref) false :=
            srv_branch_two hne hlt.1 hlt.2 hselfne hchildne hsrrS hsrrC₂ hdisj
              (Or.inr ⟨rfl, rfl⟩)
          have hfpe : (insert selfRef (∅ : Finset Nat)) ∪ (insert child_ref ∅) =
              insert selfRef (insert child_ref ∅) := by
            ext x; simp
          rw [hfpe] at hsrvB
          exact leaf_tail hwf₂
            (stepOK_trans (stepOK_insert hwf hins) (stepOK_insert hwf₁ hins2))
            hsrvB (fun hoz => nibblesFrom_ne_nil (countEq_pos hoz).2) hres
        · rw [if_neg hlt] at hstep
          exact absurd hstep (by simp)

end MPT
namespace MPT

/-- The remove–recurse–insert pattern shared by `BranchNode::insert` and
`ExtensionNode::insert`: take a child subtree out of the arena, let the
recursive insertion evolve it, and reinsert its root. -/
theorem stepOK_rri {nodes nodes₀ nodes₁ nodes₂ : Slab Node} {cref newRef : Nat}
    {child child' : Node} {FP FP' sub fp₁ : Finset Nat}
    (hwf : SlabWF nodes)
    (hrm : nodes.tryRemove cref = some (child, nodes₀))
    (hsub : sub ⊆ FP) (hcrefm : cref ∈ sub)
    (hstep01 : StepOK nodes₀ (sub.erase cref) nodes₁ fp₁)
    (hins : nodes₁.insert child' = some (newRef, nodes₂))
    (hFP' : ∀ r, r ∈ FP' ↔ (r ∈ insert newRef fp₁ ∨ (r ∈ FP ∧ r ∉ sub))) :
    StepOK nodes FP nodes₂ FP' := by
  obtain ⟨hgetC, hnoneC, hotherC, hwf₀⟩ := slab_tryRemove_spec hwf hrm
  obtain ⟨hwf₁, hfr01, hsub01, hocc01⟩ := hstep01
  obtain ⟨hfreshN, hgetN, hotherN, hwf₂, -⟩ := slab_insert_spec hwf₁ hins
  have hchain1 : ∀ r, r ∉ FP → nodes.get r ≠ none → nodes₁.get r = nodes.get r := by
    intro r hr hocc
    have hrc : r ≠ cref := fun hc => hr (hsub (hc ▸ hcrefm))
    have h0 : nodes₀.get r = nodes.get r := hotherC r hrc
    have hre : r ∉ sub.erase cref := fun hc => hr (hsub (Finset.mem_of_mem_erase hc))
    rw [hfr01 r hre (by rw [h0]; exact hocc), h0]
  have hchain : ∀ r, r ∉ FP → nodes.get r ≠ none → nodes₂.get r = nodes.get r := by
    intro r hr hocc
    have hrn : r ≠ newRef := by
      intro hc
      have h1 := hchain1 r hr hocc
      rw [hc, hfreshN] at h1
      rw [hc] at hocc
      exact hocc h1.symm
    rw [hotherN r hrn, hchain1 r hr hocc]
  refine ⟨hwf₂, hchain, ?_, ?_⟩
  · intro r hr
    rcases (hFP' r).mp hr with hr' | ⟨hrF, -⟩
    · rcases Finset.mem_insert.mp hr' with hr'' | hr''
      · by_cases hocc : nodes.get r = none
        · exact Or.inr hocc
        · refine Or.inl ?_
          by_contra hrF
          have h1 := hchain1 r hrF hocc
          rw [hr'', hfreshN] at h1
          rw [hr''] at hocc
          exact hocc h1.symm
      · rcases hsub01 r hr'' with h' | h'
        · exact Or.inl (hsub (Finset.mem_of_mem_erase h'))
        · by_cases hrc : r = cref
          · exact Or.inl (hsub (hrc ▸ hcrefm))
          · rw [hotherC r hrc] at h'
            exact Or.inr h'
    · exact Or.inl hrF
  · intro r hr
    by_cases hrn : r = newRef
    · subst hrn
      exact Or.inl ((hFP' r).mpr (Or.inl (Finset.mem_insert_self ..)))
    · rw [hotherN r hrn] at hr
      rcases hocc01 r hr with h' | ⟨hre, hocc₀⟩
      · exact Or.inl ((hFP' r).mpr (Or.inl (Finset.mem_insert_of_mem h')))
      · have hrc : r ≠ cref := by
          intro hc; subst hc
          exact hocc₀ hnoneC
        have hrs : r ∉ sub := fun hc => hre (Finset.mem_erase.mpr ⟨hrc, hc⟩)
        rw [hotherC r hrc] at hocc₀
        by_cases hrF : r ∈ FP
        · exact Or.inl ((hFP' r).mpr (Or.inr ⟨hrF, hrs⟩))
        · exact Or.inr ⟨hrF, hocc₀⟩

end MPT
namespace MPT

/-- The induction hypothesis carried through `nodeInsert`'s fuel. -/
def InsIH (fuel : Nat) (values : Slab KV) : Prop :=
  ∀ {nodes : Slab Node} {n : Node} {path : NibbleSlice}
    {res : Slab Node × Node × InsertAction} {h : Nat} {fp : Finset Nat},
    nodeInsert fuel nodes values n path = some res →
    SlabWF nodes → SRV nodes h n fp none false → InsResOK nodes n fp res

set_option maxHeartbeats 1000000 in
/-- `BranchNode::insert` preserves the representation invariant. -/
theorem nodeInsert_sr_branch {fuel : Nat} {values : Slab KV} (IH : InsIH fuel values)
    {nodes : Slab Node} {choices : List Nat} {vref : Nat} {hs0 : Nat × List Nat}
    {path : NibbleSlice} {res : Slab Node × Node × InsertAction} {h : Nat}
    {fp : Finset Nat}
    (hres : nodeInsert (fuel + 1) nodes values (.branch choices vref hs0) path = some res)
    (hwf : SlabWF nodes)
    (hsrv : SRV nodes h (.branch choices vref hs0) fp none false) :
    InsResOK nodes (.branch choices vref hs0) fp res := by
  match h with
  | 0 => exact absurd hsrv (by simp [SRV])
  | h + 1 =>
  obtain ⟨hlen, hex, -, tfp, pdf, hfp, hdisj, hpdf, hch⟩ := srv_branch_elim hsrv
  have hpdfn : ∀ i, pdf i = none := by
    obtain ⟨jj, hjj, hoth⟩ := hpdf
    rw [if_neg (by simp)] at hjj
    exact pdf_all_none ⟨jj, hjj, hoth⟩
  have hex' : 2 ≤ countValid choices + (if vref ≠ INVALID_REF then 1 else 0) := by
    simpa using hex
  subst hfp
  simp only [nodeInsert, Option.pure_def] at hres
  cases hnx : path.next with
  | none =>
    simp only [hnx] at hres
    by_cases hv : vref ≠ INVALID_REF
    · rw [if_pos hv] at hres
      injection hres with hres
      subst hres
      refine ⟨fun _ => rfl, h + 1, Finset.univ.biUnion tfp,
        stepOK_refl _ _ hwf, ?_⟩
      exact srv_branch_intro hlen (by simpa [actSelf] using hex') (by simp [actSelf])
        tfp pdf rfl hdisj
        ⟨0, by simp [hpdfn 0, actSelf, actPend], fun i _ => hpdfn i⟩ hch
    · rw [if_neg hv] at hres
      injection hres with hres
      subst hres
      push_neg at hv
      refine ⟨fun _ => rfl, h + 1, Finset.univ.biUnion tfp,
        stepOK_refl _ _ hwf, ?_⟩
      refine srv_branch_intro hlen ?_ (fun _ => ⟨hv, rfl⟩) tfp pdf rfl hdisj
        ⟨0, by simp [hpdfn 0, actSelf, actPend], fun i _ => hpdfn i⟩ hch
      rw [if_pos (Or.inr (by simp [actSelf]))]
      rw [if_neg (by simp [hv])] at hex'
      omega
  | some nxt =>
    obtain ⟨choice, path'⟩ := nxt
    simp only [hnx] at hres
    by_cases hc16 : choice < 16
    case neg => rw [if_neg hc16] at hres; exact absurd hres (by simp)
    rw [if_pos hc16] at hres
    by_cases hcref : choices.getD choice INVALID_REF = INVALID_REF
    · -- vacant choice: a fresh hole leaf is attached there
      rw [if_pos hcref] at hres
      simp only [Option.bind_eq_bind] at hres
      rw [Option.bind_eq_some] at hres
      obtain ⟨⟨child_ref, nodes₁⟩, hins, hres⟩ := hres
      dsimp only at hres
      injection hres with hres
      subst hres
      refine ⟨fun _ => rfl, ?_⟩
      obtain ⟨hfresh, hget₁, hother, hwf₁, hltC⟩ := slab_insert_spec hwf hins
      have hcne : child_ref ≠ INVALID_REF := Nat.ne_of_lt hltC
      obtain ⟨-, -, -, hsrrC⟩ :=
        srr_of_srv_insert (h := h + 1) hwf hins srv_leaf_hole
      have hch₂ : ∀ j : Fin 16, j ≠ ⟨choice, hc16⟩ →
          if choiceAt choices j.1 = INVALID_REF then tfp j = ∅
          else SRR nodes₁ (h + 1) (choiceAt choices j.1) (tfp j) none := by
        intro j hj
        have hthis := hch j
        by_cases hcj : choiceAt choices j.1 = INVALID_REF
        · rw [if_pos hcj] at hthis ⊢; exact hthis.1
        · rw [if_neg hcj] at hthis ⊢
          rw [hpdfn j] at hthis
          refine srr_mono (by omega) (srr_frame hthis ?_)
          intro r hr
          refine hother r ?_
          intro hc
          rw [hc] at hr
          obtain ⟨x, hx⟩ := srr_fp_occupied hthis child_ref hr
          rw [hx] at hfresh
          exact absurd hfresh (by simp)
      have htfpi : tfp ⟨choice, hc16⟩ = ∅ := by
        have hthis := hch ⟨choice, hc16⟩
        dsimp only at hthis
        rw [choiceAt_def] at hthis
        rw [if_pos hcref] at hthis
        exact hthis.1
      have hcv : countValid (choices.set choice child_ref) = countValid choices + 1 := by
        have hset := countValid_set choices choice child_ref (by rw [hlen]; exact hc16)
        rw [choiceAt_def] at hset
        rw [if_pos hcref, if_neg hcne] at hset
        omega
      have hdisjN : ∀ j : Fin 16, j ≠ ⟨choice, hc16⟩ →
          Disjoint (insert child_ref (∅ : Finset Nat)) (tfp j) := by
        intro j hj
        rw [Finset.disjoint_left]
        intro r hr hrj
        rcases Finset.mem_insert.mp hr with h' | h'
        · subst h'
          have hthis := hch j
          by_cases hcj : choiceAt choices j.1 = INVALID_REF
          · rw [if_pos hcj] at hthis
            rw [hthis.1] at hrj
            exact absurd hrj (by simp)
          · rw [if_neg hcj] at hthis
            obtain ⟨x, hx⟩ := srr_fp_occupied hthis r hrj
            rw [hx] at hfresh
            exact absurd hfresh (by simp)
        · exact absurd h' (by simp)
      have hbig := srv_branch_update (i := (⟨choice, hc16⟩ : Fin 16))
        (w := child_ref) (q := vref) (u := (0, hs0.2)) tfp hlen hcne
        (by rw [hcv]; omega) hch₂ hdisj hsrrC hdisjN
      have hfpe : Finset.univ.biUnion
          (Function.update tfp (⟨choice, hc16⟩ : Fin 16) (insert child_ref ∅)) =
          insert child_ref (Finset.univ.biUnion tfp) := by
        ext r
        rw [mem_biUnion_update]
        simp only [Finset.mem_insert, Finset.mem_biUnion, Finset.mem_univ, true_and,
          Finset.not_mem_empty, or_false]
        constructor
        · rintro (h' | ⟨j, hj, hr⟩)
          · exact Or.inl h'
          · exact Or.inr ⟨j, hr⟩
        · rintro (h' | ⟨j, hr⟩)
          · exact Or.inl h'
          · by_cases hji : j = ⟨choice, hc16⟩
            · rw [hji, htfpi] at hr
              exact absurd hr (by simp)
            · exact Or.inr ⟨j, hji, hr⟩
      rw [hfpe] at hbig
      exact ⟨h + 2, insert child_ref (Finset.univ.biUnion tfp),
        stepOK_insert hwf hins, hbig⟩
    · -- occupied choice: remove, recurse, reinsert
      rw [if_neg hcref] at hres
      simp only [Option.bind_eq_bind] at hres
      rw [Option.bind_eq_some] at hres
      obtain ⟨⟨child, nodes₀⟩, hrm, hres⟩ := hres
      dsimp only at hres
      rw [Option.bind_eq_some] at hres
      obtain ⟨⟨nodes₁, child', act⟩, hrec, hres⟩ := hres
      dsimp only at hres
      rw [Option.bind_eq_some] at hres
      obtain ⟨⟨newRef, nodes₂⟩, hins, hres⟩ := hres
      dsimp only at hres
      injection hres with hres
      subst hres
      refine ⟨fun _ => rfl, ?_⟩
      have hchi := hch ⟨choice, hc16⟩
      dsimp only at hchi
      rw [choiceAt_def] at hchi
      rw [if_neg hcref, hpdfn ⟨choice, hc16⟩] at hchi
      have hcrefm : choices.getD choice INVALID_REF ∈ tfp ⟨choice, hc16⟩ := by
        obtain ⟨n', fpc', -, hfpeq', -, -⟩ := hchi
        rw [hfpeq']
        exact Finset.mem_insert_self ..
      obtain ⟨hwf₀, hoth₀, hsrv₀⟩ := srv_of_srr_tryRemove hwf hrm hchi
      obtain ⟨hbr₁, h₁, fp₁, hstep01, hsrv₁⟩ := IH hrec hwf₀ hsrv₀
      obtain ⟨hwf₂, hoth₂, hfresh₂, hsrrN⟩ :=
        srr_of_srv_insert hstep01.1 hins hsrv₁
      rw [← actPend_quantize act newRef] at hsrrN
      obtain ⟨hfreshN, hgetN, hotherN, -, hltN⟩ := slab_insert_spec hstep01.1 hins
      have hnne : newRef ≠ INVALID_REF := Nat.ne_of_lt hltN
      -- slots of the untouched children pass through unchanged
      have hframe2 : ∀ j : Fin 16, j ≠ ⟨choice, hc16⟩ → ∀ r ∈ tfp j,
          nodes₂.get r = nodes.get r ∧ nodes.get r ≠ none := by
        intro j hj r hr
        have hthis := hch j
        by_cases hcj : choiceAt choices j.1 = INVALID_REF
        · rw [if_pos hcj] at hthis
          rw [hthis.1] at hr
          exact absurd hr (by simp)
        · rw [if_neg hcj] at hthis
          obtain ⟨x, hx⟩ := srr_fp_occupied hthis r hr
          have hrc : r ≠ choices.getD choice INVALID_REF := by
            intro hc
            have := Finset.disjoint_left.mp (hdisj j ⟨choice, hc16⟩ hj) hr
            rw [hc] at this
            exact this hcrefm
          have h0 : nodes₀.get r = nodes.get r := hoth₀ r hrc
          have hre : r ∉ (tfp ⟨choice, hc16⟩).erase (choices.getD choice INVALID_REF) := by
            intro hc
            exact Finset.disjoint_left.mp (hdisj j ⟨choice, hc16⟩ hj) hr
              (Finset.mem_of_mem_erase hc)
          have h1 : nodes₁.get r = nodes₀.get r :=
            hstep01.2.1 r hre (by rw [h0, hx]; simp)
          have hrn : r ≠ newRef := by
            intro hc
            rw [h0, hx] at h1
            rw [hc, hfreshN] at h1
            exact absurd h1 (by simp)
          rw [hotherN r hrn, h1, h0]
          exact ⟨rfl, by rw [hx]; simp⟩
      have hM := max (h + 1) h₁
      have hch₂ : ∀ j : Fin 16, j ≠ ⟨choice, hc16⟩ →
          if choiceAt choices j.1 = INVALID_REF then tfp j = ∅
          else SRR nodes₂ (max (h + 1) h₁) (choiceAt choices j.1) (tfp j) none := by
        intro j hj
        have hthis := hch j
        by_cases hcj : choiceAt choices j.1 = INVALID_REF
        · rw [if_pos hcj] at hthis ⊢; exact hthis.1
        · rw [if_neg hcj] at hthis ⊢
          rw [hpdfn j] at hthis
          refine srr_mono (by omega) (srr_frame hthis ?_)
          intro r hr
          exact (hframe2 j hj r hr).1
      have hdisjN : ∀ j : Fin 16, j ≠ ⟨choice, hc16⟩ →
          Disjoint (insert newRef fp₁) (tfp j) := by
        intro j hj
        rw [Finset.disjoint_left]
        intro r hr hrj
        obtain ⟨heq, hocc⟩ := hframe2 j hj r hrj
        rcases Finset.mem_insert.mp hr with h' | h'
        · -- r = newRef, but r is occupied in nodes₁
          have hrc : r ≠ choices.getD choice INVALID_REF := by
            intro hc
            have := Finset.disjoint_left.mp (hdisj j ⟨choice, hc16⟩ hj) hrj
            rw [hc] at this
            exact this hcrefm
          have h0 : nodes₀.get r = nodes.get r := hoth₀ r hrc
          have hre : r ∉ (tfp ⟨choice, hc16⟩).erase (choices.getD choice INVALID_REF) := by
            intro hc
            exact Finset.disjoint_left.mp (hdisj j ⟨choice, hc16⟩ hj) hrj
              (Finset.mem_of_mem_erase hc)
          have h1 : nodes₁.get r = nodes₀.get r :=
            hstep01.2.1 r hre (by rw [h0]; exact hocc)
          rw [h0] at h1
          rw [h', hfreshN] at h1
          rw [h'] at hocc
          exact hocc h1.symm
        · rcases hstep01.2.2.1 r h' with h'' | h''
          · exact Finset.disjoint_left.mp (hdisj j ⟨choice, hc16⟩ hj) hrj
              (Finset.mem_of_mem_erase h'')
          · have hrc : r ≠ choices.getD choice INVALID_REF := by
              intro hc
              have := Finset.disjoint_left.mp (hdisj j ⟨choice, hc16⟩ hj) hrj
              rw [hc] at this
              exact this hcrefm
            rw [hoth₀ r hrc] at h''
            exact hocc h''
      have hcv : countValid (choices.set choice newRef) = countValid choices := by
        have hset := countValid_set choices choice newRef (by rw [hlen]; exact hc16)
        rw [choiceAt_def] at hset
        rw [if_neg hcref, if_neg hnne] at hset
        omega
      have hbig := srv_branch_update (i := (⟨choice, hc16⟩ : Fin 16))
        (w := newRef) (q := vref) (u := (0, hs0.2)) tfp hlen hnne
        (by rw [hcv]; exact hex') hch₂ hdisj
        (srr_mono (le_max_right ..) hsrrN) hdisjN
      refine ⟨max (h + 1) h₁ + 1,
        Finset.univ.biUnion (Function.update tfp (⟨choice, hc16⟩ : Fin 16)
          (insert newRef fp₁)), ?_, ?_⟩
      · refine stepOK_rri hwf hrm ?_ hcrefm hstep01 hins ?_
        · intro r hr
          exact Finset.mem_biUnion.mpr ⟨⟨choice, hc16⟩, Finset.mem_univ _, hr⟩
        · intro r
          rw [mem_biUnion_update]
          constructor
          · rintro (h' | ⟨j, hj, hr⟩)
            · exact Or.inl h'
            · refine Or.inr ⟨Finset.mem_biUnion.mpr ⟨j, Finset.mem_univ _, hr⟩, ?_⟩
              intro hc
              exact Finset.disjoint_left.mp (hdisj j ⟨choice, hc16⟩ hj) hr hc
          · rintro (h' | ⟨hrB, hri⟩)
            · exact Or.inl h'
            · obtain ⟨j, -, hj⟩ := Finset.mem_biUnion.mp hrB
              refine Or.inr ⟨j, ?_, hj⟩
              intro hc
              rw [hc] at hj
              exact hri hj
      · rw [actSelf_quantize]
        exact hbig

end MPT
namespace MPT

/-- Element lookup in a nibble vector's iterated nibbles. -/
theorem toNibbles_get (v : NibbleVec) (k : Nat) :
    v.toNibbles.get? k = if k < v.nibbleCount then
      some (nibAt v.data (k + NibbleVec.bn v.first_is_half)) else none :=
  get_range_map _ _ _

/-- The middle nibble returned by `split_extract_at` is the nibble at the
split index, and the index is in range. -/
theorem split_extract_at_mid {v : NibbleVec} {k : Nat}
    {l : NibbleVec} {m : Nat} {r : NibbleVec}
    (h : v.split_extract_at k = some (l, m, r)) :
    m = nibAt v.data (k + NibbleVec.bn v.first_is_half) ∧ k < v.nibbleCount := by
  unfold NibbleVec.split_extract_at at h
  by_cases hg : (k + NibbleVec.bn v.first_is_half + NibbleVec.bn v.last_is_half) / 2 <
      v.data.length
  · rw [if_pos hg] at h
    injection h with h
    injection h with h1 h2
    injection h2 with h2 h3
    constructor
    · rw [← h2]
      unfold nibAt
      by_cases hpar : (k + NibbleVec.bn v.first_is_half) % 2 = 0
      · rw [if_pos hpar, if_neg (by simp [hpar])]
      · rw [if_neg hpar, if_pos (by simpa using hpar)]
    · unfold NibbleVec.nibbleCount
      have hb1 : NibbleVec.bn v.first_is_half ≤ 1 := by
        unfold NibbleVec.bn; split <;> omega
      have hb2 : NibbleVec.bn v.last_is_half ≤ 1 := by
        unfold NibbleVec.bn; split <;> omega
      omega
  · rw [if_neg hg] at h
    exact absurd h (by simp)

end MPT
namespace MPT

set_option maxHeartbeats 1000000 in
/-- `ExtensionNode::insert` preserves the representation invariant. -/
theorem nodeInsert_sr_ext {fuel : Nat} {values : Slab KV} (IH : InsIH fuel values)
    {nodes : Slab Node} {pref : NibbleVec} {cref : Nat} {hs0 : Nat × List Nat}
    {path : NibbleSlice} {res : Slab Node × Node × InsertAction} {h : Nat}
    {fp : Finset Nat}
    (hres : nodeInsert (fuel + 1) nodes values (.ext pref cref hs0) path = some res)
    (hwf : SlabWF nodes)
    (hsrv : SRV nodes h (.ext pref cref hs0) fp none false) :
    InsResOK nodes (.ext pref cref hs0) fp res := by
  match h with
  | 0 => exact absurd hsrv (by simp [SRV])
  | h + 1 =>
  obtain ⟨-, hpfne, cn, fpc, hgetc, hbr, hfp, hnotin, harm⟩ := hsrv
  have hsrvC : SRV nodes h cn fpc none false := by
    rcases harm with ⟨hc, -⟩ | ⟨-, hc⟩
    · exact absurd hc (by simp)
    · exact hc
  have hsrrC : SRR nodes h cref (insert cref fpc) none :=
    ⟨cn, fpc, hgetc, rfl, hnotin, Or.inr ⟨by simp, hsrvC⟩⟩
  have hcrefne : cref ≠ INVALID_REF := occupied_ne_invalid hwf hgetc
  subst hfp
  simp only [nodeInsert, Option.pure_def] at hres
  cases hsp : path.skipPref pref with
  | none =>
    simp only [hsp, Option.bind_eq_bind, Option.none_bind] at hres
    exact absurd hres (by simp)
  | some okp =>
  obtain ⟨ok, path'⟩ := okp
  simp only [hsp, Option.bind_eq_bind, Option.some_bind] at hres
  cases ok with
  | true =>
    rw [if_pos rfl] at hres
    rw [Option.bind_eq_some] at hres
    obtain ⟨⟨child, nodes₀⟩, hrm, hres⟩ := hres
    dsimp only at hres
    rw [Option.bind_eq_some] at hres
    obtain ⟨⟨nodes₁, child', act⟩, hrec, hres⟩ := hres
    dsimp only at hres
    rw [Option.bind_eq_some] at hres
    obtain ⟨⟨newRef, nodes₂⟩, hins, hres⟩ := hres
    dsimp only at hres
    injection hres with hres
    subst hres
    refine ⟨by simp [Node.isBranch], ?_⟩
    have hcn : cn = child := by
      have hgetC := (slab_tryRemove_spec hwf hrm).1
      rw [hgetc] at hgetC
      injection hgetC with hgetC
    obtain ⟨hwf₀, hoth₀, hsrv₀⟩ := srv_of_srr_tryRemove hwf hrm hsrrC
    obtain ⟨hbr₁, h₁, fp₁, hstep01, hsrv₁⟩ := IH hrec hwf₀ hsrv₀
    obtain ⟨hwf₂, hoth₂, hfresh₂, hsrrN⟩ := srr_of_srv_insert hstep01.1 hins hsrv₁
    rw [← actPend_quantize act newRef] at hsrrN
    have hbrc : child'.isBranch = true := hbr₁ (hcn ▸ hbr)
    obtain ⟨n₂, fp₂c, hget₂, hfp₂, hnotin₂, harm₂⟩ := hsrrN
    have hn₂ : n₂ = child' := by
      have hthis := (slab_insert_spec hstep01.1 hins).2.1
      rw [hget₂] at hthis
      injection hthis with hthis
    refine ⟨h₁ + 1, insert newRef fp₁, ?_, ?_⟩
    · refine stepOK_rri hwf hrm (Finset.Subset.refl _) (Finset.mem_insert_self ..)
        hstep01 hins ?_
      intro r
      constructor
      · intro hr; exact Or.inl hr
      · rintro (hr | ⟨h1, h2⟩)
        · exact hr
        · exact absurd h1 h2
    · rw [actSelf_quantize]
      exact ⟨rfl, hpfne, n₂, fp₂c, hget₂, by rw [hn₂]; exact hbrc, hfp₂,
        hnotin₂, harm₂⟩
  | false =>
    rw [if_neg (by simp : ¬(false = true))] at hres
    rw [Option.bind_eq_some] at hres
    obtain ⟨⟨left, mid, right⟩, hsplit, hres⟩ := hres
    dsimp only at hres
    rw [Option.bind_eq_some] at hres
    obtain ⟨⟨midRef, nodesM⟩, hstepM0, hres⟩ := hres
    dsimp only at hres
    have hM : ∃ fpM, StepOK nodes (insert cref fpc) nodesM fpM ∧
        SRR nodesM (h + 1) midRef fpM none ∧ midRef ≠ INVALID_REF ∧
        SlabWF nodesM := by
      by_cases hre : right.is_empty = true
      · rw [if_pos hre] at hstepM0
        injection hstepM0 with hstepM0
        injection hstepM0 with e1 e2
        subst e1; subst e2
        exact ⟨insert cref fpc, stepOK_refl _ _ hwf, srr_mono (by omega) hsrrC,
          hcrefne, hwf⟩
      · rw [if_neg hre] at hstepM0
        have hrne : right.is_empty = false := by simpa using hre
        have hsrvE : SRV nodes (h + 1) (.ext right cref (0, []))
            (insert cref fpc) none false :=
          ⟨rfl, hrne, cn, fpc, hgetc, hbr, rfl, hnotin, Or.inr ⟨by simp, hsrvC⟩⟩
        obtain ⟨hwfM, hothM, hfreshM, hsrrM⟩ := srr_of_srv_insert hwf hstepM0 hsrvE
        obtain ⟨-, -, -, hwfM', hltM⟩ := slab_insert_spec hwf hstepM0
        exact ⟨insert midRef (insert cref fpc), stepOK_insert hwf hstepM0,
          hsrrM, Nat.ne_of_lt hltM, hwfM'⟩
    obtain ⟨fpM, hstepM, hsrrM, hmne, hwfM⟩ := hM
    by_cases hm16 : mid < 16
    case neg => rw [if_neg hm16] at hres; exact absurd hres (by simp)
    rw [if_pos hm16] at hres
    cases hnx : (path.offset_add (countEq pref.toNibbles
        (nibblesFrom path.data path.offset))).next with
    | some nn =>
      obtain ⟨newNib, pb⟩ := nn
      simp only [hnx] at hres
      by_cases hn16 : newNib < 16
      case neg => rw [if_neg hn16] at hres; exact absurd hres (by simp)
      rw [if_pos hn16] at hres
      rw [Option.bind_eq_some] at hres
      obtain ⟨⟨child_ref, nodesC⟩, hinsC, hres⟩ := hres
      dsimp only at hres
      obtain ⟨hmid, hkrange⟩ := split_extract_at_mid hsplit
      obtain ⟨hnx1, hnx2, -⟩ := NibbleSlice.next_eq_some hnx
      rw [show (path.offset_add (countEq pref.toNibbles
          (nibblesFrom path.data path.offset))).offset =
          path.offset + countEq pref.toNibbles
            (nibblesFrom path.data path.offset) from rfl] at hnx1 hnx2
      rw [show (path.offset_add (countEq pref.toNibbles
          (nibblesFrom path.data path.offset))).data = path.data from rfl]
        at hnx1 hnx2
      have hne : mid ≠ newNib := by
        refine countEq_ne pref.toNibbles (nibblesFrom path.data path.offset) ?_ ?_
        · rw [toNibbles_get, if_pos hkrange, hmid]
        · rw [nibblesFrom_get, if_pos (by omega), hnx1]
      obtain ⟨hwfC, hothC, hfreshC, hsrrCh⟩ :=
        srr_of_srv_insert (h := h + 1) hwfM hinsC srv_leaf_hole
      obtain ⟨-, -, -, -, hltC⟩ := slab_insert_spec hwfM hinsC
      have hsrrM' : SRR nodesC (h + 1) midRef fpM none := by
        refine srr_frame hsrrM ?_
        intro r hr
        refine hothC r ?_
        intro hc
        obtain ⟨x, hx⟩ := srr_fp_occupied hsrrM r hr
        rw [hc, hfreshC] at hx
        exact absurd hx (by simp)
      have hdisjMC : Disjoint fpM (insert child_ref (∅ : Finset Nat)) := by
        rw [Finset.disjoint_right]
        intro r hr hrM
        rcases Finset.mem_insert.mp hr with h' | h'
        · subst h'
          obtain ⟨x, hx⟩ := srr_fp_occupied hsrrM r hrM
          rw [hfreshC] at hx
          exact absurd hx (by simp)
        · exact absurd h' (by simp)
      have hbig := srv_branch_two (v := INVALID_REF) (u := (0, []))
        hne hm16 hn16 hmne (Nat.ne_of_lt hltC) hsrrM' hsrrCh hdisjMC
        (Or.inr ⟨rfl, rfl⟩)
      have hfpe : fpM ∪ insert child_ref (∅ : Finset Nat) = insert child_ref fpM := by
        ext x; simp [or_comm]
      rw [hfpe] at hbig
      by_cases hle : left.is_empty = true
      · rw [if_pos hle] at hres
        injection hres with hres
        subst hres
        exact ⟨by simp [Node.isBranch], h + 1 + 1, insert child_ref fpM,
          stepOK_trans hstepM (stepOK_insert hwfM hinsC), hbig⟩
      · rw [if_neg hle] at hres
        rw [Option.bind_eq_some] at hres
        obtain ⟨⟨bref, nodesB⟩, hinsB, hres⟩ := hres
        dsimp only at hres
        injection hres with hres
        subst hres
        obtain ⟨hstepB, hsrvB'⟩ := ext_wrap_ok (a := .insert child_ref)
          hwfC hbig hinsB (by simpa using hle)
        exact ⟨by simp [Node.isBranch], h + 1 + 1 + 1,
          insert bref (insert child_ref fpM),
          stepOK_trans (stepOK_trans hstepM (stepOK_insert hwfM hinsC)) hstepB,
          hsrvB'⟩
    | none =>
      simp only [hnx] at hres
      have hbig : SRV nodesM (h + 1 + 1)
          (.branch ((List.replicate 16 INVALID_REF).set mid midRef)
            INVALID_REF (0, [])) fpM none true :=
        srv_branch_one hm16 hmne hsrrM (Or.inr rfl)
          (fun _ => ⟨rfl, rfl, rfl⟩) (fun hc => absurd hc (by simp))
      by_cases hle : left.is_empty = true
      · rw [if_pos hle] at hres
        injection hres with hres
        subst hres
        exact ⟨by simp [Node.isBranch], h + 1 + 1, fpM, hstepM, hbig⟩
      · rw [if_neg hle] at hres
        rw [Option.bind_eq_some] at hres
        obtain ⟨⟨bref, nodesB⟩, hinsB, hres⟩ := hres
        dsimp only at hres
        injection hres with hres
        subst hres
        obtain ⟨hstepB, hsrvB'⟩ := ext_wrap_ok (a := .insertSelf)
          hwfM hbig hinsB (by simpa using hle)
        exact ⟨by simp [Node.isBranch], h + 1 + 1 + 1, insert bref fpM,
          stepOK_trans hstepM hstepB, hsrvB'⟩

end MPT
namespace MPT

/-- The node-level insertion preserves the representation invariant, for
every fuel. -/
theorem nodeInsert_sr (fuel : Nat) (values : Slab KV) : InsIH fuel values := by
  induction fuel with
  | zero =>
    intro nodes n path res h fp hres hwf hsrv
    exact absurd hres (by simp [nodeInsert])
  | succ fuel IH =>
    intro nodes n path res h fp hres hwf hsrv
    match n with
    | .leaf vref hs0 => exact nodeInsert_sr_leaf hres hwf hsrv
    | .branch choices vref hs0 => exact nodeInsert_sr_branch IH hres hwf hsrv
    | .ext pref cref hs0 => exact nodeInsert_sr_ext IH hres hwf hsrv

end MPT
namespace MPT

/-- The facade's hole-filling update (`lib.rs::insert`, `InsertAction::Insert`
arm): store the fresh value reference into the designated leaf or branch. -/
def completeNode : Node → Nat → Node
  | .leaf _ h0, vref => .leaf vref h0
  | .branch cs _ h0, vref => .branch cs vref h0
  | n, _ => n

/-- `Slab.setSlot` leaves other slots unchanged. -/
theorem setSlot_get_ne {α : Type} (s : Slab α) (i : Nat) (a : α) (m : Nat)
    (hm : m ≠ i) : (s.setSlot i a).get m = s.get m := by
  simp [Slab.setSlot, Slab.get, List.getD_eq_getElem?_getD,
    List.getElem?_set_ne (Ne.symm hm)]

/-- `Slab.setSlot` overwrites an occupied slot. -/
theorem setSlot_get_self {α : Type} {s : Slab α} {i : Nat} {b : α}
    (hg : s.get i = some b) (a : α) : (s.setSlot i a).get i = some a := by
  have hi : i < s.entries.length := by
    by_contra hc
    rw [show s.get i = s.entries.getD i none from rfl, List.getD_eq_getElem?_getD,
      List.getElem?_eq_none (Nat.le_of_not_lt hc)] at hg
    exact absurd hg (by simp)
  simp [Slab.setSlot, Slab.get, List.getD_eq_getElem?_getD,
    List.getElem?_set_self hi]

/-- Completing the designated node itself (`pendSelf`). -/
theorem srv_complete_self {vref' : Nat} (hv : vref' ≠ INVALID_REF)
    {nodes : Slab Node} {p : Nat} :
    ∀ {h : Nat} {cn : Node} {fpc : Finset Nat},
      SRV nodes h cn fpc none true → p ∉ fpc →
      SRV (nodes.setSlot p (completeNode cn vref')) h
        (completeNode cn vref') fpc none false ∧
      ((∃ h0, cn = .leaf INVALID_REF h0) ∨
        (∃ cs h0, cn = .branch cs INVALID_REF h0)) := by
  intro h
  match h with
  | 0 => intro cn fpc hs; exact absurd hs (by simp [SRV])
  | h + 1 =>
    intro cn fpc hs hp
    match cn with
    | .leaf vr h0 =>
      obtain ⟨hfp, -, hps⟩ := hs
      have hvr : vr = INVALID_REF := by
        by_cases hc : vr = INVALID_REF
        · exact hc
        · rw [show (decide (vr = INVALID_REF)) = false by simp [hc]] at hps
          exact absurd hps (by simp)
      subst hvr
      exact ⟨⟨hfp, rfl, by simp [hv]⟩, Or.inl ⟨h0, rfl⟩⟩
    | .ext pf cref h0 =>
      exact absurd hs.1 (by simp)
    | .branch cs vr h0 =>
      obtain ⟨hlen, hex, hpsv, tfp, pdf, hfp, hdisj, hpdf, hch⟩ := hs
      obtain ⟨hvr, -⟩ := hpsv rfl
      subst hvr
      refine ⟨⟨hlen, ?_, by simp, tfp, pdf, hfp, hdisj, ?_, ?_⟩,
        Or.inr ⟨cs, h0, rfl⟩⟩
      · rw [if_pos (Or.inl hv)]
        rw [if_pos (Or.inr rfl)] at hex
        exact hex
      · obtain ⟨jj, hjj, hoth⟩ := hpdf
        rw [if_pos rfl] at hjj
        exact ⟨jj, by rw [hjj]; simp, hoth⟩
      · intro i
        have hthis := hch i
        by_cases hc : choiceAt cs i.1 = INVALID_REF
        · rw [if_pos hc] at hthis ⊢; exact hthis
        · rw [if_neg hc] at hthis ⊢
          obtain ⟨cni, fpci, hgeti, htfpi, hnotini, armi⟩ := hthis
          have hframe : ∀ r ∈ fpci,
              (nodes.setSlot p (.branch cs vref' h0)).get r = nodes.get r := by
            intro r hr
            refine setSlot_get_ne nodes p _ r ?_
            intro hc'
            apply hp
            rw [hfp]
            refine Finset.mem_biUnion.mpr ⟨i, Finset.mem_univ _, ?_⟩
            rw [htfpi, ← hc']
            exact Finset.mem_insert_of_mem hr
          have hpc : choiceAt cs i.1 ≠ p := by
            intro hc'
            apply hp
            rw [hfp]
            refine Finset.mem_biUnion.mpr ⟨i, Finset.mem_univ _, ?_⟩
            rw [htfpi, ← hc']
            exact Finset.mem_insert_self ..
          refine ⟨cni, fpci, ?_, htfpi, hnotini, ?_⟩
          · rw [setSlot_get_ne nodes p _ _ hpc, hgeti]
          · rcases armi with ⟨h1, h2⟩ | ⟨h1, h2⟩
            · exact Or.inl ⟨h1, srv_frame h2 hframe⟩
            · exact Or.inr ⟨h1, srv_frame h2 hframe⟩

/-- Completing the designated descendant hole. -/
theorem srv_complete {vref' : Nat} (hv : vref' ≠ INVALID_REF)
    {nodes : Slab Node} {p : Nat} :
    ∀ {h : Nat} {n : Node} {fp : Finset Nat},
      SRV nodes h n fp (some p) false →
      ∀ {nd : Node}, nodes.get p = some nd →
      SRV (nodes.setSlot p (completeNode nd vref')) h n fp none false ∧
      ((∃ h0, nd = .leaf INVALID_REF h0) ∨
        (∃ cs h0, nd = .branch cs INVALID_REF h0)) := by
  intro h
  induction h with
  | zero => intro n fp hs; exact absurd hs (by simp [SRV])
  | succ h ih =>
    intro n fp hs nd hnd
    match n with
    | .leaf vr h0 => exact absurd hs.2.1 (by simp)
    | .ext pf cref h0 =>
      obtain ⟨-, hpfne, cn, fpc, hgetc, hbr, hfp, hnotin, harm⟩ := hs
      rcases harm with ⟨h1, h2⟩ | ⟨h1, h2⟩
      · -- the hole is the child itself
        have hpc : p = cref := by injection h1
        subst hpc
        have hcn : cn = nd := by
          rw [hgetc] at hnd; injection hnd
        rw [hcn] at hbr h2
        obtain ⟨hsc, hshape⟩ := srv_complete_self hv h2 hnotin
        refine ⟨⟨rfl, hpfne, completeNode nd vref', fpc,
          setSlot_get_self hnd _, ?_, hfp, hnotin,
          Or.inr ⟨by simp, hsc⟩⟩, hshape⟩
        rcases hshape with ⟨h0', he⟩ | ⟨cs', h0', he⟩
        · -- nd a leaf contradicts the extension child being a branch
          rw [he] at hbr
          exact absurd hbr (by simp [Node.isBranch])
        · rw [he]; rfl
      · -- the hole is deeper in the child's subtree
        have hpc : p ≠ cref := fun hc => h1 (by rw [hc])
        obtain ⟨hsc, hshape⟩ := ih h2 hnd
        refine ⟨⟨rfl, hpfne, cn, fpc, ?_, hbr, hfp, hnotin,
          Or.inr ⟨by simp, hsc⟩⟩, hshape⟩
        rw [setSlot_get_ne nodes p _ cref (Ne.symm hpc), hgetc]
    | .branch cs vr h0 =>
      obtain ⟨hlen, hex, -, tfp, pdf, hfp, hdisj, hpdf, hch⟩ := hs
      obtain ⟨jj, hjj, hoth⟩ := hpdf
      rw [if_neg (by simp)] at hjj
      -- locate the hole's slot inside the designated child's footprint
      have hpjj : p ∈ tfp jj := by
        have hthis := hch jj
        by_cases hc : choiceAt cs jj.1 = INVALID_REF
        · rw [if_pos hc] at hthis
          rw [hthis.2] at hjj
          exact absurd hjj.symm (by simp)
        · rw [if_neg hc] at hthis
          obtain ⟨cnj, fpcj, -, htfpj, -, armj⟩ := hthis
          rw [htfpj]
          rcases armj with ⟨h1, h2⟩ | ⟨h1, h2⟩
          · rw [hjj] at h1
            rw [show p = choiceAt cs jj.1 by injection h1]
            exact Finset.mem_insert_self ..
          · rw [hjj] at h2
            exact Finset.mem_insert_of_mem (srv_pend_mem h2)
      -- the updated designated child, with the shape of the hole
      have hkey : ((∃ h0', nd = .leaf INVALID_REF h0') ∨
          (∃ cs' h0', nd = .branch cs' INVALID_REF h0')) ∧
          (if choiceAt cs jj.1 = INVALID_REF then
            tfp jj = ∅ ∧ (none : Option Nat) = none
          else ∃ cnj fpcj,
            (nodes.setSlot p (completeNode nd vref')).get (choiceAt cs jj.1) =
              some cnj ∧
            tfp jj = insert (choiceAt cs jj.1) fpcj ∧ choiceAt cs jj.1 ∉ fpcj ∧
            ((none = some (choiceAt cs jj.1) ∧
              SRV (nodes.setSlot p (completeNode nd vref')) h cnj fpcj none true) ∨
             ((none : Option Nat) ≠ some (choiceAt cs jj.1) ∧
              SRV (nodes.setSlot p (completeNode nd vref')) h cnj fpcj none false))) := by
        have hthis := hch jj
        by_cases hc : choiceAt cs jj.1 = INVALID_REF
        · rw [if_pos hc] at hthis
          rw [hthis.2] at hjj
          exact absurd hjj.symm (by simp)
        · rw [if_neg hc] at hthis ⊢
          obtain ⟨cnj, fpcj, hgetj, htfpj, hnotinj, armj⟩ := hthis
          rcases armj with ⟨h1, h2⟩ | ⟨h1, h2⟩
          · rw [hjj] at h1
            have hpc : p = choiceAt cs jj.1 := by injection h1
            have hcn : cnj = nd := by
              rw [← hpc] at hgetj
              rw [hgetj] at hnd; injection hnd
            rw [hcn] at h2
            obtain ⟨hsc, hshape⟩ := srv_complete_self (p := p) hv h2
              (by rw [hpc]; exact hnotinj)
            refine ⟨hshape, completeNode nd vref', fpcj, ?_, htfpj, hnotinj,
              Or.inr ⟨by simp, ?_⟩⟩
            · rw [← hpc]
              exact setSlot_get_self hnd _
            · exact hsc
          · rw [hjj] at h1 h2
            have hpc : p ≠ choiceAt cs jj.1 := fun hcc => h1 (by rw [hcc])
            obtain ⟨hsc, hshape⟩ := ih h2 hnd
            refine ⟨hshape, cnj, fpcj, ?_, htfpj, hnotinj,
              Or.inr ⟨by simp, hsc⟩⟩
            rw [setSlot_get_ne nodes p _ _ (Ne.symm hpc), hgetj]
      refine ⟨⟨hlen, hex, by simp, tfp, fun _ => none, hfp, hdisj,
        ⟨jj, by simp, fun _ _ => rfl⟩, ?_⟩, hkey.1⟩
      intro i
      by_cases hij : i = jj
      · subst hij
        exact hkey.2
      · have hthis := hch i
        by_cases hc : choiceAt cs i.1 = INVALID_REF
        · rw [if_pos hc] at hthis ⊢
          exact ⟨hthis.1, rfl⟩
        · rw [if_neg hc] at hthis ⊢
          obtain ⟨cni, fpci, hgeti, htfpi, hnotini, armi⟩ := hthis
          rw [hoth i hij] at armi
          have hdisji := hdisj i jj hij
          have hpi : p ∉ tfp i := fun hcc =>
            Finset.disjoint_left.mp hdisji hcc hpjj
          have hframe : ∀ r ∈ fpci,
              (nodes.setSlot p (completeNode nd vref')).get r = nodes.get r := by
            intro r hr
            refine setSlot_get_ne nodes p _ r ?_
            intro hc'
            apply hpi
            rw [htfpi, ← hc']
            exact Finset.mem_insert_of_mem hr
          have hpci : choiceAt cs i.1 ≠ p := by
            intro hc'
            apply hpi
            rw [htfpi, ← hc']
            exact Finset.mem_insert_self ..
          refine ⟨cni, fpci, ?_, htfpi, hnotini, ?_⟩
          · rw [setSlot_get_ne nodes p _ _ hpci, hgeti]
          · rcases armi with ⟨h1, h2⟩ | ⟨h1, h2⟩
            · exact absurd h1 (by simp)
            · exact Or.inr ⟨by simp, srv_frame h2 hframe⟩

/-- Completing the hole of a by-reference subtree. -/
theorem srr_complete {nodes : Slab Node} {h ref p vref' : Nat} {fp : Finset Nat}
    (hv : vref' ≠ INVALID_REF) (hsrr : SRR nodes h ref fp (some p)) :
    ∃ nd, nodes.get p = some nd ∧
      ((∃ h0, nd = .leaf INVALID_REF h0) ∨
        (∃ cs h0, nd = .branch cs INVALID_REF h0)) ∧
      SRR (nodes.setSlot p (completeNode nd vref')) h ref fp none := by
  obtain ⟨n, fpc, hget, hfp, hnotin, harm⟩ := hsrr
  rcases harm with ⟨h1, h2⟩ | ⟨h1, h2⟩
  · have hpr : p = ref := by injection h1
    subst hpr
    obtain ⟨hsc, hshape⟩ := srv_complete_self hv h2 hnotin
    exact ⟨n, hget, hshape, completeNode n vref', fpc,
      setSlot_get_self hget _, hfp, hnotin, Or.inr ⟨by simp, hsc⟩⟩
  · have hpr : p ≠ ref := fun hc => h1 (by rw [hc])
    have hpocc : ∃ x, nodes.get p = some x := by
      refine srv_fp_occupied h2 p (srv_pend_mem h2)
    obtain ⟨nd, hnd⟩ := hpocc
    obtain ⟨hsc, hshape⟩ := srv_complete hv h2 hnd
    refine ⟨nd, hnd, hshape, n, fpc, ?_, hfp, hnotin, Or.inr ⟨by simp, hsc⟩⟩
    rw [setSlot_get_ne nodes p _ ref (Ne.symm hpr), hget]

end MPT
namespace MPT

/-- A pending slot of a by-reference subtree is in its footprint. -/
theorem srr_pend_mem {nodes : Slab Node} {h ref p : Nat} {fp : Finset Nat}
    (hsrr : SRR nodes h ref fp (some p)) : p ∈ fp := by
  obtain ⟨n, fpc, -, hfp, -, harm⟩ := hsrr
  rcases harm with ⟨h1, -⟩ | ⟨-, h2⟩
  · rw [hfp, show p = ref by injection h1]
    exact Finset.mem_insert_self ..
  · rw [hfp]
    exact Finset.mem_insert_of_mem (srv_pend_mem h2)

/-- The facade invariant: both arenas are well-formed, and the tree is
either the pristine empty state or a complete root subtree covering every
occupied node slot, with at least one stored value. -/
def SInv (t : PatriciaMerkleTree) : Prop :=
  SlabWF t.nodes ∧ SlabWF t.values ∧
  ((t.root_ref = INVALID_REF ∧ t.nodes = Slab.new ∧ t.values = Slab.new) ∨
   (∃ h fp, SRR t.nodes h t.root_ref fp none ∧
      (∀ r, t.nodes.get r ≠ none → r ∈ fp) ∧ 1 ≤ t.values.len))

theorem sinv_new : SInv PatriciaMerkleTree.new :=
  ⟨slabWF_new, slabWF_new, Or.inl ⟨rfl, rfl, rfl⟩⟩

set_option maxHeartbeats 1000000 in
/-- `PatriciaMerkleTree::insert` preserves the facade invariant, and its
value-arena frame effect follows the returned previous value. -/
theorem insert_SInv {t : PatriciaMerkleTree} {path value : List Nat}
    {t' : PatriciaMerkleTree} {old : Option (List Nat)}
    (hinv : SInv t) (hins : t.insert path value = some (t', old)) :
    SInv t' ∧
    (old = none → t'.len = t.len + 1) ∧
    (old ≠ none → t'.len = t.len ∧
      t'.values.entries.length = t.values.entries.length) := by
  obtain ⟨hwfN, hwfV, hdis⟩ := hinv
  unfold PatriciaMerkleTree.insert at hins
  cases hrm : t.nodes.tryRemove t.root_ref with
  | none =>
    rw [hrm] at hins
    simp only [Option.bind_eq_bind] at hins
    rw [Option.bind_eq_some] at hins
    obtain ⟨⟨vref, values'⟩, hvins, hins⟩ := hins
    dsimp only at hins
    rw [Option.bind_eq_some] at hins
    obtain ⟨⟨rref, nodes'⟩, hnins, hins⟩ := hins
    dsimp only at hins
    injection hins with hins
    injection hins with hins hold
    subst hins
    subst hold
    obtain ⟨hvfresh, hvget, hvoth, hwfV', hvlt⟩ := slab_insert_spec hwfV hvins
    obtain ⟨hnfresh, hnget, hnoth, hwfN', hnlt⟩ := slab_insert_spec hwfN hnins
    obtain ⟨-, -, -, hsrr'⟩ := srr_of_srv_insert (h := 1) hwfN hnins
      (srv_leaf_valid (Nat.ne_of_lt hvlt))
    have hnodesnew : t.nodes = Slab.new := by
      rcases hdis with ⟨-, hnn, -⟩ | ⟨h, fp, hsrr2, -, -⟩
      · exact hnn
      · obtain ⟨n, fpc, hget, -, -, -⟩ := hsrr2
        rw [show t.nodes.tryRemove t.root_ref =
          (t.nodes.get t.root_ref).map (fun a =>
            (a, ⟨t.nodes.entries.set t.root_ref none, t.root_ref :: t.nodes.free⟩))
          from rfl, hget] at hrm
        exact absurd hrm (by simp)
    refine ⟨⟨hwfN', hwfV', Or.inr ⟨1, insert rref ∅, hsrr', ?_, ?_⟩⟩, ?_, ?_⟩
    · intro r hr
      by_cases hrr : r = rref
      · rw [hrr]; exact Finset.mem_insert_self ..
      · rw [hnoth r hrr, hnodesnew, slab_get_new] at hr
        exact absurd rfl hr
    · rw [slab_insert_len hwfV hvins]
      omega
    · intro _
      exact slab_insert_len hwfV hvins
    · intro hc
      exact absurd rfl hc
  | some rootp =>
    obtain ⟨root, nodes0⟩ := rootp
    rw [hrm] at hins
    simp only [Option.bind_eq_bind] at hins
    rw [Option.bind_eq_some] at hins
    obtain ⟨⟨nodes1, root', act⟩, hrec, hins⟩ := hins
    dsimp only at hins
    rw [Option.bind_eq_some] at hins
    obtain ⟨⟨rref, nodes2⟩, hrins, hins⟩ := hins
    dsimp only at hins
    -- the invariant's non-empty disjunct applies
    have hdis2 : ∃ h fp, SRR t.nodes h t.root_ref fp none ∧
        (∀ r, t.nodes.get r ≠ none → r ∈ fp) ∧ 1 ≤ t.values.len := by
      rcases hdis with ⟨-, hnn, -⟩ | h2
      · rw [hnn] at hrm
        rw [show Slab.new.tryRemove t.root_ref = none from rfl] at hrm
        exact absurd hrm (by simp)
      · exact h2
    obtain ⟨h, fp, hsrr, hocc, hvlen⟩ := hdis2
    obtain ⟨hgetR, hnone0, hoth0, hwf0⟩ := slab_tryRemove_spec hwfN hrm
    obtain ⟨hwf₀, hoth₀, hsrv₀⟩ := srv_of_srr_tryRemove hwfN hrm hsrr
    obtain ⟨-, h₁, fp₁, hstep01, hsrv₁⟩ :=
      nodeInsert_sr (t.nodes.entries.length + 1) t.values hrec hwf₀ hsrv₀
    dsimp only at hstep01 hsrv₁
    obtain ⟨hwf₂, hoth₂, hfresh₂, hsrrQ⟩ := srr_of_srv_insert hstep01.1 hrins hsrv₁
    rw [← actPend_quantize act rref] at hsrrQ
    -- every occupied slot of nodes2 is inside the new root footprint
    have hocc₂ : ∀ r, nodes2.get r ≠ none → r ∈ insert rref fp₁ := by
      intro r hr
      by_cases hrr : r = rref
      · rw [hrr]; exact Finset.mem_insert_self ..
      · rw [hoth₂ r hrr] at hr
        rcases hstep01.2.2.2 r hr with h' | ⟨hre, hocc0⟩
        · exact Finset.mem_insert_of_mem h'
        · exfalso
          have hrt : r ≠ t.root_ref := by
            intro hc; rw [hc] at hocc0; exact hocc0 hnone0
          rw [hoth0 r hrt] at hocc0
          exact hre (Finset.mem_erase.mpr ⟨hrt, hocc r hocc0⟩)
    cases hq : act.quantize_self rref with
    | insert nref =>
      rw [hq] at hins hsrrQ
      simp only [Option.bind_eq_bind] at hins
      rw [Option.bind_eq_some] at hins
      obtain ⟨⟨vref, values'⟩, hvins, hins⟩ := hins
      dsimp only at hins
      rw [Option.bind_eq_some] at hins
      obtain ⟨nd, hnd, hins⟩ := hins
      obtain ⟨hvfresh, hvget, hvoth, hwfV', hvlt⟩ := slab_insert_spec hwfV hvins
      obtain ⟨nd', hnd', hshape, hsrrF⟩ :=
        srr_complete (Nat.ne_of_lt hvlt) hsrrQ
      have hnd'' : nd' = nd := by rw [hnd'] at hnd; injection hnd
      subst hnd''
      have hpmem : nref ∈ insert rref fp₁ := srr_pend_mem hsrrQ
      rcases hshape with ⟨h0, hnde⟩ | ⟨cs, h0, hnde⟩
      · -- the hole is a leaf
        subst hnde
        dsimp only at hins
        injection hins with hins
        injection hins with hins hold
        subst hins
        subst hold
        refine ⟨⟨?_, hwfV', Or.inr ⟨h₁, insert rref fp₁, hsrrF, ?_, ?_⟩⟩, ?_, ?_⟩
        · exact (slab_setSlot_spec hwf₂ hnd').2.2
        · intro r hr
          by_cases hrn : r = nref
          · rw [hrn]; exact hpmem
          · rw [setSlot_get_ne _ _ _ _ hrn] at hr
            exact hocc₂ r hr
        · rw [slab_insert_len hwfV hvins]; omega
        · intro _
          exact slab_insert_len hwfV hvins
        · intro hc; exact absurd rfl hc
      · -- the hole is a branch
        subst hnde
        dsimp only at hins
        injection hins with hins
        injection hins with hins hold
        subst hins
        subst hold
        refine ⟨⟨?_, hwfV', Or.inr ⟨h₁, insert rref fp₁, hsrrF, ?_, ?_⟩⟩, ?_, ?_⟩
        · exact (slab_setSlot_spec hwf₂ hnd').2.2
        · intro r hr
          by_cases hrn : r = nref
          · rw [hrn]; exact hpmem
          · rw [setSlot_get_ne _ _ _ _ hrn] at hr
            exact hocc₂ r hr
        · rw [slab_insert_len hwfV hvins]; omega
        · intro _
          exact slab_insert_len hwfV hvins
        · intro hc; exact absurd rfl hc
    | replace vref =>
      rw [hq] at hins hsrrQ
      simp only [Option.bind_eq_bind] at hins
      rw [Option.bind_eq_some] at hins
      obtain ⟨⟨p0, old0⟩, hvget, hins⟩ := hins
      dsimp only at hins
      injection hins with hins
      injection hins with hins hold
      subst hins
      subst hold
      obtain ⟨hset1, hset2, hwfV'⟩ := slab_setSlot_spec hwfV hvget
      refine ⟨⟨hwf₂, hwfV', Or.inr ⟨h₁, insert rref fp₁, hsrrQ, hocc₂, ?_⟩⟩, ?_, ?_⟩
      · rw [slab_setSlot_len _ hvget]
        exact hvlen
      · intro hc; exact absurd hc (by simp)
      · intro _
        exact ⟨slab_setSlot_len _ hvget, slab_setSlot_entries_length ..⟩
    | insertSelf =>
      rw [hq] at hins
      exact absurd hins (by simp)

end MPT
namespace MPT

/-- Any insertion sequence from the empty tree maintains the facade
invariant. -/
theorem foldl_inserts_SInv :
    ∀ (s : List (List Nat × List Nat)) (t₀ t : PatriciaMerkleTree),
      SInv t₀ →
      s.foldlM (fun t kv => (t.insert kv.1 kv.2).map Prod.fst) t₀ = some t →
      SInv t := by
  intro s
  induction s with
  | nil =>
    intro t₀ t hinv hfold
    rw [List.foldlM_nil] at hfold
    injection hfold with hfold
    rw [← hfold]
    exact hinv
  | cons kv s ih =>
    intro t₀ t hinv hfold
    rw [List.foldlM_cons] at hfold
    simp only [Option.bind_eq_bind] at hfold
    rw [Option.bind_eq_some] at hfold
    obtain ⟨t₁, hstep, hfold⟩ := hfold
    cases hins : t₀.insert kv.1 kv.2 with
    | none => rw [hins] at hstep; exact absurd hstep (by simp)
    | some pr =>
      obtain ⟨t₁', old⟩ := pr
      rw [hins] at hstep
      simp only [Option.map_some'] at hstep
      injection hstep with hstep
      rw [← hstep] at hfold
      exact ih t₁' t ((insert_SInv hinv hins).1) hfold

theorem runInserts_SInv {s : List (List Nat × List Nat)} {t : PatriciaMerkleTree}
    (h : runInserts s = some t) : SInv t :=
  foldl_inserts_SInv s PatriciaMerkleTree.new t sinv_new h

/-- Under the invariant, the node-arena emptiness check coincides with the
value count being zero. -/
theorem sinv_empty_iff {t : PatriciaMerkleTree} (hinv : SInv t) :
    t.is_empty = true ↔ t.len = 0 := by
  obtain ⟨-, -, hdis⟩ := hinv
  rcases hdis with ⟨-, hnn, hvv⟩ | ⟨h, fp, hsrr, -, hvlen⟩
  · unfold PatriciaMerkleTree.is_empty PatriciaMerkleTree.len
    rw [hnn, hvv]
    constructor <;> intro <;> rfl
  · obtain ⟨n, fpc, hget, -, -, -⟩ := hsrr
    have hn1 : 1 ≤ t.nodes.len := slab_len_pos hget
    unfold PatriciaMerkleTree.is_empty PatriciaMerkleTree.len
    unfold Slab.isEmpty
    constructor
    · intro hc
      have : t.nodes.len = 0 := by simpa using hc
      omega
    · intro hc
      omega

end MPT
namespace MPT

/-- Inside a well-shaped subtree, every slot holding an extension has a
branch child. -/
theorem srv_ext_child {nodes : Slab Node} :
    ∀ {h : Nat} {n : Node} {fp : Finset Nat} {pend : Option Nat} {ps : Bool},
      SRV nodes h n fp pend ps →
      (∀ pf cref h2, n = .ext pf cref h2 →
        ∃ cn, nodes.get cref = some cn ∧ cn.isBranch = true) ∧
      (∀ r ∈ fp, ∀ pf cref h2, nodes.get r = some (.ext pf cref h2) →
        ∃ cn, nodes.get cref = some cn ∧ cn.isBranch = true) := by
  intro h
  induction h with
  | zero => intro n fp pend ps hs; exact absurd hs (by simp [SRV])
  | succ h ih =>
    intro n fp pend ps hs
    match n with
    | .leaf vref hs0 =>
      obtain ⟨hfp, -, -⟩ := hs
      subst hfp
      exact ⟨fun _ _ _ he => absurd he (by simp), fun r hr => absurd hr (by simp)⟩
    | .ext pf0 cref0 hs0 =>
      obtain ⟨-, -, cn, fpc, hget, hbr, hfp, -, harm⟩ := hs
      subst hfp
      have hcs : ∀ {pd : Option Nat} {pss : Bool}, SRV nodes h cn fpc pd pss →
          (∀ r ∈ insert cref0 fpc, ∀ pf cref h2,
            nodes.get r = some (.ext pf cref h2) →
            ∃ cn', nodes.get cref = some cn' ∧ cn'.isBranch = true) := by
        intro pd pss hsc r hr pf cref h2 hre
        rcases Finset.mem_insert.mp hr with h' | h'
        · subst h'
          rw [hget] at hre
          injection hre with hre
          rw [hre] at hbr
          exact absurd hbr (by simp [Node.isBranch])
        · exact (ih hsc).2 r h' pf cref h2 hre
      refine ⟨?_, ?_⟩
      · intro pf cref h2 he
        injection he with e1 e2 e3
        subst e2
        exact ⟨cn, hget, hbr⟩
      · rcases harm with ⟨-, h2⟩ | ⟨-, h2⟩
        · exact hcs h2
        · exact hcs h2
    | .branch choices vref hs0 =>
      obtain ⟨-, -, -, tfp, pdf, hfp, -, -, hch⟩ := hs
      subst hfp
      refine ⟨fun _ _ _ he => absurd he (by simp), ?_⟩
      intro r hr pf cref h2 hre
      obtain ⟨i, -, hi⟩ := Finset.mem_biUnion.mp hr
      have hthis := hch i
      by_cases hc : choiceAt choices i.1 = INVALID_REF
      · rw [if_pos hc] at hthis
        rw [hthis.1] at hi
        exact absurd hi (by simp)
      · rw [if_neg hc] at hthis
        obtain ⟨cni, fpci, hgeti, htfpi, -, armi⟩ := hthis
        rw [htfpi] at hi
        have hcs : ∀ {pd : Option Nat} {pss : Bool}, SRV nodes h cni fpci pd pss →
            ∃ cn', nodes.get cref = some cn' ∧ cn'.isBranch = true := by
          intro pd pss hsc
          rcases Finset.mem_insert.mp hi with h' | h'
          · subst h'
            rw [hgeti] at hre
            injection hre with hre
            rw [hre] at hsc
            exact ((ih hsc).1) pf cref h2 rfl
          · exact (ih hsc).2 r h' pf cref h2 hre
        rcases armi with ⟨-, h2'⟩ | ⟨-, h2'⟩
        · exact hcs h2'
        · exact hcs h2'

/-- Inside a complete well-shaped subtree, every slot holding a branch
has at least two exits. -/
theorem srv_branch_exits {nodes : Slab Node} :
    ∀ {h : Nat} {n : Node} {fp : Finset Nat},
      SRV nodes h n fp none false →
      (∀ cs vr h2, n = .branch cs vr h2 →
        2 ≤ countValid cs + (if vr ≠ INVALID_REF then 1 else 0)) ∧
      (∀ r ∈ fp, ∀ cs vr h2, nodes.get r = some (.branch cs vr h2) →
        2 ≤ countValid cs + (if vr ≠ INVALID_REF then 1 else 0)) := by
  intro h
  induction h with
  | zero => intro n fp hs; exact absurd hs (by simp [SRV])
  | succ h ih =>
    intro n fp hs
    match n with
    | .leaf vref hs0 =>
      obtain ⟨hfp, -, -⟩ := hs
      subst hfp
      exact ⟨fun _ _ _ he => absurd he (by simp), fun r hr => absurd hr (by simp)⟩
    | .ext pf0 cref0 hs0 =>
      obtain ⟨-, -, cn, fpc, hget, hbr, hfp, -, harm⟩ := hs
      subst hfp
      have h2 : SRV nodes h cn fpc none false := by
        rcases harm with ⟨hc, -⟩ | ⟨-, hc⟩
        · exact absurd hc (by simp)
        · exact hc
      refine ⟨fun _ _ _ he => absurd he (by simp), ?_⟩
      intro r hr cs vr h2' hre
      rcases Finset.mem_insert.mp hr with h' | h'
      · subst h'
        rw [hget] at hre
        injection hre with hre
        rw [hre] at h2
        exact ((ih h2).1) cs vr h2' rfl
      · exact (ih h2).2 r h' cs vr h2' hre
    | .branch choices vref hs0 =>
      obtain ⟨-, hex, -, tfp, pdf, hfp, -, hpdf, hch⟩ := hs
      have hpdfn : ∀ i, pdf i = none := by
        obtain ⟨jj, hjj, hoth⟩ := hpdf
        rw [if_neg (by simp)] at hjj
        exact pdf_all_none ⟨jj, hjj, hoth⟩
      subst hfp
      refine ⟨?_, ?_⟩
      · intro cs vr h2 he
        injection he with e1 e2 e3
        subst e1; subst e2
        simpa using hex
      · intro r hr cs vr h2' hre
        obtain ⟨i, -, hi⟩ := Finset.mem_biUnion.mp hr
        have hthis := hch i
        by_cases hc : choiceAt choices i.1 = INVALID_REF
        · rw [if_pos hc] at hthis
          rw [hthis.1] at hi
          exact absurd hi (by simp)
        · rw [if_neg hc] at hthis
          obtain ⟨cni, fpci, hgeti, htfpi, -, armi⟩ := hthis
          rw [htfpi] at hi
          rw [hpdfn i] at armi
          have h2 : SRV nodes h cni fpci none false := by
            rcases armi with ⟨hc', -⟩ | ⟨-, hc'⟩
            · exact absurd hc' (by simp)
            · exact hc'
          rcases Finset.mem_insert.mp hi with h' | h'
          · subst h'
            rw [hgeti] at hre
            injection hre with hre
            rw [hre] at h2
            exact ((ih h2).1) cs vr h2' rfl
          · exact (ih h2).2 r h' cs vr h2' hre

/-- Under the facade invariant, every extension slot in the arena has a
branch child. -/
theorem sinv_ext_child {t : PatriciaMerkleTree} (hinv : SInv t) :
    ∀ r pf cref h2, t.nodes.get r = some (.ext pf cref h2) →
      ∃ cs vr h3, t.nodes.get cref = some (.branch cs vr h3) := by
  intro r pf cref h2 hre
  obtain ⟨-, -, hdis⟩ := hinv
  rcases hdis with ⟨-, hnn, -⟩ | ⟨h, fp, hsrr, hocc, -⟩
  · rw [hnn, slab_get_new] at hre
    exact absurd hre (by simp)
  · have hrfp : r ∈ fp := hocc r (by rw [hre]; simp)
    obtain ⟨n, fpc, hget, hfp, hnotin, harm⟩ := hsrr
    have hsrv : SRV t.nodes h n fpc none false := by
      rcases harm with ⟨hc, -⟩ | ⟨-, hc⟩
      · exact absurd hc (by simp)
      · exact hc
    have hfind : ∃ cn, t.nodes.get cref = some cn ∧ cn.isBranch = true := by
      rw [hfp] at hrfp
      rcases Finset.mem_insert.mp hrfp with h' | h'
      · subst h'
        rw [hget] at hre
        injection hre with hre
        rw [hre] at hsrv
        exact (srv_ext_child hsrv).1 pf cref h2 rfl
      · exact (srv_ext_child hsrv).2 r h' pf cref h2 hre
    obtain ⟨cn, hcn, hbr⟩ := hfind
    match cn with
    | .branch cs vr h3 => exact ⟨cs, vr, h3, hcn⟩
    | .leaf _ _ => exact absurd hbr (by simp [Node.isBranch])
    | .ext _ _ _ => exact absurd hbr (by simp [Node.isBranch])

/-- Under the facade invariant, every branch slot in the arena has at
least two exits. -/
theorem sinv_branch_exits {t : PatriciaMerkleTree} (hinv : SInv t) :
    ∀ r cs vr h2, t.nodes.get r = some (.branch cs vr h2) →
      2 ≤ countValid cs + (if vr ≠ INVALID_REF then 1 else 0) := by
  intro r cs vr h2 hre
  obtain ⟨-, -, hdis⟩ := hinv
  rcases hdis with ⟨-, hnn, -⟩ | ⟨h, fp, hsrr, hocc, -⟩
  · rw [hnn, slab_get_new] at hre
    exact absurd hre (by simp)
  · have hrfp : r ∈ fp := hocc r (by rw [hre]; simp)
    obtain ⟨n, fpc, hget, hfp, hnotin, harm⟩ := hsrr
    have hsrv : SRV t.nodes h n fpc none false := by
      rcases harm with ⟨hc, -⟩ | ⟨-, hc⟩
      · exact absurd hc (by simp)
      · exact hc
    rw [hfp] at hrfp
    rcases Finset.mem_insert.mp hrfp with h' | h'
    · subst h'
      rw [hget] at hre
      injection hre with hre
      rw [hre] at hsrv
      exact (srv_branch_exits hsrv).1 cs vr h2 rfl
    · exact (srv_branch_exits hsrv).2 r h' cs vr h2 hre

end MPT
namespace PT

theorem keyValIn_leaf_inv {V : Type} {key : List Nat} {v : V} {k : List Nat}
    {v' : V} (h : KeyValIn key v (.leaf k v')) : key = k ∧ v = v' := by
  cases h
  exact ⟨rfl, rfl⟩

theorem keyValIn_ext_inv {V : Type} {key : List Nat} {v : V} {pf : List Nat}
    {child : PTNode V} (h : KeyValIn key v (.ext pf child)) :
    KeyValIn key v child := by
  cases h
  assumption

theorem keyValIn_branch_inv {V : Type} {key : List Nat} {v : V}
    {choices : List (Option (PTNode V))} (h : KeyValIn key v (.branch choices)) :
    ∃ i n, choices.getD i none = some n ∧ KeyValIn key v n := by
  cases h with
  | branch c i n h1 h2 => exact ⟨i, n, h1, h2⟩

theorem shapeWF_ext_inv {V : Type} {pf : List Nat} {child : PTNode V}
    (h : ShapeWF (.ext pf child)) :
    pf ≠ [] ∧ (∃ bc, child = .branch bc) ∧ ShapeWF child := by
  cases h with
  | ext _ _ h1 h2 h3 => exact ⟨h1, h2, h3⟩

theorem shapeWF_branch_inv {V : Type} {choices : List (Option (PTNode V))}
    (h : ShapeWF (.branch choices)) :
    choices.length = 16 ∧ 2 ≤ (choices.filter Option.isSome).length ∧
    (∀ c ∈ choices, ∀ n, c = some n → ShapeWF n) := by
  cases h with
  | branch _ h1 h2 h3 => exact ⟨h1, h2, h3⟩

/-- An element found by `getD` is a member. -/
theorem getD_mem {α : Type} : ∀ (l : List (Option α)) (i : Nat) (a : α),
    l.getD i none = some a → some a ∈ l := by
  intro l
  induction l with
  | nil => intro i a h; exact absurd h (by simp)
  | cons x xt ih =>
    intro i a h
    match i with
    | 0 =>
      rw [List.getD_cons_zero] at h
      rw [h]
      exact List.mem_cons_self ..
    | i + 1 =>
      rw [List.getD_cons_succ] at h
      exact List.mem_cons_of_mem _ (ih i a h)

/-- `Node::remove`, `BranchNode::remove` and `ExtensionNode::remove` on an
absent key are no-ops returning no value. -/
theorem pt_remove_absent_all {V : Type} :
    ∀ fuel : Nat,
      (∀ (n : PTNode V) (key : List Nat) (off : Nat) res,
        remove fuel n key off = some res → ShapeWF n → ¬KeyIn key n →
        res = (some n, none)) ∧
      (∀ (choices : List (Option (PTNode V))) (key : List Nat) (off : Nat) res,
        branchRemove fuel choices key off = some res →
        ShapeWF (.branch choices) → ¬KeyIn key (.branch choices) →
        res = (some (none, .branch choices), none)) ∧
      (∀ (pf : List Nat) (child : PTNode V) (key : List Nat) (off : Nat) res,
        extRemove fuel pf child key off = some res →
        ShapeWF (.ext pf child) → ¬KeyIn key (.ext pf child) →
        res = (some (.ext pf child), none)) := by
  intro fuel
  induction fuel with
  | zero =>
    refine ⟨?_, ?_, ?_⟩
    · intro n key off res h _ _
      exact absurd h (by simp [remove])
    · intro choices key off res h _ _
      exact absurd h (by simp [branchRemove])
    · intro pf child key off res h _ _
      exact absurd h (by simp [extRemove])
  | succ fuel ih =>
    obtain ⟨ihr, ihb, ihe⟩ := ih
    have hbranch : ∀ (choices : List (Option (PTNode V))) (key : List Nat)
        (off : Nat) res,
        branchRemove (fuel + 1) choices key off = some res →
        ShapeWF (.branch choices) → ¬KeyIn key (.branch choices) →
        res = (some (none, .branch choices), none) := by
      intro choices key off res hres hwf hnk
      obtain ⟨hlen, hocc, hchwf⟩ := shapeWF_branch_inv hwf
      simp only [branchRemove, Option.pure_def] at hres
      cases hkn : keyNib key off with
      | none =>
        simp only [hkn, Option.bind_eq_bind, Option.none_bind] at hres
        exact absurd hres (by simp)
      | some index =>
      simp only [hkn, Option.bind_eq_bind, Option.some_bind] at hres
      by_cases hi16 : index < 16
      case neg => rw [if_neg hi16] at hres; exact absurd hres (by simp)
      rw [if_pos hi16] at hres
      cases hgd : choices.getD index none with
      | none =>
        rw [hgd] at hres
        injection hres with hres
        exact hres.symm
      | some child =>
        rw [hgd] at hres
        rw [Option.bind_eq_some] at hres
        obtain ⟨⟨new_child, old⟩, hrm, hres⟩ := hres
        dsimp only at hres
        have hnkc : ¬KeyIn key child := by
          intro hc
          obtain ⟨v, hv⟩ := hc
          exact hnk ⟨v, KeyValIn.branch key v choices index child hgd hv⟩
        have hwfc : ShapeWF child := hchwf _ (getD_mem choices index child hgd) child rfl
        have hkey := ihr child key (off + 1) (new_child, old) hrm hwfc hnkc
        injection hkey with e1 e2
        subst e2
        rw [e1] at hres
        dsimp only at hres
        rw [MPT.set_self_of_getD choices index child hgd] at hres
        rw [scanSingle_many choices hocc] at hres
        injection hres with hres
        exact hres.symm
    have hext : ∀ (pf : List Nat) (child : PTNode V) (key : List Nat)
        (off : Nat) res,
        extRemove (fuel + 1) pf child key off = some res →
        ShapeWF (.ext pf child) → ¬KeyIn key (.ext pf child) →
        res = (some (.ext pf child), none) := by
      intro pf child key off res hres hwf hnk
      obtain ⟨hpf, ⟨bc, hbc⟩, hwfc⟩ := shapeWF_ext_inv hwf
      subst hbc
      simp only [extRemove, Option.pure_def, Option.bind_eq_bind] at hres
      rw [Option.bind_eq_some] at hres
      obtain ⟨⟨new_child, old⟩, hrm, hres⟩ := hres
      dsimp only at hres
      have hnkc : ¬KeyIn key (.branch bc) := by
        intro hc
        obtain ⟨v, hv⟩ := hc
        exact hnk ⟨v, KeyValIn.ext key v pf _ hv⟩
      have hkey := ihb bc key (off + pf.length) (new_child, old) hrm hwfc hnkc
      injection hkey with e1 e2
      subst e2
      rw [e1] at hres
      dsimp only at hres
      rw [Option.bind_eq_some] at hres
      obtain ⟨rs, hrs, hres⟩ := hres
      injection hrs with hrs
      injection hres with hres
      rw [← hrs] at hres
      exact hres.symm
    refine ⟨?_, hbranch, hext⟩
    intro n key off res hres hwf hnk
    match n with
    | .leaf k v =>
      simp only [remove, Option.pure_def] at hres
      have hne : key ≠ k := by
        intro hc
        subst hc
        exact hnk ⟨v, KeyValIn.leaf key v⟩
      rw [if_neg hne] at hres
      injection hres with hres
      exact hres.symm
    | .ext pf child =>
      rw [show remove (fuel + 1) (.ext pf child) key off =
        extRemove fuel pf child key off from rfl] at hres
      exact ihe pf child key off res hres hwf hnk
    | .branch choices =>
      simp only [remove, Option.pure_def, Option.bind_eq_bind] at hres
      rw [Option.bind_eq_some] at hres
      obtain ⟨⟨r, y⟩, hbr', hres⟩ := hres
      have hkey := ihb choices key off (r, y) hbr' hwf hnk
      injection hkey with e1 e2
      subst e2
      rw [e1] at hres
      dsimp only at hres
      injection hres with hres
      exact hres.symm

end PT
namespace PT

theorem posWF_leaf_inv {V : Type} {k : List Nat} {v : V} {off : Nat}
    (h : PosWF (.leaf k v) off) :
    k.length = 32 ∧ ValidBytes k ∧ off ≤ 64 := by
  cases h with
  | leaf k v off h1 h2 h3 => exact ⟨h1, h2, h3⟩

theorem posWF_ext_inv {V : Type} {pf : List Nat} {child : PTNode V} {off : Nat}
    (h : PosWF (.ext pf child) off) :
    pf ≠ [] ∧ off + pf.length ≤ 64 ∧
    (∀ k v, KeyValIn k v child → ∀ j, j < pf.length →
      nibAt k (off + j) = pf.getD j 0) ∧
    PosWF child (off + pf.length) := by
  cases h with
  | ext pf child off h1 h2 h3 h4 => exact ⟨h1, h2, h3, h4⟩

theorem posWF_branch_inv {V : Type} {choices : List (Option (PTNode V))}
    {off : Nat} (h : PosWF (.branch choices) off) :
    off < 64 ∧
    (∀ i n, choices.getD i none = some n →
      ∀ k v, KeyValIn k v n → nibAt k off = i) ∧
    (∀ i n, choices.getD i none = some n → PosWF n (off + 1)) := by
  cases h with
  | branch choices off h1 h2 h3 => exact ⟨h1, h2, h3⟩

/-- A stored key is 32 valid bytes. -/
theorem keyValIn_posWF_key {V : Type} :
    ∀ {n : PTNode V} {key : List Nat} {v : V}, KeyValIn key v n →
      ∀ {off : Nat}, PosWF n off → key.length = 32 ∧ ValidBytes key := by
  intro n key v hkv
  induction hkv with
  | leaf =>
    intro off hpos
    obtain ⟨h1, h2, -⟩ := posWF_leaf_inv hpos
    exact ⟨h1, h2⟩
  | ext pf child hkv ih =>
    intro off hpos
    exact ih (posWF_ext_inv hpos).2.2.2
  | branch choices i n hgd hkv ih =>
    intro off hpos
    exact ih ((posWF_branch_inv hpos).2.2 i n hgd)

/-- Nibbles of valid byte strings are below 16. -/
theorem nibAt_lt16 {k : List Nat} (h : ValidBytes k) (i : Nat) :
    nibAt k i < 16 := by
  have hb : k.getD (i / 2) 0 < 256 := by
    rw [List.getD_eq_getElem?_getD]
    cases hg : k[i / 2]? with
    | none => simp
    | some b =>
      have hlt : i / 2 < k.length := by
        by_contra hc
        rw [List.getElem?_eq_none (Nat.le_of_not_lt hc)] at hg
        exact absurd hg (by simp)
      have hb : k[i / 2] = b := by
        rw [List.getElem?_eq_getElem hlt] at hg
        injection hg
      have hmem : b ∈ k := by
        rw [← hb]; exact List.getElem_mem ..
      simpa using h b hmem
  unfold nibAt
  by_cases hpar : i % 2 = 0
  · rw [if_pos hpar]; omega
  · rw [if_neg hpar]; omega

set_option maxHeartbeats 1000000 in
/-- Removal of a stored key returns its value. -/
theorem pt_remove_present_all {V : Type} :
    ∀ fuel : Nat,
      (∀ (n : PTNode V) (key : List Nat) (v : V) (off : Nat) res,
        remove fuel n key off = some res → PosWF n off → KeyValIn key v n →
        res.2 = some v) ∧
      (∀ (choices : List (Option (PTNode V))) (key : List Nat) (v : V)
        (off : Nat) res, branchRemove fuel choices key off = some res →
        PosWF (.branch choices) off → KeyValIn key v (.branch choices) →
        res.2 = some v) ∧
      (∀ (pf : List Nat) (child : PTNode V) (key : List Nat) (v : V)
        (off : Nat) res, extRemove fuel pf child key off = some res →
        PosWF (.ext pf child) off → KeyValIn key v (.ext pf child) →
        res.2 = some v) := by
  intro fuel
  induction fuel with
  | zero =>
    refine ⟨?_, ?_, ?_⟩
    · intro n key v off res h _ _
      exact absurd h (by simp [remove])
    · intro choices key v off res h _ _
      exact absurd h (by simp [branchRemove])
    · intro pf child key v off res h _ _
      exact absurd h (by simp [extRemove])
  | succ fuel ih =>
    obtain ⟨ihr, ihb, ihe⟩ := ih
    have hbranch : ∀ (choices : List (Option (PTNode V))) (key : List Nat)
        (v : V) (off : Nat) res, branchRemove (fuel + 1) choices key off = some res →
        PosWF (.branch choices) off → KeyValIn key v (.branch choices) →
        res.2 = some v := by
      intro choices key v off res hres hpos hkv
      obtain ⟨i, child, hgd, hkvc⟩ := keyValIn_branch_inv hkv
      obtain ⟨hoff64, hroute, hrec⟩ := posWF_branch_inv hpos
      have hni : nibAt key off = i := hroute i child hgd key v hkvc
      have hposc : PosWF child (off + 1) := hrec i child hgd
      obtain ⟨hklen, hkval⟩ := keyValIn_posWF_key hkvc hposc
      have hi16 : i < 16 := by rw [← hni]; exact nibAt_lt16 hkval off
      simp only [branchRemove, Option.pure_def] at hres
      rw [show keyNib key off = some (nibAt key off) from by
        unfold keyNib; rw [if_pos hoff64]] at hres
      rw [hni] at hres
      simp only [Option.bind_eq_bind, Option.some_bind] at hres
      rw [if_pos hi16, hgd] at hres
      rw [Option.bind_eq_some] at hres
      obtain ⟨⟨nc, old⟩, hrm, hres⟩ := hres
      have hold : old = some v := by
        have := ihr child key v (off + 1) (nc, old) hrm hposc hkvc
        simpa using this
      subst hold
      dsimp only at hres
      split at hres <;> (injection hres with hres; rw [← hres])
    have hext : ∀ (pf : List Nat) (child : PTNode V) (key : List Nat) (v : V)
        (off : Nat) res, extRemove (fuel + 1) pf child key off = some res →
        PosWF (.ext pf child) off → KeyValIn key v (.ext pf child) →
        res.2 = some v := by
      intro pf child key v off res hres hpos hkv
      have hkvc := keyValIn_ext_inv hkv
      obtain ⟨hpfne, hlen64, hroute, hposc⟩ := posWF_ext_inv hpos
      simp only [extRemove, Option.pure_def, Option.bind_eq_bind] at hres
      match child with
      | .leaf _ _ => exact absurd hres (by simp)
      | .ext _ _ => exact absurd hres (by simp)
      | .branch bc =>
        dsimp only at hres
        rw [Option.bind_eq_some] at hres
        obtain ⟨⟨nc, old⟩, hrm, hres⟩ := hres
        have hold : old = some v := by
          have := ihb bc key v (off + pf.length) (nc, old) hrm hposc hkvc
          simpa using this
        subst hold
        rcases nc with _ | ⟨idx, node⟩
        · simp only [Option.bind_eq_bind, Option.some_bind] at hres
          injection hres with hres
          rw [← hres]
        · rcases node with ⟨k2, v2⟩ | ⟨p2, c2⟩ | bc2
          · simp only [Option.bind_eq_bind, Option.some_bind] at hres
            injection hres with hres
            rw [← hres]
          · rcases idx with _ | x
            · simp only [Option.bind_eq_bind, Option.none_bind] at hres
              exact absurd hres (by simp)
            · simp only [Option.bind_eq_bind, Option.some_bind] at hres
              injection hres with hres
              rw [← hres]
          · simp only [Option.bind_eq_bind, Option.some_bind] at hres
            injection hres with hres
            rw [← hres]
    refine ⟨?_, hbranch, hext⟩
    intro n key v off res hres hpos hkv
    match n with
    | .leaf k v' =>
      obtain ⟨hkk, hvv⟩ := keyValIn_leaf_inv hkv
      simp only [remove, Option.pure_def] at hres
      rw [if_pos hkk] at hres
      injection hres with hres
      rw [← hres, hvv]
    | .ext pf child =>
      rw [show remove (fuel + 1) (.ext pf child) key off =
        extRemove fuel pf child key off from rfl] at hres
      exact ihe pf child key v off res hres hpos hkv
    | .branch choices =>
      simp only [remove, Option.pure_def, Option.bind_eq_bind] at hres
      rw [Option.bind_eq_some] at hres
      obtain ⟨⟨r, y⟩, hbr', hres⟩ := hres
      have hy : y = some v := by
        have := ihb choices key v off (r, y) hbr' hpos hkv
        simpa using this
      subst hy
      dsimp only at hres
      injection hres with hres
      rw [← hres]
      cases r with
      | none => rfl
      | some p => rfl

end PT
namespace PT

/-- Whether an old-generation node is a branch. -/
def PTNode.isBranch {V : Type} : PTNode V → Bool
  | .branch _ => true
  | _ => false

/-- Every extension child in the tree is a branch. -/
inductive ExtOK {V : Type} : PTNode V → Prop
  | leaf (k : List Nat) (v : V) : ExtOK (.leaf k v)
  | ext (pf : List Nat) (child : PTNode V) :
      child.isBranch = true → ExtOK child → ExtOK (.ext pf child)
  | branch (choices : List (Option (PTNode V))) :
      (∀ c ∈ choices, ∀ m, c = some m → ExtOK m) → ExtOK (.branch choices)

/-- Every branch in the tree has at least two occupied choices. -/
inductive BranchMin {V : Type} : PTNode V → Prop
  | leaf (k : List Nat) (v : V) : BranchMin (.leaf k v)
  | ext (pf : List Nat) (child : PTNode V) :
      BranchMin child → BranchMin (.ext pf child)
  | branch (choices : List (Option (PTNode V))) :
      2 ≤ (choices.filter Option.isSome).length →
      (∀ c ∈ choices, ∀ m, c = some m → BranchMin m) →
      BranchMin (.branch choices)

theorem shapeWF_extOK {V : Type} : ∀ {n : PTNode V}, ShapeWF n → ExtOK n := by
  intro n h
  induction h with
  | leaf k v => exact ExtOK.leaf k v
  | ext pf child h1 h2 h3 ih =>
    refine ExtOK.ext pf child ?_ ih
    obtain ⟨bc, hbc⟩ := h2
    rw [hbc]; rfl
  | branch choices h1 h2 h3 ih =>
    exact ExtOK.branch choices ih

theorem shapeWF_branchMin {V : Type} : ∀ {n : PTNode V}, ShapeWF n → BranchMin n := by
  intro n h
  induction h with
  | leaf k v => exact BranchMin.leaf k v
  | ext pf child h1 h2 h3 ih => exact BranchMin.ext pf child ih
  | branch choices h1 h2 h3 ih => exact BranchMin.branch choices h2 ih

set_option maxHeartbeats 1000000 in
/-- Removal preserves shape well-formedness. -/
theorem pt_remove_wf_all {V : Type} :
    ∀ fuel : Nat,
      (∀ (n : PTNode V) (key : List Nat) (off : Nat) res,
        remove fuel n key off = some res → ShapeWF n →
        ∀ n', res.1 = some n' → ShapeWF n') ∧
      (∀ (choices : List (Option (PTNode V))) (key : List Nat) (off : Nat) res,
        branchRemove fuel choices key off = some res →
        ShapeWF (.branch choices) → ∀ p, res.1 = some p → ShapeWF p.2) ∧
      (∀ (pf : List Nat) (child : PTNode V) (key : List Nat) (off : Nat) res,
        extRemove fuel pf child key off = some res →
        ShapeWF (.ext pf child) → ∀ n', res.1 = some n' → ShapeWF n') := by
  intro fuel
  induction fuel with
  | zero =>
    refine ⟨?_, ?_, ?_⟩
    · intro n key off res h _
      exact absurd h (by simp [remove])
    · intro choices key off res h _
      exact absurd h (by simp [branchRemove])
    · intro pf child key off res h _
      exact absurd h (by simp [extRemove])
  | succ fuel ih =>
    obtain ⟨ihr, ihb, ihe⟩ := ih
    have hbranch : ∀ (choices : List (Option (PTNode V))) (key : List Nat)
        (off : Nat) res, branchRemove (fuel + 1) choices key off = some res →
        ShapeWF (.branch choices) → ∀ p, res.1 = some p → ShapeWF p.2 := by
      intro choices key off res hres hwf p hp
      obtain ⟨hlen, hocc, hchwf⟩ := shapeWF_branch_inv hwf
      simp only [branchRemove, Option.pure_def] at hres
      cases hkn : keyNib key off with
      | none =>
        simp only [hkn, Option.bind_eq_bind, Option.none_bind] at hres
        exact absurd hres (by simp)
      | some index =>
      simp only [hkn, Option.bind_eq_bind, Option.some_bind] at hres
      by_cases hi16 : index < 16
      case neg => rw [if_neg hi16] at hres; exact absurd hres (by simp)
      rw [if_pos hi16] at hres
      cases hgd : choices.getD index none with
      | none =>
        rw [hgd] at hres
        injection hres with hres
        rw [← hres] at hp
        dsimp only at hp
        injection hp with hp
        rw [← hp]
        exact hwf
      | some child =>
        rw [hgd] at hres
        rw [Option.bind_eq_some] at hres
        obtain ⟨⟨nc, old⟩, hrm, hres⟩ := hres
        dsimp only at hres
        have hwfc : ShapeWF child :=
          hchwf _ (getD_mem choices index child hgd) child rfl
        have hncwf : ∀ m, nc = some m → ShapeWF m := fun m hm =>
          ihr child key (off + 1) (nc, old) hrm hwfc m (by rw [hm])
        cases nc with
        | some ncc =>
          dsimp only at hres
          have hch' : ∀ c ∈ choices.set index (some ncc), ∀ m, c = some m →
              ShapeWF m := by
            intro c hc m hm
            rcases List.mem_or_eq_of_mem_set hc with h' | h'
            · exact hchwf c h' m hm
            · rw [h'] at hm
              injection hm with hm
              rw [← hm]
              exact hncwf ncc rfl
          cases hscan : scanSingle (choices.set index (some ncc)) with
          | many =>
            rw [hscan] at hres
            injection hres with hres
            rw [← hres] at hp
            dsimp only at hp
            injection hp with hp
            rw [← hp]
            exact ShapeWF.branch _ (by simp [hlen]) (scanSingle_many_inv hscan) hch'
          | one i x =>
            rw [hscan] at hres
            injection hres with hres
            rw [← hres] at hp
            dsimp only at hp
            injection hp with hp
            rw [← hp]
            exact hch' _ (getD_mem _ i x (scanSingle_one hscan)) x rfl
          | zero =>
            rw [hscan] at hres
            injection hres with hres
            rw [← hres] at hp
            exact absurd hp (by simp)
        | none =>
          dsimp only at hres
          have hch' : ∀ c ∈ choices.set index none, ∀ m, c = some m →
              ShapeWF m := by
            intro c hc m hm
            rcases List.mem_or_eq_of_mem_set hc with h' | h'
            · exact hchwf c h' m hm
            · rw [h'] at hm
              exact absurd hm (by simp)
          cases hscan : scanSingle (choices.set index none) with
          | many =>
            rw [hscan] at hres
            injection hres with hres
            rw [← hres] at hp
            dsimp only at hp
            injection hp with hp
            rw [← hp]
            exact ShapeWF.branch _ (by simp [hlen]) (scanSingle_many_inv hscan) hch'
          | one i x =>
            rw [hscan] at hres
            injection hres with hres
            rw [← hres] at hp
            dsimp only at hp
            injection hp with hp
            rw [← hp]
            exact hch' _ (getD_mem _ i x (scanSingle_one hscan)) x rfl
          | zero =>
            rw [hscan] at hres
            injection hres with hres
            rw [← hres] at hp
            exact absurd hp (by simp)
    have hext : ∀ (pf : List Nat) (child : PTNode V) (key : List Nat)
        (off : Nat) res, extRemove (fuel + 1) pf child key off = some res →
        ShapeWF (.ext pf child) → ∀ n', res.1 = some n' → ShapeWF n' := by
      intro pf child key off res hres hwf n' hn'
      obtain ⟨hpf, ⟨bc, hbc⟩, hwfc⟩ := shapeWF_ext_inv hwf
      subst hbc
      simp only [extRemove, Option.pure_def, Option.bind_eq_bind] at hres
      rw [Option.bind_eq_some] at hres
      obtain ⟨⟨nc, old⟩, hrm, hres⟩ := hres
      dsimp only at hres
      have hbwf := ihb bc key (off + pf.length) (nc, old) hrm hwfc
      rcases nc with _ | ⟨idx, node⟩
      · simp only [Option.bind_eq_bind, Option.some_bind] at hres
        injection hres with hres
        rw [← hres] at hn'
        exact absurd hn' (by simp)
      · have hnodewf : ShapeWF node := by
          have := hbwf (idx, node) rfl
          exact this
        rcases node with ⟨k2, v2⟩ | ⟨p2, c2⟩ | bc2
        · simp only [Option.bind_eq_bind, Option.some_bind] at hres
          injection hres with hres
          rw [← hres] at hn'
          dsimp only at hn'
          injection hn' with hn'
          rw [← hn']
          exact hnodewf
        · rcases idx with _ | x
          · simp only [Option.bind_eq_bind, Option.none_bind] at hres
            exact absurd hres (by simp)
          · simp only [Option.bind_eq_bind, Option.some_bind] at hres
            injection hres with hres
            rw [← hres] at hn'
            dsimp only at hn'
            injection hn' with hn'
            rw [← hn']
            obtain ⟨hp2, hbc2, hwf2⟩ := shapeWF_ext_inv hnodewf
            exact ShapeWF.ext _ _ (by simp) hbc2 hwf2
        · simp only [Option.bind_eq_bind, Option.some_bind] at hres
          injection hres with hres
          rw [← hres] at hn'
          dsimp only at hn'
          injection hn' with hn'
          rw [← hn']
          exact ShapeWF.ext _ _ hpf ⟨bc2, rfl⟩ hnodewf
    refine ⟨?_, hbranch, hext⟩
    intro n key off res hres hwf n' hn'
    match n with
    | .leaf k v =>
      simp only [remove, Option.pure_def] at hres
      by_cases hkk : key = k
      · rw [if_pos hkk] at hres
        injection hres with hres
        rw [← hres] at hn'
        exact absurd hn' (by simp)
      · rw [if_neg hkk] at hres
        injection hres with hres
        rw [← hres] at hn'
        dsimp only at hn'
        injection hn' with hn'
        rw [← hn']
        exact hwf
    | .ext pf child =>
      rw [show remove (fuel + 1) (.ext pf child) key off =
        extRemove fuel pf child key off from rfl] at hres
      exact ihe pf child key off res hres hwf n' hn'
    | .branch choices =>
      simp only [remove, Option.pure_def, Option.bind_eq_bind] at hres
      rw [Option.bind_eq_some] at hres
      obtain ⟨⟨r, y⟩, hbr', hres⟩ := hres
      dsimp only at hres
      injection hres with hres
      rcases r with _ | ⟨ii, x⟩
      · rw [← hres] at hn'
        exact absurd hn' (by simp)
      · rw [← hres] at hn'
        dsimp only at hn'
        injection hn' with hn'
        rw [← hn']
        exact ihb choices key off (some (ii, x), y) hbr' hwf (ii, x) rfl

end PT
namespace MPT

/-- `headD` as a `getD`. -/
theorem headD_eq_getD {α : Type} (l : List α) (d : α) : l.headD d = l.getD 0 d := by
  cases l <;> rfl

/-- Nibbles of a byte prefix. -/
theorem nibAt_take {d : List Nat} {m j : Nat} (h : j / 2 < m) :
    nibAt (d.take m) j = nibAt d j := by
  unfold nibAt
  have hg : (d.take m).getD (j / 2) 0 = d.getD (j / 2) 0 := by
    rw [List.getD_eq_getElem?_getD, List.getD_eq_getElem?_getD,
      List.getElem?_take, if_pos h]
  rw [hg]

/-- Nibbles of a byte suffix. -/
theorem nibAt_drop (d : List Nat) (m j : Nat) :
    nibAt (d.drop m) j = nibAt d (2 * m + j) := by
  unfold nibAt
  have hg : (d.drop m).getD (j / 2) 0 = d.getD ((2 * m + j) / 2) 0 := by
    rw [List.getD_eq_getElem?_getD, List.getD_eq_getElem?_getD,
      List.getElem?_drop]
    have h2 : m + j / 2 = (2 * m + j) / 2 := by omega
    rw [h2]
  have hpar : (2 * m + j) % 2 = j % 2 := by omega
  rw [hg, hpar]

/-- `normalize` preserves the nibble sequence. -/
theorem normalize_toNibbles (v : NibbleVec) :
    (NibbleVec.normalize v).toNibbles = v.toNibbles := by
  unfold NibbleVec.normalize
  by_cases hc : v.data.isEmpty = true ∨
      (v.data.length = 1 ∧ v.first_is_half = true ∧ v.last_is_half = true)
  · rw [if_pos hc]
    have hcount : v.nibbleCount = 0 := by
      unfold NibbleVec.nibbleCount NibbleVec.bn
      rcases hc with hc | ⟨h1, h2, h3⟩
      · rw [List.isEmpty_iff] at hc
        rw [hc]
        simp
      · rw [h1, h2, h3]
        simp
    unfold NibbleVec.toNibbles
    rw [hcount]
    rfl
  · rw [if_neg hc]

/-- The `bn` flag value is at most one. -/
theorem bn_le_one (b : Bool) : NibbleVec.bn b ≤ 1 := by
  unfold NibbleVec.bn
  split <;> omega

theorem bn_false : NibbleVec.bn false = 0 := rfl

theorem bn_true : NibbleVec.bn true = 1 := rfl

set_option maxHeartbeats 1000000 in
/-- Full characterization of `NibbleVec::split_extract_at` on an
in-range index: left prefix, extracted nibble, right suffix. -/
theorem split_extract_at_spec (v : NibbleVec) (i : Nat)
    (hi : i < v.nibbleCount) :
    ∃ left c right, v.split_extract_at i = some (left, c, right) ∧
      left.toNibbles = v.toNibbles.take i ∧
      c = v.toNibbles.getD i 0 ∧
      right.toNibbles = v.toNibbles.drop (i + 1) := by
  have hf := bn_le_one v.first_is_half
  have hl := bn_le_one v.last_is_half
  have hcount : v.nibbleCount =
      2 * v.data.length - NibbleVec.bn v.first_is_half -
        NibbleVec.bn v.last_is_half := rfl
  have hguard : (i + NibbleVec.bn v.first_is_half +
      NibbleVec.bn v.last_is_half) / 2 < v.data.length := by
    rw [hcount] at hi
    omega
  have heq : v.split_extract_at i = some
      (NibbleVec.normalize
        ⟨v.data.take ((i + 1 + NibbleVec.bn v.first_is_half) / 2),
          v.first_is_half,
          decide ((i + NibbleVec.bn v.first_is_half) % 2 ≠ 0)⟩,
       (if (i + NibbleVec.bn v.first_is_half) % 2 ≠ 0 then
          v.data.getD ((i + NibbleVec.bn v.first_is_half) / 2) 0 % 16
        else v.data.getD ((i + NibbleVec.bn v.first_is_half) / 2) 0 / 16),
       NibbleVec.normalize
        ⟨if (i + 1 + NibbleVec.bn v.first_is_half) / 2 ≥ v.data.length then []
          else v.data.drop ((i + 1 + NibbleVec.bn v.first_is_half) / 2),
          decide ((i + NibbleVec.bn v.first_is_half) % 2 = 0),
          v.last_is_half⟩) := by
    unfold NibbleVec.split_extract_at
    rw [if_pos hguard]
  refine ⟨_, _, _, heq, ?_, ?_, ?_⟩
  · -- the left prefix
    rw [normalize_toNibbles]
    refine List.ext_get? ?_
    intro k
    have hlcount : (NibbleVec.mk
        (v.data.take ((i + 1 + NibbleVec.bn v.first_is_half) / 2))
        v.first_is_half
        (decide ((i + NibbleVec.bn v.first_is_half) % 2 ≠ 0))).nibbleCount = i := by
      show 2 * (v.data.take ((i + 1 + NibbleVec.bn v.first_is_half) / 2)).length -
          NibbleVec.bn v.first_is_half -
          NibbleVec.bn (decide ((i + NibbleVec.bn v.first_is_half) % 2 ≠ 0)) = i
      rw [List.length_take]
      by_cases hpar : (i + NibbleVec.bn v.first_is_half) % 2 = 0
      · rw [show (decide ((i + NibbleVec.bn v.first_is_half) % 2 ≠ 0)) = false
          by simp [hpar], bn_false]
        rw [hcount] at hi
        omega
      · rw [show (decide ((i + NibbleVec.bn v.first_is_half) % 2 ≠ 0)) = true
          by simp [hpar], bn_true]
        rw [hcount] at hi
        omega
    rw [toNibbles_get]
    rw [hlcount]
    rw [List.get?_eq_getElem?, List.getElem?_take, ← List.get?_eq_getElem?]
    rw [toNibbles_get]
    by_cases hk : k < i
    · rw [if_pos hk, if_pos hk, if_pos (by omega)]
      have hnib : nibAt (v.data.take ((i + 1 + NibbleVec.bn v.first_is_half) / 2))
          (k + NibbleVec.bn ((NibbleVec.mk
            (v.data.take ((i + 1 + NibbleVec.bn v.first_is_half) / 2))
            v.first_is_half
            (decide ((i + NibbleVec.bn v.first_is_half) % 2 ≠ 0))).first_is_half)) =
          nibAt v.data (k + NibbleVec.bn v.first_is_half) := by
        show nibAt (v.data.take ((i + 1 + NibbleVec.bn v.first_is_half) / 2))
          (k + NibbleVec.bn v.first_is_half) =
          nibAt v.data (k + NibbleVec.bn v.first_is_half)
        exact nibAt_take (by omega)
      rw [hnib]
    · rw [if_neg hk, if_neg hk]
  · -- the extracted nibble
    have hmid := split_extract_at_mid heq
    rw [hmid.1]
    rw [show v.toNibbles.getD i 0 = (v.toNibbles.get? i).getD 0 from by
      rw [List.getD_eq_getElem?_getD, List.get?_eq_getElem?]]
    rw [toNibbles_get, if_pos hi]
    rfl
  · -- the right suffix
    rw [normalize_toNibbles]
    refine List.ext_get? ?_
    intro k
    by_cases hedge : (i + 1 + NibbleVec.bn v.first_is_half) / 2 ≥ v.data.length
    · -- the split consumed the whole vector: both sides are empty
      have hdata : (if (i + 1 + NibbleVec.bn v.first_is_half) / 2 ≥
          v.data.length then [] else
          v.data.drop ((i + 1 + NibbleVec.bn v.first_is_half) / 2)) =
          ([] : List Nat) := if_pos hedge
      rw [toNibbles_get]
      have hrcount : (NibbleVec.mk
          (if (i + 1 + NibbleVec.bn v.first_is_half) / 2 ≥ v.data.length then []
            else v.data.drop ((i + 1 + NibbleVec.bn v.first_is_half) / 2))
          (decide ((i + NibbleVec.bn v.first_is_half) % 2 = 0))
          v.last_is_half).nibbleCount = 0 := by
        show 2 * (if (i + 1 + NibbleVec.bn v.first_is_half) / 2 ≥
            v.data.length then ([] : List Nat) else
            v.data.drop ((i + 1 + NibbleVec.bn v.first_is_half) / 2)).length -
          NibbleVec.bn (decide ((i + NibbleVec.bn v.first_is_half) % 2 = 0)) -
          NibbleVec.bn v.last_is_half = 0
        rw [hdata]
        simp
      rw [hrcount]
      have hk0 : ¬ k < 0 := by omega
      rw [if_neg hk0]
      have hdropnil : v.toNibbles.drop (i + 1) = [] := by
        refine List.drop_eq_nil_of_le ?_
        have hlen : v.toNibbles.length = v.nibbleCount := by
          unfold NibbleVec.toNibbles
          simp
        rw [hlen]
        rw [hcount] at hi
        omega
      rw [hdropnil]
      rfl
    · -- regular case
      have hdata : (if (i + 1 + NibbleVec.bn v.first_is_half) / 2 ≥
          v.data.length then [] else
          v.data.drop ((i + 1 + NibbleVec.bn v.first_is_half) / 2)) =
          v.data.drop ((i + 1 + NibbleVec.bn v.first_is_half) / 2) :=
        if_neg hedge
      have hrcount : (NibbleVec.mk
          (if (i + 1 + NibbleVec.bn v.first_is_half) / 2 ≥ v.data.length then []
            else v.data.drop ((i + 1 + NibbleVec.bn v.first_is_half) / 2))
          (decide ((i + NibbleVec.bn v.first_is_half) % 2 = 0))
          v.last_is_half).nibbleCount = v.nibbleCount - (i + 1) := by
        show 2 * (if (i + 1 + NibbleVec.bn v.first_is_half) / 2 ≥
            v.data.length then ([] : List Nat) else
            v.data.drop ((i + 1 + NibbleVec.bn v.first_is_half) / 2)).length -
          NibbleVec.bn (decide ((i + NibbleVec.bn v.first_is_half) % 2 = 0)) -
          NibbleVec.bn v.last_is_half = v.nibbleCount - (i + 1)
        rw [hdata, List.length_drop, hcount]
        by_cases hpar : (i + NibbleVec.bn v.first_is_half) % 2 = 0
        · rw [show (decide ((i + NibbleVec.bn v.first_is_half) % 2 = 0)) = true
            by simp [hpar], bn_true]
          omega
        · rw [show (decide ((i + NibbleVec.bn v.first_is_half) % 2 = 0)) = false
            by simp [hpar], bn_false]
          omega
      rw [toNibbles_get, hrcount]
      rw [List.get?_eq_getElem?, List.getElem?_drop, ← List.get?_eq_getElem?]
      rw [toNibbles_get]
      by_cases hk : k < v.nibbleCount - (i + 1)
      · have hklt : i + 1 + k < v.nibbleCount := by omega
        rw [if_pos hk, if_pos hklt]
        dsimp only
        rw [hdata]
        have hnib : nibAt (v.data.drop ((i + 1 + NibbleVec.bn v.first_is_half) / 2))
            (k + NibbleVec.bn (decide ((i + NibbleVec.bn v.first_is_half) % 2 = 0))) =
            nibAt v.data (i + 1 + k + NibbleVec.bn v.first_is_half) := by
          rw [nibAt_drop]
          have hidx : 2 * ((i + 1 + NibbleVec.bn v.first_is_half) / 2) +
              (k + NibbleVec.bn (decide ((i + NibbleVec.bn v.first_is_half) % 2 = 0))) =
              i + 1 + k + NibbleVec.bn v.first_is_half := by
            by_cases hpar : (i + NibbleVec.bn v.first_is_half) % 2 = 0
            · rw [show (decide ((i + NibbleVec.bn v.first_is_half) % 2 = 0)) = true
                by simp [hpar], bn_true]
              omega
            · rw [show (decide ((i + NibbleVec.bn v.first_is_half) % 2 = 0)) = false
                by simp [hpar], bn_false]
              omega
          rw [hidx]
        rw [hnib]
      · have hkge : ¬ i + 1 + k < v.nibbleCount := by omega
        rw [if_neg hk, if_neg hkge]

end MPT
namespace MPT

/-- Length of a framed byte-string matches the `bytes_len` pre-pass. -/
theorem write_slice_length (bs : List Nat) :
    (write_slice bs).length = bytes_len bs.length (bs.getD 0 0) := by
  unfold write_slice bytes_len
  by_cases h1 : bs.length = 1 ∧ bs.getD 0 0 < 0x80
  · rw [if_pos h1, if_pos h1]
    exact h1.1
  · rw [if_neg h1, if_neg h1]
    by_cases h2 : bs.length ≤ 55
    · rw [if_pos h2, if_pos h2]
      rw [List.length_cons]
      omega
    · rw [if_neg h2, if_neg h2]
      rw [List.length_cons, List.length_append]
      omega

/-- `mapM` over `Option` preserves length. -/
theorem mapM_length {α β : Type} (g : α → Option β) :
    ∀ (l : List α) (items : List β), l.mapM g = some items →
      items.length = l.length
  | [], items, h => by
    simp only [List.mapM_nil, Option.pure_def] at h
    injection h with h
    subst h
    rfl
  | a :: l, items, h => by
    simp only [List.mapM_cons, Option.pure_def, Option.bind_eq_bind] at h
    rw [Option.bind_eq_some] at h
    obtain ⟨b, hb, h⟩ := h
    rw [Option.bind_eq_some] at h
    obtain ⟨bs, hbs, h⟩ := h
    injection h with h
    rw [← h, List.length_cons, List.length_cons, mapM_length g l bs hbs]

/-- Pointwise reading of a successful `mapM`. -/
theorem mapM_get {α β : Type} (g : α → Option β) (d : α) (e : β) :
    ∀ (l : List α) (items : List β), l.mapM g = some items →
      ∀ k, k < l.length → g (l.getD k d) = some (items.getD k e)
  | [], _, _, k, hk => by simp at hk
  | a :: l, items, h, k, hk => by
    simp only [List.mapM_cons, Option.pure_def, Option.bind_eq_bind] at h
    rw [Option.bind_eq_some] at h
    obtain ⟨b, hb, h⟩ := h
    rw [Option.bind_eq_some] at h
    obtain ⟨bs, hbs, h⟩ := h
    injection h with h
    cases k with
    | zero =>
      rw [← h, List.getD_cons_zero, List.getD_cons_zero]
      exact hb
    | succ k =>
      rw [← h, List.getD_cons_succ, List.getD_cons_succ]
      exact mapM_get g d e l bs hbs k (by simpa using hk)

/-- Two pointwise-related `mapM` passes produce related lists: used to
match the length pre-pass with the item pass. -/
theorem mapM_len_eq {α : Type} (f : α → Option Nat) (g : α → Option (List Nat))
    (hrel : ∀ a b c, f a = some b → g a = some c → b = c.length) :
    ∀ (l : List α) (lens : List Nat) (items : List (List Nat)),
      l.mapM f = some lens → l.mapM g = some items →
      lens = items.map List.length
  | [], lens, items, hf, hg => by
    simp only [List.mapM_nil, Option.pure_def] at hf hg
    injection hf with hf
    injection hg with hg
    rw [← hf, ← hg]
    rfl
  | a :: l, lens, items, hf, hg => by
    simp only [List.mapM_cons, Option.pure_def, Option.bind_eq_bind] at hf hg
    rw [Option.bind_eq_some] at hf hg
    obtain ⟨b, hb, hf⟩ := hf
    obtain ⟨c, hc, hg⟩ := hg
    rw [Option.bind_eq_some] at hf hg
    obtain ⟨bs, hbs, hf⟩ := hf
    obtain ⟨cs, hcs, hg⟩ := hg
    injection hf with hf
    injection hg with hg
    rw [← hf, ← hg, List.map_cons]
    rw [hrel a b c hb hc, mapM_len_eq f g hrel l bs cs hbs hcs]

/-- Reading `List.range` with a default. -/
theorem range_getD {n k : Nat} (h : k < n) : (List.range n).getD k 0 = k := by
  rw [List.getD_eq_getElem?_getD, List.getElem?_range h]
  rfl

end MPT
namespace MPT

set_option maxHeartbeats 1000000 in
/-- The branch hashing routine frames exactly 17 items: one per choice
(empty string for vacant choices, the child's inlined encoding or framed
digest otherwise) followed by the value item. -/
theorem branch_hash_shape (H : List Nat → List Nat) (fuel : Nat)
    (nodes : Slab Node) (values : Slab KV) (choices : List Nat) (vref : Nat)
    (hs0 : Nat × List Nat) (key_offset : Nat) (out : List Nat)
    (hres : nodeHashF H (fuel + 1) nodes values (.branch choices vref hs0)
      key_offset = some out) :
    ∃ items17 : List (List Nat),
      items17.length = 17 ∧
      out = extract_or_finalize H (write_list items17.flatten) ∧
      (∀ k, k < 16 → choices.getD k INVALID_REF = INVALID_REF →
        items17.getD k [] = write_slice []) ∧
      (∀ k, k < 16 → choices.getD k INVALID_REF ≠ INVALID_REF →
        ∃ child ch, nodes.get (choices.getD k INVALID_REF) = some child ∧
          nodeHashF H fuel nodes values child (key_offset + 1) = some ch ∧
          items17.getD k [] =
            (if ch.length < 32 then ch else write_slice ch)) ∧
      (vref = INVALID_REF → items17.getD 16 [] = write_slice []) ∧
      (vref ≠ INVALID_REF → ∃ kv, values.get vref = some kv ∧
        items17.getD 16 [] = write_slice kv.2) := by
  unfold nodeHashF at hres
  simp only [Option.pure_def, Option.bind_eq_bind] at hres
  rw [Option.bind_eq_some] at hres
  obtain ⟨childLens, hcl, hres⟩ := hres
  by_cases hv : vref ≠ INVALID_REF
  · rw [if_pos hv] at hres
    rw [Option.bind_eq_some] at hres
    obtain ⟨kv, hkv, hres⟩ := hres
    simp only [Option.some_bind] at hres
    rw [Option.bind_eq_some] at hres
    obtain ⟨items, hit, hres⟩ := hres
    rw [if_pos hv] at hres
    rw [Option.bind_eq_some] at hres
    obtain ⟨kv', hkv', hres⟩ := hres
    rw [hkv] at hkv'
    injection hkv' with hkv'
    subst hkv'
    injection hres with hres
    have hlens : childLens = items.map List.length := by
      refine mapM_len_eq _ _ ?_ _ _ _ hcl hit
      intro a b c hb hc
      by_cases hcref : choices.getD a INVALID_REF ≠ INVALID_REF
      · rw [if_pos hcref] at hb hc
        rw [Option.bind_eq_some] at hb hc
        obtain ⟨child, hchild, hb⟩ := hb
        obtain ⟨child', hchild', hc⟩ := hc
        rw [hchild] at hchild'
        injection hchild' with hchild'
        subst hchild'
        rw [Option.bind_eq_some] at hb hc
        obtain ⟨ch, hch, hb⟩ := hb
        obtain ⟨ch', hch', hc⟩ := hc
        rw [hch] at hch'
        injection hch' with hch'
        subst hch'
        injection hb with hb
        injection hc with hc
        subst hb
        subst hc
        by_cases hlen : ch.length < 32
        · rw [if_pos hlen, if_pos hlen]
        · rw [if_neg hlen, if_neg hlen, write_slice_length]
      · rw [if_neg hcref] at hb hc
        injection hb with hb
        injection hc with hc
        subst hb
        subst hc
        rfl
    have hitlen : items.length = 16 := by
      have hml := mapM_length _ _ _ hit
      simpa using hml
    have hpay : childLens.sum + bytes_len kv.2.length (kv.2.headD 0) =
        (items.flatten ++ write_slice kv.2).length := by
      rw [List.length_append, List.length_flatten, hlens,
        write_slice_length, headD_eq_getD]
    refine ⟨items ++ [write_slice kv.2], ?_, ?_, ?_, ?_, ?_, ?_⟩
    · rw [List.length_append, hitlen]
      rfl
    · rw [← hres, List.flatten_append]
      have hfl : ([write_slice kv.2] : List (List Nat)).flatten =
          write_slice kv.2 := by simp
      rw [hfl]
      unfold write_list
      rw [← hpay, List.append_assoc]
    · intro k hk hvac
      have hg := mapM_get _ 0 [] _ _ hit k (by simpa using hk)
      rw [range_getD hk] at hg
      rw [if_neg (by simpa using hvac)] at hg
      injection hg with hg
      rw [List.getD_append _ _ _ _ (by omega), ← hg]
    · intro k hk hocc
      have hg := mapM_get _ 0 [] _ _ hit k (by simpa using hk)
      rw [range_getD hk] at hg
      rw [if_pos hocc] at hg
      rw [Option.bind_eq_some] at hg
      obtain ⟨child, hchild, hg⟩ := hg
      rw [Option.bind_eq_some] at hg
      obtain ⟨ch, hch, hg⟩ := hg
      injection hg with hg
      refine ⟨child, ch, hchild, hch, ?_⟩
      rw [List.getD_append _ _ _ _ (by omega), ← hg]
    · intro hinv
      exact absurd hinv hv
    · intro _
      refine ⟨kv, hkv, ?_⟩
      rw [List.getD_eq_getElem?_getD, List.getElem?_append_right (by omega),
        hitlen]
      rfl
  · rw [if_neg hv] at hres
    simp only [Option.some_bind] at hres
    rw [Option.bind_eq_some] at hres
    obtain ⟨items, hit, hres⟩ := hres
    rw [if_neg hv] at hres
    injection hres with hres
    have hlens : childLens = items.map List.length := by
      refine mapM_len_eq _ _ ?_ _ _ _ hcl hit
      intro a b c hb hc
      by_cases hcref : choices.getD a INVALID_REF ≠ INVALID_REF
      · rw [if_pos hcref] at hb hc
        rw [Option.bind_eq_some] at hb hc
        obtain ⟨child, hchild, hb⟩ := hb
        obtain ⟨child', hchild', hc⟩ := hc
        rw [hchild] at hchild'
        injection hchild' with hchild'
        subst hchild'
        rw [Option.bind_eq_some] at hb hc
        obtain ⟨ch, hch, hb⟩ := hb
        obtain ⟨ch', hch', hc⟩ := hc
        rw [hch] at hch'
        injection hch' with hch'
        subst hch'
        injection hb with hb
        injection hc with hc
        subst hb
        subst hc
        by_cases hlen : ch.length < 32
        · rw [if_pos hlen, if_pos hlen]
        · rw [if_neg hlen, if_neg hlen, write_slice_length]
      · rw [if_neg hcref] at hb hc
        injection hb with hb
        injection hc with hc
        subst hb
        subst hc
        rfl
    have hitlen : items.length = 16 := by
      have hml := mapM_length _ _ _ hit
      simpa using hml
    have hws : (write_slice ([] : List Nat)).length = 1 := by decide
    have hpay : childLens.sum + 1 =
        (items.flatten ++ write_slice []).length := by
      rw [List.length_append, List.length_flatten, hlens, hws]
    refine ⟨items ++ [write_slice []], ?_, ?_, ?_, ?_, ?_, ?_⟩
    · rw [List.length_append, hitlen]
      rfl
    · rw [← hres, List.flatten_append]
      have hfl : ([write_slice ([] : List Nat)] : List (List Nat)).flatten =
          write_slice [] := by simp
      rw [hfl]
      unfold write_list
      rw [← hpay, List.append_assoc]
    · intro k hk hvac
      have hg := mapM_get _ 0 [] _ _ hit k (by simpa using hk)
      rw [range_getD hk] at hg
      rw [if_neg (by simpa using hvac)] at hg
      injection hg with hg
      rw [List.getD_append _ _ _ _ (by omega), ← hg]
    · intro k hk hocc
      have hg := mapM_get _ 0 [] _ _ hit k (by simpa using hk)
      rw [range_getD hk] at hg
      rw [if_pos hocc] at hg
      rw [Option.bind_eq_some] at hg
      obtain ⟨child, hchild, hg⟩ := hg
      rw [Option.bind_eq_some] at hg
      obtain ⟨ch, hch, hg⟩ := hg
      injection hg with hg
      refine ⟨child, ch, hchild, hch, ?_⟩
      rw [List.getD_append _ _ _ _ (by omega), ← hg]
    · intro _
      rw [List.getD_eq_getElem?_getD, List.getElem?_append_right (by omega),
        hitlen]
      rfl
    · intro hne
      exact absurd hne hv

end MPT
namespace MPT

/-! ## The ten claims. -/

/-- Claim C1: after a sequence of insertions every most-recently inserted
value is retrievable; the pinned `[16]` / `[16, 0]` regression does hold,
but the universal statement fails: inserting `[0x11]`, `[0x12]` and then
the nested-prefix key `[0x11, 0x22]` panics inside `LeafNode::insert`
(the run is modelled as `none`), so `get` can never return the third
value. -/
theorem claim_C1 :
    ((runInserts [([16], [0x0A]), ([16, 0], [0x0B])]).map
      (fun t => (t.get [16], t.get [16, 0])) =
      some (some (some [0x0A]), some (some [0x0B]))) ∧
    runInserts [([0x11], [0x01]), ([0x12], [0x02]), ([0x11, 0x22], [0x03])] =
      none := by
  constructor
  · decide
  · decide

/-- Claim C2: after any operation no extension node's child is an
extension or a leaf.  Arena generation: in any tree built by public
insertions every stored extension points at a branch slot.  Old
generation: any node returned by `remove` on a shape-well-formed tree has
every extension child a branch (`ExtOK`). -/
theorem claim_C2 :
    (∀ (s : List (List Nat × List Nat)) (t : PatriciaMerkleTree),
      runInserts s = some t →
      ∀ r pf cref h2, t.nodes.get r = some (.ext pf cref h2) →
        ∃ cs vr h3, t.nodes.get cref = some (.branch cs vr h3)) ∧
    (∀ (V : Type) (fuel : Nat) (n : PT.PTNode V) (key : List Nat) (off : Nat)
      (res : Option (PT.PTNode V) × Option V) (n' : PT.PTNode V),
      PT.remove fuel n key off = some res → PT.ShapeWF n →
      res.1 = some n' → PT.ExtOK n') := by
  constructor
  · intro s t hrun
    exact sinv_ext_child (runInserts_SInv hrun)
  · intro V fuel n key off res n' hrem hwf hsome
    exact PT.shapeWF_extOK
      ((PT.pt_remove_wf_all fuel).1 n key off res hrem hwf n' hsome)

/-- Witness for claim C2: the two-key tree built from `[0x12]`, `[0x13]`
holds an extension at slot 3 whose child slot 2 is a branch; and the
leaf returned by an absent-key removal satisfies `ExtOK`. -/
theorem claim_C2_witness :
    (∃ cs vr h3,
      (⟨3,
        ⟨[some (.leaf 1 (0, [])), some (.leaf 0 (0, [])),
          some (.branch ([INVALID_REF, INVALID_REF, 1, 0] ++
            List.replicate 12 INVALID_REF) INVALID_REF (0, [])),
          some (.ext ⟨[19], false, true⟩ 2 (0, []))], []⟩,
        ⟨[some ([18], [1]), some ([19], [2])], []⟩⟩ :
          PatriciaMerkleTree).nodes.get 2 = some (.branch cs vr h3)) ∧
    PT.ExtOK (PT.PTNode.leaf [0] (5 : Nat)) := by
  constructor
  · exact claim_C2.1 [([0x12], [1]), ([0x13], [2])] _ (by decide) 3
      ⟨[19], false, true⟩ 2 (0, []) (by decide)
  · exact claim_C2.2 Nat 1 (.leaf [0] 5) [1] 0 (some (.leaf [0] 5), none)
      (.leaf [0] 5) rfl (PT.ShapeWF.leaf [0] 5) rfl

set_option maxRecDepth 100000 in
/-- Claim C3: a branch node hashes as a 17-item list — per choice the
child's inline encoding / framed digest or the empty string `0x80`, then
the value item — and the all-16-leaves branch yields the pinned
`0A3C…D49D` digest. -/
theorem claim_C3 :
    (∀ (H : List Nat → List Nat) (fuel : Nat) (nodes : Slab Node)
      (values : Slab KV) (choices : List Nat) (vref : Nat)
      (hs0 : Nat × List Nat) (key_offset : Nat) (out : List Nat),
      nodeHashF H (fuel + 1) nodes values (.branch choices vref hs0)
        key_offset = some out →
      ∃ items17 : List (List Nat),
        items17.length = 17 ∧
        out = extract_or_finalize H (write_list items17.flatten) ∧
        (∀ k, k < 16 → choices.getD k INVALID_REF = INVALID_REF →
          items17.getD k [] = write_slice []) ∧
        (∀ k, k < 16 → choices.getD k INVALID_REF ≠ INVALID_REF →
          ∃ child ch, nodes.get (choices.getD k INVALID_REF) = some child ∧
            nodeHashF H fuel nodes values child (key_offset + 1) = some ch ∧
            items17.getD k [] =
              (if ch.length < 32 then ch else write_slice ch)) ∧
        (vref = INVALID_REF → items17.getD 16 [] = write_slice []) ∧
        (vref ≠ INVALID_REF → ∃ kv, values.get vref = some kv ∧
          items17.getD 16 [] = write_slice kv.2)) ∧
    nodeHashF keccak256 2
      ⟨(List.range 16).map (fun i => some (.leaf i (0, []))), []⟩
      ⟨(List.range 16).map (fun i => some ([16 * i], [16 * i])), []⟩
      (.branch (List.range 16) INVALID_REF (0, [])) 0 =
      some [0x0A, 0x3C, 0x06, 0x2D, 0x4A, 0xE3, 0x61, 0xEC, 0xC4, 0x82,
        0x07, 0xB3, 0x2A, 0xDB, 0x6A, 0x3A, 0x3F, 0x3E, 0x98, 0x33,
        0xC8, 0x9C, 0x9A, 0x71, 0x66, 0x3F, 0x4E, 0xB5, 0x61, 0x72,
        0xD4, 0x9D] := by
  constructor
  · exact branch_hash_shape
  · decide

/-- Witness for claim C3: the all-vacant branch frames 17 empty items. -/
theorem claim_C3_witness :
    ∃ items17 : List (List Nat),
      items17.length = 17 ∧
      ([0xD1] ++ List.replicate 17 0x80 : List Nat) =
        extract_or_finalize keccak256 (write_list items17.flatten) ∧
      (∀ k, k < 16 →
        (List.replicate 16 INVALID_REF).getD k INVALID_REF = INVALID_REF →
        items17.getD k [] = write_slice []) ∧
      (∀ k, k < 16 →
        (List.replicate 16 INVALID_REF).getD k INVALID_REF ≠ INVALID_REF →
        ∃ child ch,
          (⟨[], []⟩ : Slab Node).get
            ((List.replicate 16 INVALID_REF).getD k INVALID_REF) =
              some child ∧
          nodeHashF keccak256 0 ⟨[], []⟩ ⟨[], []⟩ child (0 + 1) = some ch ∧
          items17.getD k [] =
            (if ch.length < 32 then ch else write_slice ch)) ∧
      (INVALID_REF = INVALID_REF → items17.getD 16 [] = write_slice []) ∧
      (INVALID_REF ≠ INVALID_REF →
        ∃ kv, (⟨[], []⟩ : Slab KV).get INVALID_REF = some kv ∧
          items17.getD 16 [] = write_slice kv.2) :=
  claim_C3.1 keccak256 0 ⟨[], []⟩ ⟨[], []⟩ (List.replicate 16 INVALID_REF)
    INVALID_REF (0, []) 0 ([0xD1] ++ List.replicate 17 0x80) (by decide)

/-- Claim C4: insert returns the previous value exactly on present keys.
Positive part: re-inserting a stored pair returns the prior value and
leaves the state unchanged (idempotence).  But the absent-key contract
fails: with `[0x11]` and `[0x12]` stored, the key `[0x11, 0x22]` is
absent (`get` returns `None`) yet inserting it panics (`none`) instead of
returning `None`. -/
theorem claim_C4 :
    (∃ t1 t2 : PatriciaMerkleTree,
      PatriciaMerkleTree.new.insert [0x12] [0x34] = some (t1, none) ∧
      t1.insert [0x12] [0x34] = some (t2, some [0x34]) ∧ t2 = t1) ∧
    ((runInserts [([0x11], [0x01]), ([0x12], [0x02])]).map
      (fun t => (t.get [0x11, 0x22], t.insert [0x11, 0x22] [0x03])) =
      some (some none, none)) := by
  constructor
  · exact ⟨⟨0, ⟨[some (.leaf 0 (0, []))], []⟩, ⟨[some ([0x12], [0x34])], []⟩⟩,
      ⟨0, ⟨[some (.leaf 0 (0, []))], []⟩, ⟨[some ([0x12], [0x34])], []⟩⟩,
      by decide, by decide, rfl⟩
  · decide

/-- Claim C5: removing an absent key is a no-op returning absent;
removing a present key returns its value; a leaf whose stored key matches
disappears, returning `(None, Some value)`. -/
theorem claim_C5 :
    (∀ (V : Type) (fuel : Nat) (n : PT.PTNode V) (key : List Nat) (off : Nat)
      (res : Option (PT.PTNode V) × Option V),
      PT.remove fuel n key off = some res → PT.ShapeWF n →
      ¬PT.KeyIn key n → res = (some n, none)) ∧
    (∀ (V : Type) (fuel : Nat) (n : PT.PTNode V) (key : List Nat) (v : V)
      (off : Nat) (res : Option (PT.PTNode V) × Option V),
      PT.remove fuel n key off = some res → PT.PosWF n off →
      PT.KeyValIn key v n → res.2 = some v) ∧
    (∀ (V : Type) (fuel : Nat) (k : List Nat) (v : V)
      (res : Option (PT.PTNode V) × Option V),
      PT.remove (fuel + 1) (.leaf k v) k 0 = some res →
      res = (none, some v)) := by
  refine ⟨?_, ?_, ?_⟩
  · intro V fuel n key off res h hwf habs
    exact (PT.pt_remove_absent_all fuel).1 n key off res h hwf habs
  · intro V fuel n key v off res h hpos hkv
    exact (PT.pt_remove_present_all fuel).1 n key v off res h hpos hkv
  · intro V fuel k v res h
    simp only [PT.remove, Option.pure_def] at h
    rw [if_pos trivial] at h
    injection h with h
    exact h.symm

/-- Witness for claim C5 at concrete leaves: an absent-key removal is the
identity, a matching removal surfaces the value, and the matched leaf
vanishes. -/
theorem claim_C5_witness :
    ((some (PT.PTNode.leaf [0] (5 : Nat)), (none : Option Nat)) =
      (some (PT.PTNode.leaf [0] 5), none)) ∧
    ((none : Option (PT.PTNode Nat)), some (5 : Nat)).2 = some 5 ∧
    (((none : Option (PT.PTNode Nat)), some (7 : Nat)) = (none, some 7)) := by
  refine ⟨?_, ?_, ?_⟩
  · refine claim_C5.1 Nat 1 (.leaf [0] 5) [1] 0 (some (.leaf [0] 5), none)
      rfl (PT.ShapeWF.leaf [0] 5) ?_
    intro hin
    obtain ⟨v, hkv⟩ := hin
    exact absurd (PT.keyValIn_leaf_inv hkv).1 (by decide)
  · refine claim_C5.2.1 Nat 1 (.leaf (List.replicate 32 0) 5)
      (List.replicate 32 0) 5 0 (none, some 5) rfl
      (PT.PosWF.leaf _ _ _ (by simp) ?_ (by omega))
      (PT.KeyValIn.leaf _ _)
    intro b hb
    rw [List.eq_of_mem_replicate hb]
    omega
  · exact claim_C5.2.2 Nat 0 [0] 7 (none, some 7) rfl

/-- Claim C6: every branch keeps at least two exits after any operation,
and a removal that leaves one exit collapses the branch.  Arena side: any
branch slot of a tree built by insertions has two or more exits.  Old
generation: nodes surviving `remove` satisfy `BranchMin`, and removing
one of the two keys under a two-leaf branch collapses it to the remaining
leaf. -/
theorem claim_C6 :
    (∀ (s : List (List Nat × List Nat)) (t : PatriciaMerkleTree),
      runInserts s = some t →
      ∀ r cs vr h2, t.nodes.get r = some (.branch cs vr h2) →
        2 ≤ countValid cs + (if vr ≠ INVALID_REF then 1 else 0)) ∧
    (∀ (V : Type) (fuel : Nat) (n : PT.PTNode V) (key : List Nat) (off : Nat)
      (res : Option (PT.PTNode V) × Option V) (n' : PT.PTNode V),
      PT.remove fuel n key off = some res → PT.ShapeWF n →
      res.1 = some n' → PT.BranchMin n') ∧
    PT.remove 3 (PT.PTNode.branch
        ([some (.leaf (List.replicate 32 0) (1 : Nat)),
          some (.leaf (16 :: List.replicate 31 0) 2)] ++
          List.replicate 14 none))
      (List.replicate 32 0) 0 =
      some (some (.leaf (16 :: List.replicate 31 0) 2), some 1) := by
  refine ⟨?_, ?_, ?_⟩
  · intro s t hrun
    exact sinv_branch_exits (runInserts_SInv hrun)
  · intro V fuel n key off res n' hrem hwf hsome
    exact PT.shapeWF_branchMin
      ((PT.pt_remove_wf_all fuel).1 n key off res hrem hwf n' hsome)
  · rfl

/-- Witness for claim C6: the branch slot of the two-key tree has two
valid children, and a leaf surviving an absent-key removal satisfies
`BranchMin`. -/
theorem claim_C6_witness :
    2 ≤ countValid ([INVALID_REF, INVALID_REF, 1, 0] ++
      List.replicate 12 INVALID_REF) +
      (if (INVALID_REF : Nat) ≠ INVALID_REF then 1 else 0) ∧
    PT.BranchMin (PT.PTNode.leaf [2] (6 : Nat)) := by
  constructor
  · exact claim_C6.1 [([0x12], [1]), ([0x13], [2])]
      ⟨3,
        ⟨[some (.leaf 1 (0, [])), some (.leaf 0 (0, [])),
          some (.branch ([INVALID_REF, INVALID_REF, 1, 0] ++
            List.replicate 12 INVALID_REF) INVALID_REF (0, [])),
          some (.ext ⟨[19], false, true⟩ 2 (0, []))], []⟩,
        ⟨[some ([18], [1]), some ([19], [2])], []⟩⟩
      (by decide) 2 _ INVALID_REF (0, []) (by decide)
  · exact claim_C6.2.1 Nat 1 (.leaf [2] 6) [3] 0 (some (.leaf [2] 6), none)
      (.leaf [2] 6) rfl (PT.ShapeWF.leaf [2] 6) rfl

/-- Claim C7: on the empty trie `get` answers absent and `compute_hash`
answers absent, with no failure. -/
theorem claim_C7 (path : List Nat) (H : List Nat → List Nat) :
    PatriciaMerkleTree.new.get path = some none ∧
    PatriciaMerkleTree.new.compute_hash H = some none :=
  ⟨rfl, rfl⟩

/-- Claim C8: `split_extract_at i` on an `n`-nibble vector with `i < n`
returns the first `i` nibbles, the nibble at `i`, and the remaining
`n - i - 1` nibbles, both sides renormalized; and a single-byte vector
with both half flags set normalizes to the canonical empty state. -/
theorem claim_C8 :
    (∀ (v : NibbleVec) (i : Nat), i < v.nibbleCount →
      ∃ left c right, v.split_extract_at i = some (left, c, right) ∧
        left.toNibbles = v.toNibbles.take i ∧
        c = v.toNibbles.getD i 0 ∧
        right.toNibbles = v.toNibbles.drop (i + 1)) ∧
    (∀ b : Nat, NibbleVec.normalize ⟨[b], true, true⟩ = ⟨[], false, false⟩) := by
  constructor
  · exact split_extract_at_spec
  · intro b
    unfold NibbleVec.normalize
    rw [if_pos (Or.inr ⟨rfl, rfl, rfl⟩)]

/-- Witness for claim C8: splitting the two-nibble vector `0x12` at
index 0. -/
theorem claim_C8_witness :
    ∃ left c right,
      NibbleVec.split_extract_at ⟨[0x12], false, false⟩ 0 =
        some (left, c, right) ∧
      left.toNibbles = (NibbleVec.toNibbles ⟨[0x12], false, false⟩).take 0 ∧
      c = (NibbleVec.toNibbles ⟨[0x12], false, false⟩).getD 0 0 ∧
      right.toNibbles =
        (NibbleVec.toNibbles ⟨[0x12], false, false⟩).drop (0 + 1) :=
  claim_C8.1 ⟨[0x12], false, false⟩ 0 (by decide)

/-- Claim C9: `len` counts the value arena and `is_empty` is the
population check: on every tree reachable by the public insert API,
`is_empty` holds exactly when `len` is zero. -/
theorem claim_C9 :
    (∀ t : PatriciaMerkleTree, t.len = t.values.len) ∧
    (∀ (s : List (List Nat × List Nat)) (t : PatriciaMerkleTree),
      runInserts s = some t → (t.is_empty = true ↔ t.len = 0)) := by
  constructor
  · intro t
    rfl
  · intro s t hrun
    exact sinv_empty_iff (runInserts_SInv hrun)

/-- Witness for claim C9 on the empty tree. -/
theorem claim_C9_witness :
    PatriciaMerkleTree.new.is_empty = true ↔ PatriciaMerkleTree.new.len = 0 :=
  claim_C9.2 [] PatriciaMerkleTree.new rfl

/-- Claim C10: a successful insert of a present key (previous value
returned) keeps `len` and the value arena size unchanged; inserting an
absent key (no previous value) grows `len` by exactly one. -/
theorem claim_C10 (s : List (List Nat × List Nat)) (t : PatriciaMerkleTree)
    (hrun : runInserts s = some t) (path value : List Nat)
    (t' : PatriciaMerkleTree) (old : Option (List Nat))
    (hins : t.insert path value = some (t', old)) :
    (old = none → t'.len = t.len + 1) ∧
    (old ≠ none → t'.len = t.len ∧
      t'.values.entries.length = t.values.entries.length) :=
  ⟨(insert_SInv (runInserts_SInv hrun) hins).2.1,
   (insert_SInv (runInserts_SInv hrun) hins).2.2⟩

/-- Witness for claim C10: overwriting the stored key `[0x12]` keeps the
value count and arena size. -/
theorem claim_C10_witness :
    ((some [0x34] : Option (List Nat)) = none →
      (⟨0, ⟨[some (.leaf 0 (0, []))], []⟩,
        ⟨[some ([0x12], [0x99])], []⟩⟩ : PatriciaMerkleTree).len =
      (⟨0, ⟨[some (.leaf 0 (0, []))], []⟩,
        ⟨[some ([0x12], [0x34])], []⟩⟩ : PatriciaMerkleTree).len + 1) ∧
    ((some [0x34] : Option (List Nat)) ≠ none →
      (⟨0, ⟨[some (.leaf 0 (0, []))], []⟩,
        ⟨[some ([0x12], [0x99])], []⟩⟩ : PatriciaMerkleTree).len =
      (⟨0, ⟨[some (.leaf 0 (0, []))], []⟩,
        ⟨[some ([0x12], [0x34])], []⟩⟩ : PatriciaMerkleTree).len ∧
      (⟨0, ⟨[some (.leaf 0 (0, []))], []⟩,
        ⟨[some ([0x12], [0x99])], []⟩⟩ :
          PatriciaMerkleTree).values.entries.length =
      (⟨0, ⟨[some (.leaf 0 (0, []))], []⟩,
        ⟨[some ([0x12], [0x34])], []⟩⟩ :
          PatriciaMerkleTree).values.entries.length) :=
  claim_C10 [([0x12], [0x34])]
    ⟨0, ⟨[some (.leaf 0 (0, []))], []⟩, ⟨[some ([0x12], [0x34])], []⟩⟩
    (by decide) [0x12] [0x99]
    ⟨0, ⟨[some (.leaf 0 (0, []))], []⟩, ⟨[some ([0x12], [0x99])], []⟩⟩
    (some [0x34]) (by decide)

end MPT
